import Mathlib

/-!
Verification of the sparse factorization engine of the BATS repository
(`include/linalg/sparse_fact.h`): the LEUP / PLEU / UELP / PUEL
factorizations and the echelon commutation operators.

The sparse-vector and column-matrix primitives (`sparse_vector.h`,
`col_matrix.h`) are not part of the provided sources; they are modelled
from the specification (sections 3, 4.2, 4.3 of the spec).  All code in
`sparse_fact.h` is translated directly from the source.
-/

set_option maxRecDepth 10000
set_option linter.unusedSectionVars false

/-- Modelled from the spec: a sparse vector is an ordered sequence of
(row-index, value) pairs, strictly increasing by index, with no stored
zero values.  (`sparse_vector.h` is absent from src.) -/
abbrev SpVec (α : Type) := List (Nat × α)

/-- Entry lookup: value stored at row `r`, or zero. -/
def SpVec.get [Zero α] (v : SpVec α) (r : Nat) : α :=
  match v.find? (fun p => p.1 == r) with
  | some p => p.2
  | none => 0

/-- Well-formedness: strictly increasing indices and no stored zeros. -/
def SpVec.wf [Zero α] (v : SpVec α) : Prop :=
  List.Pairwise (fun p q : Nat × α => p.1 < q.1) v ∧ ∀ p ∈ v, p.2 ≠ 0

instance [Zero α] [DecidableEq α] (v : SpVec α) : Decidable v.wf := by
  unfold SpVec.wf; infer_instance

/-- Canonical sparse vector of a dense function on rows `< m`. -/
def SpVec.ofFn [Zero α] [DecidableEq α] (m : Nat) (f : Nat → α) : SpVec α :=
  (List.range m).filterMap (fun r => if f r = 0 then none else some (r, f r))

/-- One more than the largest stored index (0 for the empty vector). -/
def SpVec.bnd (v : SpVec α) : Nat :=
  v.foldr (fun p acc => max (p.1 + 1) acc) 0

theorem SpVec.lt_bnd (v : SpVec α) : ∀ p ∈ v, p.1 < v.bnd := by
  induction v with
  | nil => simp
  | cons q t ih =>
    intro p hp
    rcases List.mem_cons.mp hp with h | h
    · subst h; simp only [SpVec.bnd, List.foldr_cons]; omega
    · have := ih p h
      simp only [SpVec.bnd, List.foldr_cons] at this ⊢
      omega

theorem SpVec.get_of_not_mem [Zero α] (v : SpVec α) (r : Nat)
    (h : ∀ p ∈ v, p.1 ≠ r) : v.get r = 0 := by
  unfold SpVec.get
  cases hf : v.find? (fun p => p.1 == r) with
  | none => rfl
  | some p =>
    have hmem := List.mem_of_find?_eq_some hf
    have hpr : p.1 = r := by simpa using List.find?_some hf
    exact absurd hpr (h p hmem)

theorem SpVec.get_eq_zero_of_ge [Zero α] (v : SpVec α) (r : Nat)
    (h : v.bnd ≤ r) : v.get r = 0 := by
  apply SpVec.get_of_not_mem
  intro p hp
  have := SpVec.lt_bnd v p hp
  omega

theorem SpVec.mem_ofFn [Zero α] [DecidableEq α] {m : Nat} {f : Nat → α} {p : Nat × α} :
    p ∈ SpVec.ofFn m f ↔ p.1 < m ∧ f p.1 ≠ 0 ∧ p.2 = f p.1 := by
  unfold SpVec.ofFn
  rw [List.mem_filterMap]
  constructor
  · rintro ⟨a, ha, hpa⟩
    by_cases hz : f a = 0
    · rw [if_pos hz] at hpa; cases hpa
    · rw [if_neg hz] at hpa
      cases hpa
      exact ⟨List.mem_range.mp ha, hz, rfl⟩
  · rintro ⟨h1, h2, h3⟩
    refine ⟨p.1, List.mem_range.mpr h1, ?_⟩
    rw [if_neg h2, ← h3]

theorem SpVec.get_ofFn [Zero α] [DecidableEq α] (m : Nat) (f : Nat → α) (r : Nat) :
    (SpVec.ofFn m f).get r = if r < m then f r else 0 := by
  by_cases hr : r < m
  · by_cases hz : f r = 0
    · rw [if_pos hr, hz]
      apply SpVec.get_of_not_mem
      intro p hp hpr
      rcases SpVec.mem_ofFn.mp hp with ⟨_, h2, _⟩
      rw [hpr] at h2
      exact h2 hz
    · rw [if_pos hr]
      unfold SpVec.get
      cases hf : (SpVec.ofFn m f).find? (fun p => p.1 == r) with
      | none =>
        rw [List.find?_eq_none] at hf
        exact absurd (by simp : ((fun p : Nat × α => p.1 == r) (r, f r)) = true)
          (hf (r, f r) (SpVec.mem_ofFn.mpr ⟨hr, hz, rfl⟩))
      | some p =>
        have hpr : p.1 = r := by simpa using List.find?_some hf
        rcases SpVec.mem_ofFn.mp (List.mem_of_find?_eq_some hf) with ⟨_, _, h3⟩
        show p.2 = f r
        rw [h3, hpr]
  · rw [if_neg hr]
    apply SpVec.get_of_not_mem
    intro p hp hpr
    rcases SpVec.mem_ofFn.mp hp with ⟨h1, _, _⟩
    omega

theorem SpVec.wf_ofFn [Zero α] [DecidableEq α] (m : Nat) (f : Nat → α) :
    (SpVec.ofFn m f).wf := by
  constructor
  · apply List.Pairwise.filterMap _ ?_ (List.pairwise_lt_range m)
    intro a b hab x hx y hy
    by_cases hza : f a = 0
    · rw [if_pos hza] at hx; cases hx
    · by_cases hzb : f b = 0
      · rw [if_pos hzb] at hy; cases hy
      · rw [if_neg hza] at hx
        rw [if_neg hzb] at hy
        cases hx; cases hy
        exact hab
  · intro p hp
    rcases SpVec.mem_ofFn.mp hp with ⟨_, h2, h3⟩
    rw [h3]; exact h2

theorem SpVec.get_nil [Zero α] (r : Nat) : SpVec.get ([] : SpVec α) r = 0 := rfl

theorem SpVec.get_cons_self [Zero α] (p : Nat × α) (s : SpVec α) :
    SpVec.get (p :: s) p.1 = p.2 := by
  unfold SpVec.get
  simp [List.find?]

theorem SpVec.get_cons_ne [Zero α] (p : Nat × α) (s : SpVec α) (r : Nat)
    (h : p.1 ≠ r) : SpVec.get (p :: s) r = SpVec.get s r := by
  unfold SpVec.get
  simp only [List.find?]
  have : (p.1 == r) = false := by simpa using h
  rw [this]

theorem SpVec.get_cons_pair [Zero α] (i : Nat) (a : α) (s : SpVec α) :
    SpVec.get ((i, a) :: s) i = a := SpVec.get_cons_self (i, a) s

/-- Two well-formed sparse vectors with the same entries are equal. -/
theorem SpVec.ext_get [Zero α] {u v : SpVec α} (hu : u.wf) (hv : v.wf)
    (h : ∀ r, u.get r = v.get r) : u = v := by
  induction u generalizing v with
  | nil =>
    cases v with
    | nil => rfl
    | cons q t =>
      exfalso
      have h2 := h q.1
      rw [SpVec.get_nil, SpVec.get_cons_self] at h2
      exact hv.2 q (List.mem_cons_self _ _) h2.symm
  | cons p s ih =>
    cases v with
    | nil =>
      exfalso
      have h2 := h p.1
      rw [SpVec.get_nil, SpVec.get_cons_self] at h2
      exact hu.2 p (List.mem_cons_self _ _) h2
    | cons q t =>
      have hps : ∀ x ∈ s, p.1 < x.1 := fun x hx => (List.pairwise_cons.mp hu.1).1 x hx
      have hqt : ∀ x ∈ t, q.1 < x.1 := fun x hx => (List.pairwise_cons.mp hv.1).1 x hx
      have hgp : SpVec.get (p :: s) p.1 = p.2 := SpVec.get_cons_self p s
      have hgq : SpVec.get (q :: t) q.1 = q.2 := SpVec.get_cons_self q t
      -- heads have equal indices
      have hpq : p.1 = q.1 := by
        by_contra hne
        rcases Nat.lt_or_ge p.1 q.1 with hlt | hge
        · -- q::t has no entry at p.1
          have : SpVec.get (q :: t) p.1 = 0 := by
            apply SpVec.get_of_not_mem
            intro x hx
            rcases List.mem_cons.mp hx with hh | hh
            · subst hh; omega
            · have := hqt x hh; omega
          have h2 := h p.1
          rw [hgp, this] at h2
          exact hu.2 p (List.mem_cons_self _ _) h2
        · have hlt : q.1 < p.1 := by omega
          have : SpVec.get (p :: s) q.1 = 0 := by
            apply SpVec.get_of_not_mem
            intro x hx
            rcases List.mem_cons.mp hx with hh | hh
            · subst hh; omega
            · have := hps x hh; omega
          have h2 := h q.1
          rw [hgq, this] at h2
          exact hv.2 q (List.mem_cons_self _ _) h2.symm
      have hval : p.2 = q.2 := by
        have h2 := h p.1
        rw [hgp] at h2
        rw [h2, hpq, hgq]
      have htail : s = t := by
        apply ih ⟨List.Pairwise.of_cons hu.1, fun x hx => hu.2 x (List.mem_cons_of_mem _ hx)⟩
          ⟨List.Pairwise.of_cons hv.1, fun x hx => hv.2 x (List.mem_cons_of_mem _ hx)⟩
        intro r
        by_cases hrp : r = p.1
        · have hs0 : SpVec.get s r = 0 :=
            SpVec.get_of_not_mem _ _ (fun x hx => by have := hps x hx; omega)
          have ht0 : SpVec.get t r = 0 :=
            SpVec.get_of_not_mem _ _ (fun x hx => by
              have h1 := hqt x hx
              have h2 : p.1 = q.1 := hpq
              omega)
          rw [hs0, ht0]
        · have hs : SpVec.get (p :: s) r = SpVec.get s r :=
            SpVec.get_cons_ne p s r (fun hh => hrp hh.symm)
          have ht : SpVec.get (q :: t) r = SpVec.get t r :=
            SpVec.get_cons_ne q t r (fun hh => hrp (hpq.trans hh).symm)
          rw [← hs, ← ht, h]
      calc p :: s = ⟨p.1, p.2⟩ :: s := rfl
        _ = ⟨q.1, q.2⟩ :: t := by rw [hpq, hval, htail]
        _ = q :: t := rfl

variable {α : Type} [Field α] [DecidableEq α]

/-- Modelled from the spec: `axpy(scalar, other, lo, hi)` adds
`scalar * other` restricted to indices in the half-open range into self,
maintaining sorted order and dropping zero entries. -/
def SpVec.axpy (y : SpVec α) (c : α) (x : SpVec α) (lo hi : Nat) : SpVec α :=
  SpVec.ofFn (max y.bnd (min hi x.bnd))
    (fun r => y.get r + if lo ≤ r ∧ r < hi then c * x.get r else 0)

theorem SpVec.get_axpy (y : SpVec α) (c : α) (x : SpVec α) (lo hi r : Nat) :
    (y.axpy c x lo hi).get r =
      y.get r + if lo ≤ r ∧ r < hi then c * x.get r else 0 := by
  unfold SpVec.axpy
  rw [SpVec.get_ofFn]
  by_cases h : r < max y.bnd (min hi x.bnd)
  · rw [if_pos h]
  · rw [if_neg h]
    have hy : y.get r = 0 := SpVec.get_eq_zero_of_ge y r (by omega)
    have : (if lo ≤ r ∧ r < hi then c * x.get r else 0) = 0 := by
      by_cases hin : lo ≤ r ∧ r < hi
      · rw [if_pos hin]
        have hx : x.get r = 0 := SpVec.get_eq_zero_of_ge x r (by omega)
        rw [hx, mul_zero]
      · rw [if_neg hin]
    rw [hy, this, add_zero]

theorem SpVec.wf_axpy (y : SpVec α) (c : α) (x : SpVec α) (lo hi : Nat) :
    (y.axpy c x lo hi).wf := SpVec.wf_ofFn _ _

/-- Modelled from the spec (design note on lazy history accumulation):
`axpy(x, coeff, pivs)` applies the deferred list of (scalar, pivot-row)
operations: for each `k`, add `coeff[k] * x(pivs[k])` at index `k`. -/
def SpVec.axpyLazy (y x : SpVec α) (coeff : List α) (pivs : List Nat) : SpVec α :=
  SpVec.ofFn (max y.bnd (min coeff.length pivs.length))
    (fun k => y.get k +
      if k < coeff.length ∧ k < pivs.length then coeff.getD k 0 * x.get (pivs.getD k 0) else 0)

theorem SpVec.get_axpyLazy (y x : SpVec α) (coeff : List α) (pivs : List Nat) (k : Nat) :
    (y.axpyLazy x coeff pivs).get k =
      y.get k +
        if k < coeff.length ∧ k < pivs.length then coeff.getD k 0 * x.get (pivs.getD k 0) else 0 := by
  unfold SpVec.axpyLazy
  rw [SpVec.get_ofFn]
  by_cases h : k < max y.bnd (min coeff.length pivs.length)
  · rw [if_pos h]
  · rw [if_neg h]
    have hy : y.get k = 0 := SpVec.get_eq_zero_of_ge y k (by omega)
    have : (if k < coeff.length ∧ k < pivs.length
        then coeff.getD k 0 * x.get (pivs.getD k 0) else 0) = 0 := by
      by_cases hin : k < coeff.length ∧ k < pivs.length
      · omega
      · rw [if_neg hin]
    rw [hy, this, add_zero]

theorem SpVec.wf_axpyLazy (y x : SpVec α) (coeff : List α) (pivs : List Nat) :
    (y.axpyLazy x coeff pivs).wf := SpVec.wf_ofFn _ _

/-- Modelled from the spec: first stored entry with index `≥ i0` (or none). -/
def SpVec.lowerBound (v : SpVec α) (i0 : Nat) : Option (Nat × α) :=
  v.find? (fun p => i0 ≤ p.1)

/-- Modelled from the spec: a column matrix is a declared row count, a
declared column count, and an ordered sequence of sparse columns.
(`col_matrix.h` is absent from src.) -/
structure ColumnMatrix (α : Type) where
  nrow : Nat
  ncol : Nat
  cols : List (SpVec α)
deriving DecidableEq

/-- Column access (out-of-range reads give the empty column). -/
def ColumnMatrix.col (A : ColumnMatrix α) (j : Nat) : SpVec α := A.cols.getD j []

/-- Entry access `A(i, j)` via the column's sparse lookup. -/
def ColumnMatrix.entry (A : ColumnMatrix α) (i j : Nat) : α := (A.col j).get i

/-- Data-model invariant: column count matches, every column is a
well-formed sparse vector with indices bounded by the row count. -/
def ColumnMatrix.wf (A : ColumnMatrix α) : Prop :=
  A.cols.length = A.ncol ∧ ∀ v ∈ A.cols, v.wf ∧ ∀ p ∈ v, p.1 < A.nrow

instance (A : ColumnMatrix α) : Decidable A.wf := by
  unfold ColumnMatrix.wf; infer_instance

/-- Replace column `j` (no-op when out of range, as `List.set`). -/
def ColumnMatrix.setCol (A : ColumnMatrix α) (j : Nat) (v : SpVec α) : ColumnMatrix α :=
  ⟨A.nrow, A.ncol, A.cols.set j v⟩

/-- Modelled from the spec: identity matrix of a given size. -/
def ColumnMatrix.identity (n : Nat) : ColumnMatrix α :=
  ⟨n, n, (List.range n).map (fun j => [(j, (1 : α))])⟩

/-- Modelled from the spec: matrix product — each output column is the
linear combination of left-matrix columns weighted by the right column's
entries, pruning zeros. -/
def ColumnMatrix.mul (A B : ColumnMatrix α) : ColumnMatrix α :=
  ⟨A.nrow, B.ncol,
    (List.range B.ncol).map (fun j =>
      SpVec.ofFn A.nrow (fun r =>
        ((List.range A.ncol).map (fun k => A.entry r k * B.entry k j)).sum))⟩

instance : Mul (ColumnMatrix α) := ⟨ColumnMatrix.mul⟩

/-- Modelled from the spec: transpose. -/
def ColumnMatrix.T (A : ColumnMatrix α) : ColumnMatrix α :=
  ⟨A.ncol, A.nrow,
    (List.range A.nrow).map (fun i => SpVec.ofFn A.ncol (fun j => A.entry i j))⟩

/-- Modelled from the spec: the conjugation operator that reverses both
row and column ordering (`J_conjugation`). -/
def ColumnMatrix.J (A : ColumnMatrix α) : ColumnMatrix α :=
  ⟨A.nrow, A.ncol,
    (List.range A.ncol).map (fun j =>
      SpVec.ofFn A.nrow (fun i => A.entry (A.nrow - 1 - i) (A.ncol - 1 - j)))⟩

/-- Modelled from the spec: O(1) exchange of two columns. -/
def ColumnMatrix.swap_cols (A : ColumnMatrix α) (j j2 : Nat) : ColumnMatrix α :=
  ⟨A.nrow, A.ncol, (A.cols.set j (A.col j2)).set j2 (A.col j)⟩

/-- Row-scaling of one sparse column: multiply the entry at row `r` by
`coeff[r]`, dropping entries that become zero. -/
def SpVec.rscale (coeff : List α) (v : SpVec α) : SpVec α :=
  v.filterMap (fun p =>
    if coeff.getD p.1 1 * p.2 = 0 then none else some (p.1, coeff.getD p.1 1 * p.2))

/-- Modelled from the spec: multiply every entry in row `i` by `coeff[i]`,
dropping entries that become zero. -/
def ColumnMatrix.row_scale (A : ColumnMatrix α) (coeff : List α) : ColumnMatrix α :=
  ⟨A.nrow, A.ncol, A.cols.map (SpVec.rscale coeff)⟩

theorem listSum_map_range {β : Type} [AddCommMonoid β] (f : Nat → β) (n : Nat) :
    ((List.range n).map f).sum = ∑ k ∈ Finset.range n, f k := by
  induction n with
  | zero => simp
  | succ k ih => rw [List.range_succ, List.map_append, List.sum_append,
      Finset.sum_range_succ, ih]; simp

theorem getD_map_range {β : Type} (g : Nat → β) (d : β) (n c : Nat) :
    ((List.range n).map g).getD c d = if c < n then g c else d := by
  rw [List.getD_eq_getElem?_getD, List.getElem?_map]
  by_cases h : c < n
  · rw [List.getElem?_range h, if_pos h]
    rfl
  · rw [if_neg h]
    have h0 : (List.range n)[c]? = none := by
      rw [List.getElem?_eq_none]
      simp only [List.length_range]
      omega
    rw [h0]
    rfl

theorem ColumnMatrix.col_setCol (A : ColumnMatrix α) (j : Nat) (v : SpVec α) (j' : Nat) :
    (A.setCol j v).col j' =
      if j' = j ∧ j < A.cols.length then v else A.col j' := by
  unfold ColumnMatrix.setCol ColumnMatrix.col
  simp only [List.getD_eq_getElem?_getD]
  by_cases hj : j' = j
  · subst hj
    by_cases hl : j' < A.cols.length
    · rw [List.getElem?_set_self hl]
      simp [hl]
    · rw [List.getElem?_set_self']
      have h0 : A.cols[j']? = none := by
        rw [List.getElem?_eq_none]; omega
      simp [h0, hl]
  · rw [List.getElem?_set_ne (fun hh => hj hh.symm)]
    simp [hj]

theorem ColumnMatrix.length_cols_setCol (A : ColumnMatrix α) (j : Nat) (v : SpVec α) :
    (A.setCol j v).cols.length = A.cols.length := by
  simp [ColumnMatrix.setCol]

theorem ColumnMatrix.col_swap_cols (A : ColumnMatrix α) (j j2 c : Nat)
    (hj : j < A.cols.length) (hj2 : j2 < A.cols.length) :
    (A.swap_cols j j2).col c =
      if c = j2 then A.col j else if c = j then A.col j2 else A.col c := by
  unfold ColumnMatrix.swap_cols ColumnMatrix.col
  simp only [List.getD_eq_getElem?_getD]
  by_cases hc2 : c = j2
  · subst hc2
    rw [List.getElem?_set_self (by simpa using hj2)]
    simp
  · rw [List.getElem?_set_ne (fun hh => hc2 hh.symm)]
    by_cases hc : c = j
    · subst hc
      rw [List.getElem?_set_self hj]
      simp [hc2]
    · rw [List.getElem?_set_ne (fun hh => hc hh.symm)]
      simp [hc2, hc]

theorem ColumnMatrix.col_identity (n c : Nat) :
    (ColumnMatrix.identity n (α := α)).col c =
      if c < n then [(c, (1 : α))] else [] := by
  unfold ColumnMatrix.identity ColumnMatrix.col
  rw [getD_map_range]

theorem ColumnMatrix.entry_identity (n r c : Nat) :
    (ColumnMatrix.identity n (α := α)).entry r c =
      if r = c ∧ c < n then 1 else 0 := by
  unfold ColumnMatrix.entry
  rw [ColumnMatrix.col_identity]
  by_cases hc : c < n
  · rw [if_pos hc]
    by_cases hr : r = c
    · subst hr
      rw [if_pos ⟨rfl, hc⟩]
      exact SpVec.get_cons_self (r, 1) []
    · rw [if_neg (fun hh => hr hh.1)]
      rw [SpVec.get_cons_ne _ _ _ (fun hh => hr hh.symm)]
      rfl
  · rw [if_neg hc, if_neg (fun hh => hc hh.2)]
    rfl

theorem ColumnMatrix.wf_identity (n : Nat) : (ColumnMatrix.identity n (α := α)).wf := by
  constructor
  · simp [ColumnMatrix.identity]
  · intro v hv
    simp only [ColumnMatrix.identity, List.mem_map, List.mem_range] at hv
    rcases hv with ⟨j, hj, rfl⟩
    refine ⟨⟨by simp, ?_⟩, ?_⟩
    · intro p hp
      rcases List.mem_cons.mp hp with h | h
      · subst h; exact one_ne_zero
      · cases h
    · intro p hp
      rcases List.mem_cons.mp hp with h | h
      · subst h; simpa using hj
      · cases h

theorem ColumnMatrix.col_mul (A B : ColumnMatrix α) (c : Nat) :
    (A * B).col c =
      if c < B.ncol then
        SpVec.ofFn A.nrow (fun r => ∑ k ∈ Finset.range A.ncol, A.entry r k * B.entry k c)
      else [] := by
  show (A.mul B).col c = _
  unfold ColumnMatrix.mul ColumnMatrix.col
  simp only
  rw [getD_map_range]
  by_cases h : c < B.ncol
  · rw [if_pos h, if_pos h]
    simp only [listSum_map_range]
  · rw [if_neg h, if_neg h]

theorem ColumnMatrix.entry_mul (A B : ColumnMatrix α) (r c : Nat) :
    (A * B).entry r c =
      if r < A.nrow ∧ c < B.ncol then
        ∑ k ∈ Finset.range A.ncol, A.entry r k * B.entry k c
      else 0 := by
  unfold ColumnMatrix.entry
  rw [ColumnMatrix.col_mul]
  by_cases hc : c < B.ncol
  · rw [if_pos hc, SpVec.get_ofFn]
    by_cases hr : r < A.nrow
    · simp [hr, hc, ColumnMatrix.entry]
    · simp [hr]
  · rw [if_neg hc, if_neg (fun hh => hc hh.2)]
    rfl

theorem ColumnMatrix.nrow_mul (A B : ColumnMatrix α) : (A * B).nrow = A.nrow := rfl

theorem ColumnMatrix.ncol_mul (A B : ColumnMatrix α) : (A * B).ncol = B.ncol := rfl

theorem ColumnMatrix.wf_mul (A B : ColumnMatrix α) : (A * B).wf := by
  constructor
  · show ((List.range B.ncol).map _).length = B.ncol
    simp
  · intro v hv
    rcases List.mem_map.mp hv with ⟨j, _, rfl⟩
    refine ⟨SpVec.wf_ofFn _ _, ?_⟩
    intro p hp
    exact (SpVec.mem_ofFn.mp hp).1

theorem ColumnMatrix.entry_T (A : ColumnMatrix α) (r c : Nat) :
    A.T.entry r c = if r < A.ncol ∧ c < A.nrow then A.entry c r else 0 := by
  unfold ColumnMatrix.entry ColumnMatrix.T ColumnMatrix.col
  simp only
  rw [getD_map_range]
  by_cases hc : c < A.nrow
  · rw [if_pos hc, SpVec.get_ofFn]
    by_cases hr : r < A.ncol
    · simp [hr, hc, ColumnMatrix.entry, ColumnMatrix.col]
    · simp [hr]
  · rw [if_neg hc, if_neg (fun hh => hc hh.2)]
    rfl

theorem ColumnMatrix.wf_T (A : ColumnMatrix α) : A.T.wf := by
  constructor
  · show ((List.range A.nrow).map _).length = A.nrow
    simp
  · intro v hv
    rcases List.mem_map.mp hv with ⟨j, _, rfl⟩
    exact ⟨SpVec.wf_ofFn _ _, fun p hp => (SpVec.mem_ofFn.mp hp).1⟩

theorem ColumnMatrix.entry_J (A : ColumnMatrix α) (r c : Nat) :
    A.J.entry r c =
      if r < A.nrow ∧ c < A.ncol then A.entry (A.nrow - 1 - r) (A.ncol - 1 - c) else 0 := by
  unfold ColumnMatrix.entry ColumnMatrix.J ColumnMatrix.col
  simp only
  rw [getD_map_range]
  by_cases hc : c < A.ncol
  · rw [if_pos hc, SpVec.get_ofFn]
    by_cases hr : r < A.nrow
    · simp [hr, hc, ColumnMatrix.entry, ColumnMatrix.col]
    · simp [hr]
  · rw [if_neg hc, if_neg (fun hh => hc hh.2)]
    rfl

theorem ColumnMatrix.wf_J (A : ColumnMatrix α) : A.J.wf := by
  constructor
  · show ((List.range A.ncol).map _).length = A.ncol
    simp
  · intro v hv
    rcases List.mem_map.mp hv with ⟨j, _, rfl⟩
    exact ⟨SpVec.wf_ofFn _ _, fun p hp => (SpVec.mem_ofFn.mp hp).1⟩

theorem ColumnMatrix.nrow_T (A : ColumnMatrix α) : A.T.nrow = A.ncol := rfl
theorem ColumnMatrix.ncol_T (A : ColumnMatrix α) : A.T.ncol = A.nrow := rfl
theorem ColumnMatrix.nrow_J (A : ColumnMatrix α) : A.J.nrow = A.nrow := rfl
theorem ColumnMatrix.ncol_J (A : ColumnMatrix α) : A.J.ncol = A.ncol := rfl

/-- Out-of-range entries of a well-formed matrix vanish. -/
theorem ColumnMatrix.entry_eq_zero_of_ge (A : ColumnMatrix α) (hA : A.wf) (r c : Nat)
    (h : A.nrow ≤ r ∨ A.ncol ≤ c) : A.entry r c = 0 := by
  unfold ColumnMatrix.entry ColumnMatrix.col
  rcases h with h | h
  · apply SpVec.get_of_not_mem
    intro p hp
    by_cases hc : c < A.cols.length
    · have hmem : A.cols.getD c [] ∈ A.cols := by
        rw [List.getD_eq_getElem?_getD, List.getElem?_eq_getElem hc]
        exact List.getElem_mem _
      have := (hA.2 _ hmem).2 p hp
      omega
    · rw [List.getD_eq_getElem?_getD, List.getElem?_eq_none (by omega)] at hp
      cases hp
  · have hclen : A.cols.length ≤ c := by rw [hA.1]; exact h
    rw [List.getD_eq_getElem?_getD, List.getElem?_eq_none hclen]
    exact SpVec.get_nil r

/-- A column of a well-formed matrix is well-formed and bounded. -/
theorem ColumnMatrix.col_wf (A : ColumnMatrix α) (hA : A.wf) (c : Nat) :
    (A.col c).wf ∧ ∀ p ∈ A.col c, p.1 < A.nrow := by
  unfold ColumnMatrix.col
  by_cases hc : c < A.cols.length
  · have hmem : A.cols.getD c [] ∈ A.cols := by
      rw [List.getD_eq_getElem?_getD, List.getElem?_eq_getElem hc]
      exact List.getElem_mem _
    exact hA.2 _ hmem
  · rw [List.getD_eq_getElem?_getD, List.getElem?_eq_none (by omega)]
    exact ⟨⟨List.Pairwise.nil, by simp⟩, by simp⟩

/-- Two well-formed matrices with equal dimensions and equal entries are equal. -/
theorem ColumnMatrix.ext_entry {A B : ColumnMatrix α} (hA : A.wf) (hB : B.wf)
    (hr : A.nrow = B.nrow) (hc : A.ncol = B.ncol)
    (h : ∀ r c, A.entry r c = B.entry r c) : A = B := by
  rcases A with ⟨m, n, cols⟩
  rcases B with ⟨m', n', cols'⟩
  simp only at hr hc
  subst hr; subst hc
  have hlen : cols.length = cols'.length := by
    rw [hA.1, hB.1]
  have : cols = cols' := by
    apply List.ext_getElem hlen
    intro i h1 h2
    have hcolA : ColumnMatrix.col ⟨m, n, cols⟩ i = cols[i] := by
      unfold ColumnMatrix.col
      simp [List.getD_eq_getElem?_getD, List.getElem?_eq_getElem h1]
    have hcolB : ColumnMatrix.col ⟨m, n, cols'⟩ i = cols'[i] := by
      unfold ColumnMatrix.col
      simp [List.getD_eq_getElem?_getD, List.getElem?_eq_getElem h2]
    apply SpVec.ext_get
    · exact (hA.2 _ (List.getElem_mem _)).1
    · exact (hB.2 _ (List.getElem_mem _)).1
    · intro r
      have := h r i
      unfold ColumnMatrix.entry at this
      rw [hcolA, hcolB] at this
      exact this
  rw [this]

theorem ColumnMatrix.entry_setCol (A : ColumnMatrix α) (j : Nat) (v : SpVec α) (r c : Nat) :
    (A.setCol j v).entry r c =
      if c = j ∧ j < A.cols.length then v.get r else A.entry r c := by
  unfold ColumnMatrix.entry
  rw [ColumnMatrix.col_setCol]
  by_cases h : c = j ∧ j < A.cols.length
  · rw [if_pos h, if_pos h]
  · rw [if_neg h, if_neg h]

theorem ColumnMatrix.wf_setCol (A : ColumnMatrix α) (hA : A.wf) (j : Nat) (v : SpVec α)
    (hv : v.wf) (hb : ∀ p ∈ v, p.1 < A.nrow) : (A.setCol j v).wf := by
  refine ⟨?_, ?_⟩
  · show (A.cols.set j v).length = A.ncol
    rw [List.length_set, hA.1]
  · intro w hw
    rcases List.mem_or_eq_of_mem_set hw with h | h
    · exact hA.2 w h
    · subst h; exact ⟨hv, hb⟩

theorem ColumnMatrix.wf_swap_cols (A : ColumnMatrix α) (hA : A.wf) (j j2 : Nat) :
    (A.swap_cols j j2).wf := by
  refine ⟨?_, ?_⟩
  · show (((A.cols.set j (A.col j2)).set j2 (A.col j))).length = A.ncol
    rw [List.length_set, List.length_set, hA.1]
  · intro w hw
    rcases List.mem_or_eq_of_mem_set hw with h | h
    · rcases List.mem_or_eq_of_mem_set h with h2 | h2
      · exact hA.2 w h2
      · subst h2
        have := ColumnMatrix.col_wf A hA j2
        exact ⟨this.1, this.2⟩
    · subst h
      have := ColumnMatrix.col_wf A hA j
      exact ⟨this.1, this.2⟩

theorem ColumnMatrix.entry_swap_cols (A : ColumnMatrix α) (j j2 r c : Nat)
    (hj : j < A.cols.length) (hj2 : j2 < A.cols.length) :
    (A.swap_cols j j2).entry r c =
      if c = j2 then A.entry r j else if c = j then A.entry r j2 else A.entry r c := by
  unfold ColumnMatrix.entry
  rw [ColumnMatrix.col_swap_cols A j j2 c hj hj2]
  by_cases h2 : c = j2
  · rw [if_pos h2, if_pos h2]
  · rw [if_neg h2, if_neg h2]
    by_cases h1 : c = j
    · rw [if_pos h1, if_pos h1]
    · rw [if_neg h1, if_neg h1]

theorem SpVec.get_rscale (coeff : List α) (v : SpVec α) (hv : v.wf) (r : Nat) :
    (SpVec.rscale coeff v).get r = coeff.getD r 1 * v.get r := by
  induction v with
  | nil => simp [SpVec.rscale, SpVec.get_nil]
  | cons p s ih =>
    have hs : SpVec.wf s :=
      ⟨List.Pairwise.of_cons hv.1, fun x hx => hv.2 x (List.mem_cons_of_mem _ hx)⟩
    unfold SpVec.rscale
    simp only [List.filterMap_cons]
    by_cases hz : coeff.getD p.1 1 * p.2 = 0
    · rw [if_pos hz]
      by_cases hr : p.1 = r
      · subst hr
        rw [SpVec.get_cons_self]
        have h0 : SpVec.get s p.1 = 0 := by
          apply SpVec.get_of_not_mem
          intro x hx
          have := (List.pairwise_cons.mp hv.1).1 x hx
          omega
        have := ih hs
        unfold SpVec.rscale at this
        rw [this, h0, mul_zero, hz]
      · rw [SpVec.get_cons_ne p s r hr]
        have := ih hs
        unfold SpVec.rscale at this
        rw [this]
    · rw [if_neg hz]
      by_cases hr : p.1 = r
      · subst hr
        rw [SpVec.get_cons_self, SpVec.get_cons_pair]
      · rw [SpVec.get_cons_ne p s r hr]
        rw [SpVec.get_cons_ne (p.1, coeff.getD p.1 1 * p.2) _ r hr]
        have := ih hs
        unfold SpVec.rscale at this
        rw [this]

theorem SpVec.wf_rscale (coeff : List α) (v : SpVec α) (hv : v.wf) :
    (SpVec.rscale coeff v).wf := by
  constructor
  · apply List.Pairwise.filterMap _ ?_ hv.1
    intro a b hab x hx y hy
    by_cases hza : coeff.getD a.1 1 * a.2 = 0
    · rw [if_pos hza] at hx; cases hx
    · by_cases hzb : coeff.getD b.1 1 * b.2 = 0
      · rw [if_pos hzb] at hy; cases hy
      · rw [if_neg hza] at hx
        rw [if_neg hzb] at hy
        cases hx; cases hy
        exact hab
  · intro p hp
    rcases List.mem_filterMap.mp hp with ⟨a, _, hpa⟩
    by_cases hz : coeff.getD a.1 1 * a.2 = 0
    · rw [if_pos hz] at hpa; cases hpa
    · rw [if_neg hz] at hpa; cases hpa; exact hz

theorem ColumnMatrix.wf_row_scale (A : ColumnMatrix α) (hA : A.wf) (coeff : List α) :
    (A.row_scale coeff).wf := by
  refine ⟨?_, ?_⟩
  · show (A.cols.map _).length = A.ncol
    rw [List.length_map, hA.1]
  · intro w hw
    rcases List.mem_map.mp hw with ⟨v, hv, rfl⟩
    refine ⟨SpVec.wf_rscale coeff v (hA.2 v hv).1, ?_⟩
    intro p hp
    rcases List.mem_filterMap.mp hp with ⟨a, ha, hpa⟩
    by_cases hz : coeff.getD a.1 1 * a.2 = 0
    · rw [if_pos hz] at hpa; cases hpa
    · rw [if_neg hz] at hpa
      cases hpa
      exact (hA.2 v hv).2 a ha

theorem ColumnMatrix.col_row_scale (A : ColumnMatrix α) (coeff : List α) (c : Nat) :
    (A.row_scale coeff).col c = SpVec.rscale coeff (A.col c) := by
  unfold ColumnMatrix.row_scale ColumnMatrix.col
  simp only
  by_cases hc : c < A.cols.length
  · rw [List.getD_eq_getElem?_getD, List.getD_eq_getElem?_getD, List.getElem?_map,
      List.getElem?_eq_getElem hc]
    rfl
  · rw [List.getD_eq_getElem?_getD, List.getD_eq_getElem?_getD,
      List.getElem?_eq_none (by simpa using by omega : A.cols.length ≤ c),
      List.getElem?_eq_none (by simp; omega)]
    rfl

theorem ColumnMatrix.entry_row_scale (A : ColumnMatrix α) (hA : A.wf) (coeff : List α)
    (r c : Nat) :
    (A.row_scale coeff).entry r c = coeff.getD r 1 * A.entry r c := by
  unfold ColumnMatrix.entry
  rw [ColumnMatrix.col_row_scale]
  exact SpVec.get_rscale coeff (A.col c) (ColumnMatrix.col_wf A hA c).1 r

/-- Factorization bundle (source: `struct SparseFact`). -/
structure SparseFact (α : Type) where
  L : ColumnMatrix α
  E : ColumnMatrix α
  U : ColumnMatrix α
  P : ColumnMatrix α
deriving DecidableEq

/-- Source: `SparseFact::LEUP_prod`, the product `L * E * U * P`. -/
def SparseFact.LEUP_prod (F : SparseFact α) : ColumnMatrix α := F.L * F.E * F.U * F.P

/-- Source: `SparseFact::PLEU_prod`, the product `P * L * E * U`. -/
def SparseFact.PLEU_prod (F : SparseFact α) : ColumnMatrix α := F.P * F.L * F.E * F.U

/-- Source: `SparseFact::UELP_prod`, the product `U * E * L * P`. -/
def SparseFact.UELP_prod (F : SparseFact α) : ColumnMatrix α := F.U * F.E * F.L * F.P

/-- Source: `SparseFact::PUEL_prod`, the product `P * U * E * L`. -/
def SparseFact.PUEL_prod (F : SparseFact α) : ColumnMatrix α := F.P * F.U * F.E * F.L

/-- The pivot map `p2c : std::map<size_t, std::vector<size_t>>`; an absent
key is `none`. -/
abbrev PivMap := Nat → Option (List Nat)

/-- Source: `update_pivot` — register column `j` at the row of its first
entry at index `≥ i0` (`operator[]` default-inserts the bucket). -/
def update_pivot (A : ColumnMatrix α) (p2c : PivMap) (j i0 : Nat) : PivMap :=
  match (A.col j).lowerBound i0 with
  | none => p2c
  | some piv => fun r => if r = piv.1 then some ((p2c piv.1).getD [] ++ [j]) else p2c r

/-- Source: `delete_pivot` — erase the first occurrence of `j` from the
bucket at the row of column `j`'s first entry at index `≥ i0`. -/
def delete_pivot (A : ColumnMatrix α) (p2c : PivMap) (j i0 : Nat) : PivMap :=
  match (A.col j).lowerBound i0 with
  | none => p2c
  | some piv => fun r => if r = piv.1 then some (((p2c piv.1).getD []).erase j) else p2c r

/-- Source: `get_pivots`. -/
def get_pivots (A : ColumnMatrix α) : PivMap :=
  (List.range A.ncol).foldl (fun p2c j => update_pivot A p2c j 0) (fun _ => none)

/-- State of the main loop of `LEUP_inplace`: the bundle, the pivot map,
the recorded pivots and coefficients, and the two cursors. -/
structure LoopSt (α : Type) where
  F : SparseFact α
  p2c : PivMap
  pivs : List Nat
  coeff : List α
  i : Nat
  j : Nat

/-- One Schur-complement update: body of the inner `for jj` loop of
`LEUP_inplace` (update column `jj` on rows `i+1..m`, refresh its pivot). -/
def schur_update (m i j : Nat) (a11 : α) (st : ColumnMatrix α × PivMap) (jj : Nat) :
    ColumnMatrix α × PivMap :=
  let c := st.1.entry i jj / a11
  let E1 := st.1.setCol jj ((st.1.col jj).axpy (-c) (st.1.col j) (i + 1) m)
  (E1, update_pivot E1 st.2 jj (i + 1))

/-- Column-swap phase of one `LEUP_inplace` iteration (the `if (j2 != j)`
block: delete stale pivot, swap in E and P, refresh pivot of `j2`). -/
def swap_phase (s : LoopSt α) (j2 : Nat) : LoopSt α :=
  if j2 ≠ s.j then
    let p2cA := delete_pivot s.F.E s.p2c s.j s.i
    let E1 := s.F.E.swap_cols s.j j2
    let p2cB := update_pivot E1 p2cA j2 s.i
    { s with F := { s.F with E := E1, P := s.F.P.swap_cols s.j j2 }, p2c := p2cB }
  else s

/-- Elimination phase of one `LEUP_inplace` iteration, after the swap:
lazy U update, Schur complement over the pivot bucket's tail, erase the
bucket, record the L column, reset `E[j]` to its pivot entry. -/
def elim_phase (m : Nat) (s : LoopSt α) : LoopSt α :=
  let U1 := s.F.U.setCol s.j ((s.F.U.col s.j).axpyLazy (s.F.E.col s.j) s.coeff s.pivs)
  let a11 := s.F.E.entry s.i s.j
  let pivs1 := s.pivs ++ [s.i]
  let coeff1 := s.coeff ++ [a11⁻¹]
  let tl := ((s.p2c s.i).getD []).tail
  let EP := tl.foldl (schur_update m s.i s.j a11) (s.F.E, s.p2c)
  let p2c1 : PivMap := fun r => if r = s.i then none else EP.2 r
  let L1 := s.F.L.setCol s.i ((s.F.L.col s.i).axpy a11⁻¹ (EP.1.col s.j) (s.i + 1) m)
  let E1 := EP.1.setCol s.j [(s.i, a11)]
  ⟨⟨L1, E1, U1, s.F.P⟩, p2c1, pivs1, coeff1, s.i + 1, s.j + 1⟩

/-- One iteration of the main `while` loop of `LEUP_inplace`. -/
def leup_body (m : Nat) (s : LoopSt α) : LoopSt α :=
  match s.p2c s.i with
  | some bucket => elim_phase m (swap_phase s (bucket.headD 0))
  | none => { s with i := s.i + 1 }

/-- The main `while (i < m && j < n)` loop of `LEUP_inplace`; the row
cursor increases every iteration, so fuel `m` always suffices. -/
def leup_loop (m n : Nat) : Nat → LoopSt α → LoopSt α
  | 0, s => s
  | fuel + 1, s =>
    if s.i < m ∧ s.j < n then leup_loop m n fuel (leup_body m s) else s

/-- The trailing `while (j < n)` loop of `LEUP_inplace`: apply the
deferred history to U and zero out the dependent columns of E. -/
def leup_finish (n : Nat) : Nat → LoopSt α → LoopSt α
  | 0, s => s
  | fuel + 1, s =>
    if s.j < n then
      let U1 := s.F.U.setCol s.j ((s.F.U.col s.j).axpyLazy (s.F.E.col s.j) s.coeff s.pivs)
      let E1 := s.F.E.setCol s.j []
      leup_finish n fuel { s with F := { s.F with U := U1, E := E1 }, j := s.j + 1 }
    else s

/-- Source: `LEUP_inplace` (finishing with `F.P = F.P.transpose()`). -/
def LEUP_inplace (F : SparseFact α) : SparseFact α :=
  let m := F.E.nrow
  let n := F.E.ncol
  let s1 := leup_loop m n m ⟨F, get_pivots F.E, [], [], 0, 0⟩
  let s2 := leup_finish n n s1
  ⟨s2.F.L, s2.F.E, s2.F.U, s2.F.P.T⟩

/-- Source: `LEUP` — initialize L, U, P to identities, E to A, reduce. -/
def LEUP (A : ColumnMatrix α) : SparseFact α :=
  LEUP_inplace ⟨ColumnMatrix.identity A.nrow, A, ColumnMatrix.identity A.ncol,
    ColumnMatrix.identity A.ncol⟩

/-- Source: `PLEU` — transpose in, reduce, transpose out, swapping L and U. -/
def PLEU (A : ColumnMatrix α) : SparseFact α :=
  let F := LEUP A.T
  ⟨F.U.T, F.E.T, F.L.T, F.P.T⟩

/-- Source: `PLEU_inplace`. -/
def PLEU_inplace (F : SparseFact α) : SparseFact α :=
  let F1 := LEUP_inplace { F with E := F.E.T }
  ⟨F1.U.T, F1.E.T, F1.L.T, F1.P.T⟩

/-- Source: `UELP` — conjugate in, reduce, conjugate out, swapping L and U. -/
def UELP (A : ColumnMatrix α) : SparseFact α :=
  let F := LEUP A.J
  ⟨F.U.J, F.E.J, F.L.J, F.P.J⟩

/-- Source: `UELP_inplace`. -/
def UELP_inplace (F : SparseFact α) : SparseFact α :=
  let F1 := LEUP_inplace { F with E := F.E.J }
  ⟨F1.U.J, F1.E.J, F1.L.J, F1.P.J⟩

/-- Source: `PUEL` — conjugate-transpose in, reduce, transpose-conjugate
out (no swap of L and U). -/
def PUEL (A : ColumnMatrix α) : SparseFact α :=
  let F := LEUP (A.J.T)
  ⟨F.L.T.J, F.E.T.J, F.U.T.J, F.P.T.J⟩

/-- Source: `PUEL_inplace` — conjugates then transposes on the way out
(the wrapper `PUEL` transposes then conjugates). -/
def PUEL_inplace (F : SparseFact α) : SparseFact α :=
  let F1 := LEUP_inplace { F with E := F.E.J.T }
  ⟨F1.L.J.T, F1.E.J.T, F1.U.J.T, F1.P.J.T⟩

/-- Source: `pivot_ind` — row of the first stored entry of column `j`
(`bats::NO_IND` modelled as `none`). -/
def pivot_ind (E : ColumnMatrix α) (j : Nat) : Option Nat :=
  (E.col j).head?.map Prod.fst

/-- Loop of `extract_row_scale`; `acc` is the assigned prefix
`coeff[0..i)`, so `acc.length` plays the role of the cursor `i`. -/
def ers_go (m n : Nat) : Nat → ColumnMatrix α → List α → Nat → ColumnMatrix α × List α
  | 0, E, acc, _ => (E, acc ++ List.replicate (m - acc.length) 1)
  | fuel + 1, E, acc, j =>
    if acc.length < m ∧ j < n then
      match E.col j with
      | [] => (E, acc ++ List.replicate (m - acc.length) 1)
      | (ind, v) :: rest =>
          let acc1 := acc ++ List.replicate (ind - acc.length) 1
          ers_go m n fuel (E.setCol j ((ind, 1) :: rest)) (acc1 ++ [v]) (j + 1)
    else (E, acc ++ List.replicate (m - acc.length) 1)

/-- Source: `extract_row_scale` — normalize the pivots of an EL matrix to
one, returning the per-row scale factors that recover the original. -/
def extract_row_scale (E : ColumnMatrix α) : ColumnMatrix α × List α :=
  ers_go E.nrow E.ncol E.ncol E [] 0

/-- Inner entry-rewriting loop of `EL_L_commute`: walk the entries of a
column of `L`, mapping row indices through `idx_map`, stopping at the
first row with no pivot column. -/
def elc_col (idx_map : List (Option Nat)) : SpVec α → SpVec α
  | [] => []
  | (r, v) :: rest =>
    match idx_map.getD r none with
    | none => []
    | some r2 => (r2, v) :: elc_col idx_map rest

/-- Column-placement loop of `EL_L_commute` (the `for ell` loop, breaking
at the first pivot-less column). -/
def elc_go (idx_map : List (Option Nat)) (L : ColumnMatrix α) (n : Nat) :
    Nat → ColumnMatrix α → Nat → ColumnMatrix α
  | 0, Lt, _ => Lt
  | fuel + 1, Lt, ell =>
    if ell < n then
      match idx_map.getD ell none with
      | none => Lt
      | some j_ell =>
          elc_go idx_map L n fuel (Lt.setCol j_ell (elc_col idx_map (L.col ell))) (ell + 1)
    else Lt

/-- Source: `EL_L_commute` — produce `Ltilde` with `Ltilde * EL = EL * L`. -/
def EL_L_commute (E L : ColumnMatrix α) : ColumnMatrix α :=
  let ELc := extract_row_scale E
  let n := ELc.1.ncol
  let idx_map := (List.range n).map (fun j => pivot_ind ELc.1 j)
  let Ltilde := elc_go idx_map L n n (ColumnMatrix.identity ELc.1.nrow) 0
  Ltilde.row_scale ELc.2

/-- Source: `L_EL_commute` — derived from `EL_L_commute` by the
transpose-conjugation symmetry. -/
def L_EL_commute (L E : ColumnMatrix α) : ColumnMatrix α :=
  (EL_L_commute (E.T.J) (L.T.J)).T.J

/-- Modelled from the spec: the naive dense row-major matrix product used
by the dense test scenario (`naive_dense.h` is absent from src). -/
def denseMatmul (A B : List (List Int)) : List (List Int) :=
  A.map (fun row =>
    (List.range (B.headD []).length).map (fun j =>
      ((List.range row.length).map (fun k => row.getD k 0 * (B.getD k []).getD j 0)).sum))

/-- Concrete five-element prime field (the code's `ModP<int, 5>`), used
for executable witnesses; the inverse is a lookup table so that every
operation reduces definitionally in the kernel. -/
abbrev F5 := Fin 5

instance : Field F5 :=
  { (inferInstance : CommRing (Fin 5)) with
    inv := fun a => ([0, 1, 3, 2, 4] : List F5).getD a.val 0
    div := fun a b => a * ([0, 1, 3, 2, 4] : List F5).getD b.val 0
    div_eq_mul_inv := fun _ _ => rfl
    exists_pair_ne := ⟨0, 1, by decide⟩
    mul_inv_cancel := by decide
    inv_zero := by decide
    nnqsmul := _
    qsmul := _ }

/-- Modelled from the spec: upper shape — every column's nonzero indices
are at most its column index. -/
def ColumnMatrix.is_upper (A : ColumnMatrix α) : Bool :=
  (List.range A.ncol).all (fun j => (A.col j).all (fun p => p.1 ≤ j))

/-- Modelled from the spec: lower shape — every column's nonzero indices
are at least its column index. -/
def ColumnMatrix.is_lower (A : ColumnMatrix α) : Bool :=
  (List.range A.ncol).all (fun j => (A.col j).all (fun p => j ≤ p.1))

/-- Modelled from the spec: pivot (permutation) matrix — exactly one
nonzero entry per row and per column, each equal to one. -/
def ColumnMatrix.is_pivot_matrix (A : ColumnMatrix α) : Bool :=
  (List.range A.ncol).all (fun j =>
    match A.col j with
    | [(_, a)] => decide (a = 1)
    | _ => false) &&
  (List.range A.nrow).all (fun r =>
    ((A.cols.filterMap List.head?).map Prod.fst).count r == 1)

/-- Strictly-increasing test on a list of naturals. -/
def ltChain : List Nat → Bool
  | a :: b :: t => a.blt b && ltChain (b :: t)
  | _ => true

theorem ltChain_iff (l : List Nat) : ltChain l = true ↔ List.Chain' (· < ·) l := by
  induction l with
  | nil => simp [ltChain]
  | cons a t ih =>
    cases t with
    | nil => simp [ltChain]
    | cons b t2 =>
      rw [List.chain'_cons]
      unfold ltChain
      rw [Bool.and_eq_true, ih, Nat.blt_eq]

/-- Modelled from the spec: EL (echelon-lower) shape — among nonzero
columns, pivot rows strictly increase with the column index (and
pivot-less columns, being sparse, are entirely zero). -/
def ColumnMatrix.is_EL (A : ColumnMatrix α) : Bool :=
  ltChain ((List.range A.ncol).filterMap (fun j => pivot_ind A j))

/-- Modelled from the spec: EU shape, the transposed-ordering dual of EL. -/
def ColumnMatrix.is_EU (A : ColumnMatrix α) : Bool := A.T.is_EL

/-- Modelled from the spec: ELhat, the row/column-reversed conjugate dual of EL. -/
def ColumnMatrix.is_ELhat (A : ColumnMatrix α) : Bool := A.J.is_EL

/-- Modelled from the spec: EUhat, the row/column-reversed conjugate dual of EU. -/
def ColumnMatrix.is_EUhat (A : ColumnMatrix α) : Bool := A.J.is_EU

/-- Claim C8: multiplying the literal 3×3 integer matrix
[[2,3,4],[1,2,3],[8,5,2]] by itself yields [[39,32,25],[28,22,16],[37,44,51]]
exactly (the dense product is modelled from the spec, `naive_dense.h`
being absent from src). -/
theorem denseMatmul_scenario :
    denseMatmul [[2, 3, 4], [1, 2, 3], [8, 5, 2]] [[2, 3, 4], [1, 2, 3], [8, 5, 2]] =
      [[39, 32, 25], [28, 22, 16], [37, 44, 51]] := by decide

/-- The 1×1 matrix `[[2]]` over `F5`: an EL-shaped matrix with a non-unit
pivot, exhibiting the commutation bug. -/
def Ebug : ColumnMatrix F5 := ⟨1, 1, [[(0, 2)]]⟩

/-- The 1×1 identity operator over `F5`. -/
def Lbug : ColumnMatrix F5 := ⟨1, 1, [[(0, 1)]]⟩

/-- Claim C3 (code bug): `Ebug = [[2]]` is well-formed and EL-shaped and
`Lbug = [[1]]` is well-formed lower-unitriangular of matching dimensions,
yet `EL_L_commute Ebug Lbug = [[2]]` and `[[2]] * Ebug = [[4]] ≠ [[2]] =
Ebug * Lbug`: the contract `Ltilde * EL = EL * L` asserted by the
source's comment and its test suite fails on any non-unit pivot, because
the final `row_scale` is not compensated by the inverse column scaling. -/
theorem EL_L_commute_contract_fails :
    Ebug.wf ∧ Ebug.is_EL = true ∧ Lbug.wf ∧ Lbug.is_lower = true ∧
      Lbug.nrow = Ebug.ncol ∧ Lbug.ncol = Ebug.ncol ∧ Lbug.entry 0 0 = 1 ∧
      EL_L_commute Ebug Lbug = ⟨1, 1, [[(0, 2)]]⟩ ∧
      EL_L_commute Ebug Lbug * Ebug ≠ Ebug * Lbug := by decide

/-- A well-formed EL-shaped matrix over `F5` with an entry below its
first pivot; the round trip of `extract_row_scale` fails on it. -/
def Ers : ColumnMatrix F5 := ⟨2, 2, [[(0, 1), (1, 3)], [(1, 2)]]⟩

/-- Claim C5 (counterexample): `Ers` is well-formed and EL-shaped, yet
row-scaling the normalized matrix by the returned coefficients does not
recover `Ers`: the sub-pivot entry at row 1 of column 0 gets multiplied
by the pivot value of column 1. -/
theorem extract_row_scale_roundtrip_fails :
    Ers.wf ∧ Ers.is_EL = true ∧
      (extract_row_scale Ers).1.row_scale (extract_row_scale Ers).2 ≠ Ers := by decide

theorem SpVec.wf_single (i : Nat) (a : α) (ha : a ≠ 0) : SpVec.wf [(i, a)] :=
  ⟨List.pairwise_singleton _ _, by simpa using ha⟩

theorem SpVec.get_single (i : Nat) (a : α) (r : Nat) :
    SpVec.get [(i, a)] r = if i = r then a else 0 := by
  by_cases h : i = r
  · subst h; rw [if_pos rfl, SpVec.get_cons_pair]
  · rw [if_neg h, SpVec.get_cons_ne _ _ _ h, SpVec.get_nil]

theorem SpVec.ofFn_eq_single {n i : Nat} {a : α} {f : Nat → α} (hi : i < n) (ha : a ≠ 0)
    (hf : ∀ j, j < n → f j = if j = i then a else 0) :
    SpVec.ofFn n f = [(i, a)] := by
  apply SpVec.ext_get (SpVec.wf_ofFn n f) (SpVec.wf_single i a ha)
  intro r
  rw [SpVec.get_ofFn, SpVec.get_single]
  by_cases hr : r < n
  · rw [if_pos hr, hf r hr]
    by_cases h : r = i
    · subst h; simp
    · rw [if_neg h, if_neg (fun hh => h hh.symm)]
  · rw [if_neg hr]
    have : i ≠ r := by omega
    rw [if_neg this]

theorem ColumnMatrix.setCol_self (A : ColumnMatrix α) (j : Nat) :
    A.setCol j (A.col j) = A := by
  unfold ColumnMatrix.setCol ColumnMatrix.col
  rcases A with ⟨m, n, cols⟩
  simp only [mk.injEq, true_and]
  apply List.ext_getElem?
  intro c
  by_cases hc : c = j
  · subst hc
    by_cases hl : c < cols.length
    · rw [List.getElem?_set_self hl, List.getD_eq_getElem?_getD, List.getElem?_eq_getElem hl]
      rfl
    · rw [List.getElem?_set_self', List.getElem?_eq_none (by omega)]
      rfl
  · rw [List.getElem?_set_ne (fun hh => hc hh.symm)]

theorem getD_range (k r : Nat) : (List.range k).getD r 0 = if r < k then r else 0 := by
  rw [List.getD_eq_getElem?_getD]
  by_cases h : r < k
  · rw [List.getElem?_range h, if_pos h]; rfl
  · rw [List.getElem?_eq_none (by simpa using by omega), if_neg h]; rfl

theorem getD_replicate (k : Nat) (a d : α) (r : Nat) :
    (List.replicate k a).getD r d = if r < k then a else d := by
  rw [List.getD_eq_getElem?_getD]
  by_cases h : r < k
  · rw [List.getElem?_replicate, if_pos h, if_pos h]; rfl
  · rw [List.getElem?_replicate, if_neg h, if_neg h]; rfl

theorem SpVec.axpyLazy_single (k : Nat) :
    SpVec.axpyLazy [(k, (1 : α))] [(k, 1)] (List.replicate k 1) (List.range k) = [(k, 1)] := by
  unfold SpVec.axpyLazy
  have hb : max (SpVec.bnd [(k, (1 : α))])
      (min (List.replicate k (1 : α)).length (List.range k).length) = k + 1 := by
    simp [SpVec.bnd]
  rw [hb]
  apply SpVec.ofFn_eq_single (by omega) one_ne_zero
  intro r hr
  rw [SpVec.get_single]
  by_cases h : r = k
  · subst h
    rw [if_pos rfl, if_neg (by simp), add_zero]
  · have hrk : r < k := by omega
    rw [if_neg (fun hh => h hh.symm), if_neg h,
      if_pos (by simp only [List.length_replicate, List.length_range]; exact ⟨hrk, hrk⟩)]
    rw [getD_range, if_pos hrk, SpVec.get_single, if_neg (by omega), mul_zero, add_zero]

theorem SpVec.axpy_single (k hi : Nat) (c : α) :
    SpVec.axpy [(k, (1 : α))] c [(k, 1)] (k + 1) hi = [(k, 1)] := by
  unfold SpVec.axpy
  have hb : max (SpVec.bnd [(k, (1 : α))]) (min hi (SpVec.bnd [(k, (1 : α))])) = k + 1 := by
    simp only [SpVec.bnd, List.foldr_cons, List.foldr_nil]
    omega
  rw [hb]
  apply SpVec.ofFn_eq_single (by omega) one_ne_zero
  intro r hr
  rw [SpVec.get_single]
  have hind : ¬ (k + 1 ≤ r ∧ r < hi) := by omega
  rw [if_neg hind, add_zero]
  by_cases h : r = k
  · subst h; rw [if_pos rfl]
  · rw [if_neg (fun hh => h hh.symm), if_neg h]

theorem update_pivot_eq_some (A : ColumnMatrix α) (p2c : PivMap) (j i0 : Nat)
    (piv : Nat × α) (h : (A.col j).lowerBound i0 = some piv) :
    update_pivot A p2c j i0 =
      fun r => if r = piv.1 then some ((p2c piv.1).getD [] ++ [j]) else p2c r := by
  unfold update_pivot
  rw [h]

theorem update_pivot_eq_none (A : ColumnMatrix α) (p2c : PivMap) (j i0 : Nat)
    (h : (A.col j).lowerBound i0 = none) :
    update_pivot A p2c j i0 = p2c := by
  unfold update_pivot
  rw [h]

theorem delete_pivot_eq_some (A : ColumnMatrix α) (p2c : PivMap) (j i0 : Nat)
    (piv : Nat × α) (h : (A.col j).lowerBound i0 = some piv) :
    delete_pivot A p2c j i0 =
      fun r => if r = piv.1 then some (((p2c piv.1).getD []).erase j) else p2c r := by
  unfold delete_pivot
  rw [h]

theorem delete_pivot_eq_none (A : ColumnMatrix α) (p2c : PivMap) (j i0 : Nat)
    (h : (A.col j).lowerBound i0 = none) :
    delete_pivot A p2c j i0 = p2c := by
  unfold delete_pivot
  rw [h]

/-- The pivot map of the identity after registering columns `< k`. -/
def idPiv (k n : Nat) : PivMap := fun r => if r < k ∧ r < n then some [r] else none

theorem get_pivots_identity_aux (n : Nat) :
    ∀ k, k ≤ n →
      (List.range k).foldl (fun p2c j => update_pivot (ColumnMatrix.identity n (α := α)) p2c j 0)
        (fun _ => none) = idPiv k n := by
  intro k
  induction k with
  | zero =>
    intro _
    funext r
    simp [idPiv]
  | succ t ih =>
    intro hk
    rw [List.range_succ, List.foldl_append, ih (by omega), List.foldl_cons, List.foldl_nil]
    have hcol : (ColumnMatrix.identity n (α := α)).col t = [(t, 1)] := by
      rw [ColumnMatrix.col_identity, if_pos (by omega)]
    have hlb : ((ColumnMatrix.identity n (α := α)).col t).lowerBound 0 = some (t, 1) := by
      rw [hcol]
      unfold SpVec.lowerBound
      simp [List.find?]
    rw [update_pivot_eq_some _ _ _ _ _ hlb]
    funext r
    by_cases hr : r = t
    · rw [hr, if_pos rfl]
      have h0 : idPiv t n t = none := by unfold idPiv; rw [if_neg (by omega)]
      rw [h0]
      unfold idPiv
      rw [if_pos ⟨by omega, by omega⟩]
      rfl
    · rw [if_neg hr]
      unfold idPiv
      by_cases h2 : r < t ∧ r < n
      · rw [if_pos h2, if_pos ⟨by omega, by omega⟩]
      · rw [if_neg h2, if_neg (by omega)]

theorem get_pivots_identity (n : Nat) :
    get_pivots (ColumnMatrix.identity n (α := α)) = idPiv n n := by
  unfold get_pivots
  exact get_pivots_identity_aux n n (le_refl n)

/-- The pivot map remaining after the first `k` identity pivots are
processed and erased. -/
def idPivRem (k n : Nat) : PivMap := fun r => if k ≤ r ∧ r < n then some [r] else none

theorem idPivRem_zero (n : Nat) : idPivRem 0 n = idPiv n n := by
  funext r
  unfold idPivRem idPiv
  by_cases h : r < n
  · rw [if_pos ⟨by omega, h⟩, if_pos ⟨h, h⟩]
  · rw [if_neg (by omega), if_neg (by omega)]

/-- The loop state reached after `k` iterations of `LEUP_inplace` on the
identity matrix. -/
def idSt (n k : Nat) : LoopSt α :=
  ⟨⟨ColumnMatrix.identity n, ColumnMatrix.identity n, ColumnMatrix.identity n,
      ColumnMatrix.identity n⟩,
    idPivRem k n, List.range k, List.replicate k 1, k, k⟩

theorem elim_phase_mk (m : Nat) (L E U P : ColumnMatrix α) (p2c : PivMap)
    (pivs : List Nat) (coeff : List α) (i j : Nat) :
    elim_phase m ⟨⟨L, E, U, P⟩, p2c, pivs, coeff, i, j⟩ =
      ⟨⟨L.setCol i ((L.col i).axpy (E.entry i j)⁻¹
          (((((p2c i).getD []).tail.foldl (schur_update m i j (E.entry i j))
              (E, p2c)).1).col j) (i + 1) m),
        ((((p2c i).getD []).tail.foldl (schur_update m i j (E.entry i j)) (E, p2c)).1).setCol j
          [(i, E.entry i j)],
        U.setCol j ((U.col j).axpyLazy (E.col j) coeff pivs),
        P⟩,
        fun r => if r = i then none
          else ((((p2c i).getD []).tail.foldl (schur_update m i j (E.entry i j)) (E, p2c)).2) r,
        pivs ++ [i], coeff ++ [(E.entry i j)⁻¹], i + 1, j + 1⟩ := rfl

theorem leup_body_idSt (n k : Nat) (hk : k < n) :
    leup_body n (idSt n k (α := α)) = idSt n (k + 1) := by
  have hp : (idSt n k (α := α)).p2c (idSt n k (α := α)).i = some [k] := by
    show idPivRem k n k = some [k]
    unfold idPivRem
    rw [if_pos ⟨le_refl k, hk⟩]
  unfold leup_body
  rw [hp]
  show elim_phase n (swap_phase (idSt n k) ([k].headD 0)) = idSt n (k + 1)
  have hsw : swap_phase (idSt n k (α := α)) ([k].headD 0) = idSt n k := by
    unfold swap_phase
    rw [if_neg (by simp [idSt])]
  rw [hsw]
  have hcolI : (ColumnMatrix.identity n (α := α)).col k = [(k, 1)] := by
    rw [ColumnMatrix.col_identity, if_pos hk]
  have ha11 : (ColumnMatrix.identity n (α := α)).entry k k = 1 := by
    rw [ColumnMatrix.entry_identity, if_pos ⟨rfl, hk⟩]
  show elim_phase n ⟨⟨ColumnMatrix.identity n, ColumnMatrix.identity n,
      ColumnMatrix.identity n, ColumnMatrix.identity n⟩,
      idPivRem k n, List.range k, List.replicate k 1, k, k⟩ = idSt n (k + 1)
  rw [elim_phase_mk]
  have htl : ((idPivRem k n k).getD []).tail = ([] : List Nat) := by
    unfold idPivRem
    rw [if_pos ⟨le_refl k, hk⟩]
    rfl
  rw [htl]
  simp only [List.foldl_nil]
  unfold idSt
  simp only [LoopSt.mk.injEq, SparseFact.mk.injEq]
  refine ⟨⟨?_, ?_, ?_, trivial⟩, ?_, ?_, ?_, trivial, trivial⟩
  · rw [ha11, hcolI, SpVec.axpy_single, ← hcolI, ColumnMatrix.setCol_self]
  · rw [ha11, ← hcolI, ColumnMatrix.setCol_self]
  · rw [hcolI, SpVec.axpyLazy_single, ← hcolI, ColumnMatrix.setCol_self]
  · funext r
    unfold idPivRem
    by_cases hr : r = k
    · rw [if_pos hr, hr, if_neg (by omega)]
    · rw [if_neg hr]
      by_cases h2 : k ≤ r ∧ r < n
      · rw [if_pos h2, if_pos ⟨by omega, h2.2⟩]
      · rw [if_neg h2, if_neg (by omega)]
  · rw [List.range_succ]
  · rw [ha11, inv_one, List.replicate_succ']

theorem leup_loop_idSt (n : Nat) :
    ∀ fuel k, k ≤ n → n - k ≤ fuel → leup_loop n n fuel (idSt n k (α := α)) = idSt n n := by
  intro fuel
  induction fuel with
  | zero =>
    intro k hk hf
    have hkn : k = n := by omega
    unfold leup_loop
    rw [hkn]
  | succ f ih =>
    intro k hk hf
    unfold leup_loop
    by_cases hlt : k < n
    · rw [if_pos (show (idSt n k (α := α)).i < n ∧ (idSt n k (α := α)).j < n from ⟨hlt, hlt⟩),
        leup_body_idSt n k hlt]
      exact ih (k + 1) (by omega) (by omega)
    · have hkn : k = n := by omega
      rw [if_neg (by simp [idSt]; omega), hkn]

theorem leup_finish_done (n fuel : Nat) (s : LoopSt α) (h : ¬ s.j < n) :
    leup_finish n fuel s = s := by
  cases fuel with
  | zero => rfl
  | succ f =>
    unfold leup_finish
    rw [if_neg h]

theorem LEUP_inplace_identity (n : Nat) :
    LEUP_inplace ⟨ColumnMatrix.identity n (α := α), ColumnMatrix.identity n,
        ColumnMatrix.identity n, ColumnMatrix.identity n⟩ =
      ⟨ColumnMatrix.identity n, ColumnMatrix.identity n, ColumnMatrix.identity n,
        (ColumnMatrix.identity n (α := α)).T⟩ := by
  have h0 : (⟨⟨ColumnMatrix.identity n (α := α), ColumnMatrix.identity n,
      ColumnMatrix.identity n, ColumnMatrix.identity n⟩,
      get_pivots (ColumnMatrix.identity n (α := α)), [], [], 0, 0⟩ : LoopSt α) = idSt n 0 := by
    unfold idSt
    rw [get_pivots_identity, idPivRem_zero]
    rfl
  show (⟨(leup_finish n n (leup_loop n n n ⟨⟨ColumnMatrix.identity n (α := α),
        ColumnMatrix.identity n, ColumnMatrix.identity n, ColumnMatrix.identity n⟩,
        get_pivots (ColumnMatrix.identity n (α := α)), [], [], 0, 0⟩)).F.L,
      (leup_finish n n (leup_loop n n n ⟨⟨ColumnMatrix.identity n (α := α),
        ColumnMatrix.identity n, ColumnMatrix.identity n, ColumnMatrix.identity n⟩,
        get_pivots (ColumnMatrix.identity n (α := α)), [], [], 0, 0⟩)).F.E,
      (leup_finish n n (leup_loop n n n ⟨⟨ColumnMatrix.identity n (α := α),
        ColumnMatrix.identity n, ColumnMatrix.identity n, ColumnMatrix.identity n⟩,
        get_pivots (ColumnMatrix.identity n (α := α)), [], [], 0, 0⟩)).F.U,
      ((leup_finish n n (leup_loop n n n ⟨⟨ColumnMatrix.identity n (α := α),
        ColumnMatrix.identity n, ColumnMatrix.identity n, ColumnMatrix.identity n⟩,
        get_pivots (ColumnMatrix.identity n (α := α)), [], [], 0, 0⟩)).F.P).T⟩ : SparseFact α) =
      ⟨ColumnMatrix.identity n, ColumnMatrix.identity n, ColumnMatrix.identity n,
        (ColumnMatrix.identity n (α := α)).T⟩
  rw [h0, leup_loop_idSt n n 0 (by omega) (by omega),
    leup_finish_done n n _ (by simp [idSt])]
  rfl

theorem ColumnMatrix.T_identity (n : Nat) :
    (ColumnMatrix.identity n (α := α)).T = ColumnMatrix.identity n := by
  unfold ColumnMatrix.T ColumnMatrix.identity
  simp only [ColumnMatrix.mk.injEq, true_and]
  apply List.map_congr_left
  intro i hi
  rw [List.mem_range] at hi
  apply SpVec.ofFn_eq_single hi one_ne_zero
  intro j hj
  show (ColumnMatrix.identity n (α := α)).entry i j = _
  rw [ColumnMatrix.entry_identity]
  by_cases h : j = i
  · rw [if_pos h, if_pos ⟨h.symm, by omega⟩]
  · rw [if_neg h, if_neg (fun hh => h (by omega))]

theorem ColumnMatrix.J_identity (n : Nat) :
    (ColumnMatrix.identity n (α := α)).J = ColumnMatrix.identity n := by
  unfold ColumnMatrix.J ColumnMatrix.identity
  simp only [ColumnMatrix.mk.injEq, true_and]
  apply List.map_congr_left
  intro j hj
  rw [List.mem_range] at hj
  apply SpVec.ofFn_eq_single hj one_ne_zero
  intro i hi
  show (ColumnMatrix.identity n (α := α)).entry
    ((ColumnMatrix.identity n (α := α)).nrow - 1 - i)
    ((ColumnMatrix.identity n (α := α)).ncol - 1 - j) = _
  rw [ColumnMatrix.entry_identity]
  show (if n - 1 - i = n - 1 - j ∧ n - 1 - j < n then (1 : α) else 0) = _
  by_cases h : i = j
  · rw [if_pos ⟨by omega, by omega⟩, if_pos h]
  · rw [if_neg (by omega), if_neg h]

theorem LEUP_identity (n : Nat) :
    LEUP (ColumnMatrix.identity n (α := α)) =
      ⟨ColumnMatrix.identity n, ColumnMatrix.identity n, ColumnMatrix.identity n,
        ColumnMatrix.identity n⟩ := by
  show LEUP_inplace ⟨ColumnMatrix.identity n (α := α), ColumnMatrix.identity n,
      ColumnMatrix.identity n, ColumnMatrix.identity n⟩ = _
  rw [LEUP_inplace_identity, ColumnMatrix.T_identity]

theorem PLEU_identity (n : Nat) :
    PLEU (ColumnMatrix.identity n (α := α)) =
      ⟨ColumnMatrix.identity n, ColumnMatrix.identity n, ColumnMatrix.identity n,
        ColumnMatrix.identity n⟩ := by
  show (⟨(LEUP (ColumnMatrix.identity n (α := α)).T).U.T,
    (LEUP (ColumnMatrix.identity n (α := α)).T).E.T,
    (LEUP (ColumnMatrix.identity n (α := α)).T).L.T,
    (LEUP (ColumnMatrix.identity n (α := α)).T).P.T⟩ : SparseFact α) = _
  rw [ColumnMatrix.T_identity, LEUP_identity]
  show (⟨(ColumnMatrix.identity n (α := α)).T, (ColumnMatrix.identity n (α := α)).T,
    (ColumnMatrix.identity n (α := α)).T, (ColumnMatrix.identity n (α := α)).T⟩ : SparseFact α) = _
  rw [ColumnMatrix.T_identity]

theorem UELP_identity (n : Nat) :
    UELP (ColumnMatrix.identity n (α := α)) =
      ⟨ColumnMatrix.identity n, ColumnMatrix.identity n, ColumnMatrix.identity n,
        ColumnMatrix.identity n⟩ := by
  show (⟨(LEUP (ColumnMatrix.identity n (α := α)).J).U.J,
    (LEUP (ColumnMatrix.identity n (α := α)).J).E.J,
    (LEUP (ColumnMatrix.identity n (α := α)).J).L.J,
    (LEUP (ColumnMatrix.identity n (α := α)).J).P.J⟩ : SparseFact α) = _
  rw [ColumnMatrix.J_identity, LEUP_identity]
  show (⟨(ColumnMatrix.identity n (α := α)).J, (ColumnMatrix.identity n (α := α)).J,
    (ColumnMatrix.identity n (α := α)).J, (ColumnMatrix.identity n (α := α)).J⟩ : SparseFact α) = _
  rw [ColumnMatrix.J_identity]

theorem PUEL_identity (n : Nat) :
    PUEL (ColumnMatrix.identity n (α := α)) =
      ⟨ColumnMatrix.identity n, ColumnMatrix.identity n, ColumnMatrix.identity n,
        ColumnMatrix.identity n⟩ := by
  show (⟨(LEUP ((ColumnMatrix.identity n (α := α)).J.T)).L.T.J,
    (LEUP ((ColumnMatrix.identity n (α := α)).J.T)).E.T.J,
    (LEUP ((ColumnMatrix.identity n (α := α)).J.T)).U.T.J,
    (LEUP ((ColumnMatrix.identity n (α := α)).J.T)).P.T.J⟩ : SparseFact α) = _
  rw [ColumnMatrix.J_identity, ColumnMatrix.T_identity, LEUP_identity]
  show (⟨(ColumnMatrix.identity n (α := α)).T.J, (ColumnMatrix.identity n (α := α)).T.J,
    (ColumnMatrix.identity n (α := α)).T.J, (ColumnMatrix.identity n (α := α)).T.J⟩ :
      SparseFact α) = _
  rw [ColumnMatrix.T_identity, ColumnMatrix.J_identity]

theorem is_upper_identity (n : Nat) : (ColumnMatrix.identity n (α := α)).is_upper = true := by
  unfold ColumnMatrix.is_upper
  rw [List.all_eq_true]
  intro j hj
  rw [List.mem_range] at hj
  rw [ColumnMatrix.col_identity, if_pos (show j < n from hj)]
  simp

theorem is_lower_identity (n : Nat) : (ColumnMatrix.identity n (α := α)).is_lower = true := by
  unfold ColumnMatrix.is_lower
  rw [List.all_eq_true]
  intro j hj
  rw [List.mem_range] at hj
  rw [ColumnMatrix.col_identity, if_pos (show j < n from hj)]
  simp

theorem is_pivot_matrix_identity (n : Nat) :
    (ColumnMatrix.identity n (α := α)).is_pivot_matrix = true := by
  unfold ColumnMatrix.is_pivot_matrix
  rw [Bool.and_eq_true]
  constructor
  · rw [List.all_eq_true]
    intro j hj
    rw [List.mem_range] at hj
    rw [ColumnMatrix.col_identity, if_pos (show j < n from hj)]
    simp
  · rw [List.all_eq_true]
    intro r hr
    rw [List.mem_range] at hr
    have hc : ((ColumnMatrix.identity n (α := α)).cols.filterMap List.head?).map Prod.fst =
        List.range n := by
      show (((List.range n).map (fun j => [(j, (1 : α))])).filterMap List.head?).map Prod.fst = _
      rw [List.filterMap_map]
      have : (List.head? ∘ fun j : Nat => [(j, (1 : α))]) = fun j => some (j, (1 : α)) := rfl
      rw [this]
      have h2 : (List.range n).filterMap (fun j => some (j, (1 : α))) =
          (List.range n).map (fun j => (j, (1 : α))) := by
        have : (fun j : Nat => some (j, (1 : α))) = some ∘ (fun j : Nat => (j, (1 : α))) := rfl
        rw [this, List.filterMap_eq_map]
      rw [h2, List.map_map]
      have h3 : (Prod.fst ∘ fun j : Nat => (j, (1 : α))) = id := rfl
      rw [h3, List.map_id]
    rw [hc]
    simp only [beq_iff_eq]
    exact List.count_eq_one_of_mem (List.nodup_range n) (List.mem_range.mpr hr)

theorem is_EL_identity (n : Nat) : (ColumnMatrix.identity n (α := α)).is_EL = true := by
  unfold ColumnMatrix.is_EL
  show ltChain ((List.range n).filterMap
    (fun j => pivot_ind (ColumnMatrix.identity n (α := α)) j)) = true
  have hc : (List.range n).filterMap (fun j => pivot_ind (ColumnMatrix.identity n (α := α)) j) =
      List.range n := by
    have h1 : ∀ j ∈ List.range n,
        pivot_ind (ColumnMatrix.identity n (α := α)) j = some j := by
      intro j hj
      rw [List.mem_range] at hj
      unfold pivot_ind
      rw [ColumnMatrix.col_identity, if_pos hj]
      rfl
    calc (List.range n).filterMap (fun j => pivot_ind (ColumnMatrix.identity n (α := α)) j)
        = (List.range n).filterMap (fun j => some j) := List.filterMap_congr h1
      _ = (List.range n).map id := by
          have : (fun j : Nat => some j) = some ∘ (id : Nat → Nat) := rfl
          rw [this, List.filterMap_eq_map]
      _ = List.range n := List.map_id _
  rw [hc, ltChain_iff]
  rw [List.chain'_iff_pairwise]
  exact List.pairwise_lt_range n

theorem is_EU_identity (n : Nat) : (ColumnMatrix.identity n (α := α)).is_EU = true := by
  unfold ColumnMatrix.is_EU
  rw [ColumnMatrix.T_identity]
  exact is_EL_identity n

theorem is_ELhat_identity (n : Nat) : (ColumnMatrix.identity n (α := α)).is_ELhat = true := by
  unfold ColumnMatrix.is_ELhat
  rw [ColumnMatrix.J_identity]
  exact is_EL_identity n

theorem is_EUhat_identity (n : Nat) : (ColumnMatrix.identity n (α := α)).is_EUhat = true := by
  unfold ColumnMatrix.is_EUhat
  rw [ColumnMatrix.J_identity]
  exact is_EU_identity n

/-- Claim C6: factoring the identity matrix of any size with any of the
four factorizations yields a bundle in which L, E, U and P all equal the
identity, and the identity satisfies all six shape predicates (upper,
lower, pivot, EL, EU, ELhat, EUhat). -/
theorem identity_fixed_point (n : Nat) :
    LEUP (ColumnMatrix.identity n (α := α)) =
        ⟨ColumnMatrix.identity n, ColumnMatrix.identity n, ColumnMatrix.identity n,
          ColumnMatrix.identity n⟩ ∧
      PLEU (ColumnMatrix.identity n (α := α)) =
        ⟨ColumnMatrix.identity n, ColumnMatrix.identity n, ColumnMatrix.identity n,
          ColumnMatrix.identity n⟩ ∧
      UELP (ColumnMatrix.identity n (α := α)) =
        ⟨ColumnMatrix.identity n, ColumnMatrix.identity n, ColumnMatrix.identity n,
          ColumnMatrix.identity n⟩ ∧
      PUEL (ColumnMatrix.identity n (α := α)) =
        ⟨ColumnMatrix.identity n, ColumnMatrix.identity n, ColumnMatrix.identity n,
          ColumnMatrix.identity n⟩ ∧
      (ColumnMatrix.identity n (α := α)).is_upper = true ∧
      (ColumnMatrix.identity n (α := α)).is_lower = true ∧
      (ColumnMatrix.identity n (α := α)).is_pivot_matrix = true ∧
      (ColumnMatrix.identity n (α := α)).is_EL = true ∧
      (ColumnMatrix.identity n (α := α)).is_EU = true ∧
      (ColumnMatrix.identity n (α := α)).is_ELhat = true ∧
      (ColumnMatrix.identity n (α := α)).is_EUhat = true :=
  ⟨LEUP_identity n, PLEU_identity n, UELP_identity n, PUEL_identity n,
    is_upper_identity n, is_lower_identity n, is_pivot_matrix_identity n,
    is_EL_identity n, is_EU_identity n, is_ELhat_identity n, is_EUhat_identity n⟩

theorem SpVec.ofFn_congr {n : Nat} {f g : Nat → α} (h : ∀ r, r < n → f r = g r) :
    SpVec.ofFn n f = SpVec.ofFn n g := by
  unfold SpVec.ofFn
  apply List.filterMap_congr
  intro a ha
  rw [h a (List.mem_range.mp ha)]

/-- Transpose and the row/column-reversing conjugation commute, at the
level of sparse representations. -/
theorem ColumnMatrix.J_T_comm (A : ColumnMatrix α) : A.J.T = A.T.J := by
  show (⟨A.ncol, A.nrow,
      (List.range A.nrow).map (fun i => SpVec.ofFn A.ncol (fun j => A.J.entry i j))⟩ :
        ColumnMatrix α) =
    ⟨A.ncol, A.nrow,
      (List.range A.nrow).map (fun j => SpVec.ofFn A.ncol
        (fun i => A.T.entry (A.ncol - 1 - i) (A.nrow - 1 - j)))⟩
  simp only [ColumnMatrix.mk.injEq, true_and]
  apply List.map_congr_left
  intro i hi
  rw [List.mem_range] at hi
  apply SpVec.ofFn_congr
  intro j hj
  rw [ColumnMatrix.entry_J, ColumnMatrix.entry_T]
  rw [if_pos ⟨hi, hj⟩, if_pos ⟨by omega, by omega⟩]

/-- Claim C9: on a square matrix A, the in-place variant `PUEL_inplace`,
started from the bundle with E = A and identity L, U, P, produces
exactly the same factors as the wrapper `PUEL`, because its
conjugate-then-transpose undo order agrees with the wrapper's
transpose-then-conjugate order (`J_T_comm`). -/
theorem PUEL_inplace_eq_PUEL (A : ColumnMatrix α) (h : A.ncol = A.nrow) :
    PUEL_inplace ⟨ColumnMatrix.identity A.nrow, A, ColumnMatrix.identity A.nrow,
      ColumnMatrix.identity A.nrow⟩ = PUEL A := by
  have hI : ColumnMatrix.identity (α := α) A.ncol = ColumnMatrix.identity A.nrow := by rw [h]
  show (⟨(LEUP_inplace ⟨ColumnMatrix.identity A.nrow, A.J.T, ColumnMatrix.identity A.nrow,
        ColumnMatrix.identity A.nrow⟩).L.J.T,
      (LEUP_inplace ⟨ColumnMatrix.identity A.nrow, A.J.T, ColumnMatrix.identity A.nrow,
        ColumnMatrix.identity A.nrow⟩).E.J.T,
      (LEUP_inplace ⟨ColumnMatrix.identity A.nrow, A.J.T, ColumnMatrix.identity A.nrow,
        ColumnMatrix.identity A.nrow⟩).U.J.T,
      (LEUP_inplace ⟨ColumnMatrix.identity A.nrow, A.J.T, ColumnMatrix.identity A.nrow,
        ColumnMatrix.identity A.nrow⟩).P.J.T⟩ : SparseFact α) =
    ⟨(LEUP_inplace ⟨ColumnMatrix.identity A.ncol, A.J.T, ColumnMatrix.identity A.nrow,
        ColumnMatrix.identity A.nrow⟩).L.T.J,
      (LEUP_inplace ⟨ColumnMatrix.identity A.ncol, A.J.T, ColumnMatrix.identity A.nrow,
        ColumnMatrix.identity A.nrow⟩).E.T.J,
      (LEUP_inplace ⟨ColumnMatrix.identity A.ncol, A.J.T, ColumnMatrix.identity A.nrow,
        ColumnMatrix.identity A.nrow⟩).U.T.J,
      (LEUP_inplace ⟨ColumnMatrix.identity A.ncol, A.J.T, ColumnMatrix.identity A.nrow,
        ColumnMatrix.identity A.nrow⟩).P.T.J⟩
  rw [hI]
  simp only [ColumnMatrix.J_T_comm]

/-- A concrete square matrix over `F5` used to witness claim C9. -/
def Asq : ColumnMatrix F5 := ⟨2, 2, [[(1, 3)], [(0, 2), (1, 4)]]⟩

/-- Witness for claim C9 at the concrete square matrix `Asq`. -/
theorem PUEL_inplace_eq_PUEL_witness :
    Asq.ncol = Asq.nrow ∧
      PUEL_inplace ⟨ColumnMatrix.identity Asq.nrow, Asq, ColumnMatrix.identity Asq.nrow,
        ColumnMatrix.identity Asq.nrow⟩ = PUEL Asq :=
  ⟨rfl, PUEL_inplace_eq_PUEL Asq rfl⟩

theorem getD_append_left {β : Type} (l1 l2 : List β) (r : Nat) (d : β) (h : r < l1.length) :
    (l1 ++ l2).getD r d = l1.getD r d := by
  rw [List.getD_eq_getElem?_getD, List.getD_eq_getElem?_getD, List.getElem?_append_left h]

theorem getD_append_right {β : Type} (l1 l2 : List β) (r : Nat) (d : β)
    (h : l1.length ≤ r) : (l1 ++ l2).getD r d = l2.getD (r - l1.length) d := by
  rw [List.getD_eq_getElem?_getD, List.getD_eq_getElem?_getD, List.getElem?_append_right h]

/-- Monotonicity of pivot rows extracted from the EL shape predicate. -/
theorem is_EL_pivot_mono (E : ColumnMatrix α) (hEL : E.is_EL = true) :
    ∀ j1 j2, j1 < j2 → j2 < E.ncol → ∀ p1 p2,
      pivot_ind E j1 = some p1 → pivot_ind E j2 = some p2 → p1 < p2 := by
  unfold ColumnMatrix.is_EL at hEL
  rw [ltChain_iff, List.chain'_iff_pairwise, List.pairwise_filterMap,
    List.pairwise_iff_getElem] at hEL
  intro j1 j2 h12 h2n p1 p2 hp1 hp2
  have h1n : j1 < E.ncol := by omega
  have := hEL j1 j2 (by simpa using h1n) (by simpa using h2n) h12
  simp only [List.getElem_range] at this
  exact this p1 (Option.mem_def.mpr hp1) p2 (Option.mem_def.mpr hp2)

theorem ers_go_spec (m n : Nat) (E0 : ColumnMatrix α)
    (hord : ∀ j1 j2, j1 < j2 → j2 < n → ∀ p1 p2, pivot_ind E0 j1 = some p1 →
      pivot_ind E0 j2 = some p2 → p1 < p2) :
    ∀ (fuel j : Nat) (E : ColumnMatrix α) (acc : List α),
      (∀ j', pivot_ind E j' = pivot_ind E0 j') →
      E.nrow = E0.nrow → E.ncol = E0.ncol →
      (∀ r', (∀ j' < n, pivot_ind E0 j' ≠ some r') → acc.getD r' 1 = 1) →
      (∀ j', j ≤ j' → j' < n → ∀ p, pivot_ind E0 j' = some p → acc.length ≤ p) →
      (∀ j', pivot_ind (ers_go m n fuel E acc j).1 j' = pivot_ind E0 j') ∧
        (ers_go m n fuel E acc j).1.nrow = E0.nrow ∧
        (ers_go m n fuel E acc j).1.ncol = E0.ncol ∧
        (∀ r', (∀ j' < n, pivot_ind E0 j' ≠ some r') →
          (ers_go m n fuel E acc j).2.getD r' 1 = 1) := by
  have hfill : ∀ (acc : List α) r',
      acc.getD r' 1 = 1 → (acc ++ List.replicate (m - acc.length) 1).getD r' 1 = 1 := by
    intro acc r' h
    by_cases hlt : r' < acc.length
    · rw [getD_append_left _ _ _ _ hlt]; exact h
    · rw [getD_append_right _ _ _ _ (by omega), getD_replicate]
      by_cases h2 : r' - acc.length < m - acc.length
      · rw [if_pos h2]
      · rw [if_neg h2]
  intro fuel
  induction fuel with
  | zero =>
    intro j E acc h1 h2 h3 h4 _
    exact ⟨h1, h2, h3, fun r' hr' => hfill acc r' (h4 r' hr')⟩
  | succ f ih =>
    intro j E acc h1 h2 h3 h4 h5
    unfold ers_go
    by_cases hg : acc.length < m ∧ j < n
    · rw [if_pos hg]
      cases hcol : E.col j with
      | nil =>
        exact ⟨h1, h2, h3, fun r' hr' => hfill acc r' (h4 r' hr')⟩
      | cons hd rest =>
        rcases hd with ⟨ind, v⟩
        have hpj : pivot_ind E j = some ind := by
          unfold pivot_ind
          rw [hcol]
          rfl
        have hpj0 : pivot_ind E0 j = some ind := by rw [← h1 j]; exact hpj
        have hind : acc.length ≤ ind := h5 j (le_refl j) hg.2 ind hpj0
        have h1' : ∀ j', pivot_ind (E.setCol j ((ind, 1) :: rest)) j' = pivot_ind E0 j' := by
          intro j'
          rw [← h1 j']
          unfold pivot_ind
          rw [ColumnMatrix.col_setCol]
          by_cases hc : j' = j ∧ j < E.cols.length
          · rw [if_pos hc, hc.1, hcol]
            rfl
          · rw [if_neg hc]
        have hlen1 : (acc ++ List.replicate (ind - acc.length) (1 : α)).length = ind := by
          simp only [List.length_append, List.length_replicate]
          omega
        have h4' : ∀ r', (∀ j' < n, pivot_ind E0 j' ≠ some r') →
            ((acc ++ List.replicate (ind - acc.length) 1) ++ [v]).getD r' 1 = 1 := by
          intro r' hr'
          have hne : r' ≠ ind := fun hh => hr' j hg.2 (by rw [hpj0, hh])
          by_cases hc1 : r' < ind
          · rw [getD_append_left _ _ _ _ (by omega)]
            by_cases hc2 : r' < acc.length
            · rw [getD_append_left _ _ _ _ hc2]; exact h4 r' hr'
            · rw [getD_append_right _ _ _ _ (by omega), getD_replicate,
                if_pos (by omega)]
          · rw [getD_append_right _ _ _ _ (by omega), hlen1]
            have : 1 ≤ r' - ind := by omega
            cases hd2 : r' - ind with
            | zero => omega
            | succ t => simp [List.getD]
        have h5' : ∀ j', j + 1 ≤ j' → j' < n → ∀ p, pivot_ind E0 j' = some p →
            ((acc ++ List.replicate (ind - acc.length) 1) ++ [v]).length ≤ p := by
          intro j' hj' hj'n p hp
          have := hord j j' (by omega) hj'n ind p hpj0 hp
          simp only [List.length_append, List.length_replicate, List.length_cons,
            List.length_nil]
          omega
        exact ih (j + 1) (E.setCol j ((ind, 1) :: rest))
          ((acc ++ List.replicate (ind - acc.length) 1) ++ [v]) h1'
          (by rw [← h2]; rfl) (by rw [← h3]; rfl) h4' h5'
    · rw [if_neg hg]
      exact ⟨h1, h2, h3, fun r' hr' => hfill acc r' (h4 r' hr')⟩

theorem elc_go_col_untouched (idx_map : List (Option Nat)) (L : ColumnMatrix α) (n r : Nat)
    (hr : ∀ ell, ell < n → idx_map.getD ell none ≠ some r) :
    ∀ (fuel ell : Nat) (Lt : ColumnMatrix α),
      (elc_go idx_map L n fuel Lt ell).col r = Lt.col r := by
  intro fuel
  induction fuel with
  | zero => intro ell Lt; rfl
  | succ f ih =>
    intro ell Lt
    unfold elc_go
    by_cases hg : ell < n
    · rw [if_pos hg]
      cases him : idx_map.getD ell none with
      | none => rfl
      | some j_ell =>
        rw [ih]
        rw [ColumnMatrix.col_setCol]
        rw [if_neg (fun hc => hr ell hg (by rw [him, hc.1]))]
    · rw [if_neg hg]

/-- Claim C10: for an EL-shaped matrix E and a matching lower-unitriangular
operator L, every column of `EL_L_commute E L` whose index is not a pivot
row of E is the standard basis vector at that index: the result starts
from the identity, only pivot-row columns are overwritten, and the final
row scaling multiplies non-pivot rows by one. -/
theorem EL_L_commute_nonpivot_col (E L : ColumnMatrix α) (hE : E.wf) (hEL : E.is_EL = true)
    (hLr : L.nrow = E.ncol) (hLc : L.ncol = E.ncol) (hLlow : L.is_lower = true)
    (r : Nat) (hr : r < E.nrow) (hnp : ∀ j, j < E.ncol → pivot_ind E j ≠ some r) :
    (EL_L_commute E L).col r = [(r, 1)] := by
  have hspec := ers_go_spec E.nrow E.ncol E (is_EL_pivot_mono E hEL) E.ncol 0 E []
    (fun _ => rfl) rfl rfl (fun r' _ => rfl) (fun _ _ _ p _ => Nat.zero_le p)
  have hpiv : ∀ j', pivot_ind (extract_row_scale E).1 j' = pivot_ind E j' := hspec.1
  have hnr : (extract_row_scale E).1.nrow = E.nrow := hspec.2.1
  have hnc : (extract_row_scale E).1.ncol = E.ncol := hspec.2.2.1
  have hcoeff : (extract_row_scale E).2.getD r 1 = 1 :=
    hspec.2.2.2 r (fun j' hj' hh => hnp j' hj' hh)
  show ((elc_go ((List.range (extract_row_scale E).1.ncol).map
      (fun j => pivot_ind (extract_row_scale E).1 j)) L (extract_row_scale E).1.ncol
      (extract_row_scale E).1.ncol
      (ColumnMatrix.identity (extract_row_scale E).1.nrow) 0).row_scale
        (extract_row_scale E).2).col r = [(r, 1)]
  rw [ColumnMatrix.col_row_scale]
  rw [elc_go_col_untouched _ L _ r ?hidx]
  case hidx =>
    intro ell hell
    rw [getD_map_range, if_pos hell, hpiv ell]
    exact hnp ell (by rw [← hnc]; exact hell)
  rw [ColumnMatrix.col_identity, if_pos (by rw [hnr]; exact hr)]
  show List.filterMap _ [(r, (1 : α))] = [(r, 1)]
  simp only [List.filterMap_cons, List.filterMap_nil, hcoeff, mul_one]
  rw [if_neg one_ne_zero]

/-- Concrete EL-shaped matrix over `F5` whose row 1 carries no pivot. -/
def Ewit : ColumnMatrix F5 := ⟨2, 2, [[(0, 2)], []]⟩

/-- Concrete lower-unitriangular operator matching `Ewit`. -/
def Lwit : ColumnMatrix F5 := ⟨2, 2, [[(0, 1), (1, 3)], [(1, 1)]]⟩

/-- Witness for claim C10 at `Ewit`, `Lwit` and the pivot-less row 1. -/
theorem EL_L_commute_nonpivot_col_witness :
    Ewit.wf ∧ Ewit.is_EL = true ∧ Lwit.nrow = Ewit.ncol ∧ Lwit.ncol = Ewit.ncol ∧
      Lwit.is_lower = true ∧ 1 < Ewit.nrow ∧
      (∀ j, j < Ewit.ncol → pivot_ind Ewit j ≠ some 1) ∧
      (EL_L_commute Ewit Lwit).col 1 = [(1, 1)] :=
  ⟨by decide, by decide, rfl, rfl, by decide, by decide, by decide,
    EL_L_commute_nonpivot_col Ewit Lwit (by decide) (by decide) rfl rfl (by decide) 1
      (by decide) (by decide)⟩

/-- Fully reduced EL shape, as produced by the E factor of `LEUP`: the
EL predicate holds, every column has at most one stored entry (its
pivot), and zero columns trail the nonzero ones. -/
def ColumnMatrix.ELred (A : ColumnMatrix α) : Prop :=
  A.is_EL = true ∧
    (∀ j, j < A.ncol → (A.col j).length ≤ 1) ∧
    (∀ j2, j2 < A.ncol → ∀ j1, j1 ≤ j2 → A.col j1 = [] → A.col j2 = [])

instance (A : ColumnMatrix α) : Decidable A.ELred :=
  decidable_of_iff
    (A.is_EL = true ∧ (∀ j, j < A.ncol → (A.col j).length ≤ 1) ∧
      (∀ j2, j2 < A.ncol → ∀ j1, j1 ≤ j2 → (A.col j1).length = 0 → (A.col j2).length = 0))
    (by unfold ColumnMatrix.ELred; simp [List.length_eq_zero])

theorem ers_go_red (m n : Nat) (E0 : ColumnMatrix α) (hwf : E0.wf)
    (hm : E0.nrow = m) (hn : E0.ncol = n)
    (hord : ∀ j1 j2, j1 < j2 → j2 < n → ∀ p1 p2, pivot_ind E0 j1 = some p1 →
      pivot_ind E0 j2 = some p2 → p1 < p2)
    (hlen1 : ∀ j, j < n → (E0.col j).length ≤ 1)
    (htrail : ∀ j2, j2 < n → ∀ j1, j1 ≤ j2 → E0.col j1 = [] → E0.col j2 = []) :
    ∀ (fuel j : Nat) (E : ColumnMatrix α) (acc : List α),
      n - j ≤ fuel →
      (∀ j', j ≤ j' → E.col j' = E0.col j') →
      (∀ j', j' < j → ∀ i a, E0.col j' = [(i, a)] → E.col j' = [(i, (1 : α))]) →
      (∀ j', j' < j → E0.col j' ≠ []) →
      (∀ j', j' < j → ∀ i a, E0.col j' = [(i, a)] →
        i < acc.length ∧ acc.getD i 1 = a) →
      (∀ j', j ≤ j' → j' < n → ∀ p, pivot_ind E0 j' = some p → acc.length ≤ p) →
      E.cols.length = E0.cols.length →
      j ≤ n →
      (∀ j', ∀ i a, E0.col j' = [(i, a)] → j' < n →
          (ers_go m n fuel E acc j).1.col j' = [(i, 1)] ∧
          (ers_go m n fuel E acc j).2.getD i 1 = a) ∧
        (∀ j', E0.col j' = [] → (ers_go m n fuel E acc j).1.col j' = []) ∧
        (ers_go m n fuel E acc j).1.cols.length = E0.cols.length := by
  intro fuel
  induction fuel with
  | zero =>
    intro j E acc hfuel h1 h2 h3 h4 h5 h6 hjn
    refine ⟨?_, ?_, h6⟩
    · intro j' i a hcol hj'
      have hj'j : j' < j := by omega
      refine ⟨h2 j' hj'j i a hcol, ?_⟩
      have h7 := h4 j' hj'j i a hcol
      show (acc ++ List.replicate (m - acc.length) 1).getD i 1 = a
      rw [getD_append_left _ _ _ _ h7.1]
      exact h7.2
    · intro j' hcol
      by_cases hj' : j' < j
      · exact absurd hcol (h3 j' hj')
      · show E.col j' = []
        rw [h1 j' (by omega)]
        exact hcol
  | succ f ih =>
    intro j E acc hfuel h1 h2 h3 h4 h5 h6 hjn
    -- common exit argument: every nonzero column is already processed
    have exitCase : (∀ j', j ≤ j' → j' < n → E0.col j' = []) →
        (∀ j', ∀ i a, E0.col j' = [(i, a)] → j' < n →
            E.col j' = [(i, (1 : α))] ∧
            (acc ++ List.replicate (m - acc.length) 1).getD i 1 = a) ∧
          (∀ j', E0.col j' = [] → E.col j' = []) ∧
          E.cols.length = E0.cols.length := by
      intro hrest
      refine ⟨?_, ?_, h6⟩
      · intro j' i a hcol hj'
        have hj'j : j' < j := by
          by_contra hc
          rw [hrest j' (by omega) hj'] at hcol
          cases hcol
        refine ⟨h2 j' hj'j i a hcol, ?_⟩
        have := h4 j' hj'j i a hcol
        rw [getD_append_left _ _ _ _ this.1]
        exact this.2
      · intro j' hcol
        by_cases hj' : j' < j
        · exact absurd hcol (h3 j' hj')
        · rw [h1 j' (by omega)]; exact hcol
    unfold ers_go
    by_cases hg : acc.length < m ∧ j < n
    · rw [if_pos hg]
      cases hcol : E.col j with
      | nil =>
        -- break: column j of the original is empty, so the trailing ones are too
        have h0 : E0.col j = [] := by rw [← h1 j (le_refl j)]; exact hcol
        exact exitCase (fun j' hj1 hj2 => htrail j' hj2 j hj1 h0)
      | cons hd rest =>
        rcases hd with ⟨ind, v⟩
        have hEj : E0.col j = (ind, v) :: rest := by rw [← h1 j (le_refl j)]; exact hcol
        have hrest : rest = [] := by
          have := hlen1 j hg.2
          rw [hEj] at this
          simp at this
          cases rest with
          | nil => rfl
          | cons x t => simp at this
        subst hrest
        have hpj0 : pivot_ind E0 j = some ind := by
          unfold pivot_ind
          rw [hEj]
          rfl
        have hind : acc.length ≤ ind := h5 j (le_refl j) hg.2 ind hpj0
        have hiv : ind < m ∧ v ≠ 0 := by
          have hmem : (ind, v) ∈ E0.col j := by rw [hEj]; exact List.mem_cons_self _ _
          have hcw := ColumnMatrix.col_wf E0 hwf j
          exact ⟨by rw [← hm]; exact hcw.2 _ hmem, (hcw.1).2 _ hmem⟩
        have hlen1' : (acc ++ List.replicate (ind - acc.length) (1 : α)).length = ind := by
          simp only [List.length_append, List.length_replicate]
          omega
        apply ih (j + 1) (E.setCol j [(ind, 1)])
          ((acc ++ List.replicate (ind - acc.length) 1) ++ [v])
          (by omega)
        · intro j' hj'
          rw [ColumnMatrix.col_setCol, if_neg (fun hh => by omega)]
          exact h1 j' (by omega)
        · intro j' hj' i a hcol'
          by_cases hjj : j' = j
          · subst hjj
            rw [ColumnMatrix.col_setCol,
              if_pos ⟨rfl, by rw [h6, hwf.1, hn]; exact hg.2⟩]
            rw [hEj] at hcol'
            cases hcol'
            rfl
          · rw [ColumnMatrix.col_setCol, if_neg (fun hh => hjj hh.1)]
            exact h2 j' (by omega) i a hcol'
        · intro j' hj'
          by_cases hjj : j' = j
          · subst hjj; rw [hEj]; exact fun hh => by cases hh
          · exact h3 j' (by omega)
        · intro j' hj' i a hcol'
          by_cases hjj : j' = j
          · subst hjj
            rw [hEj] at hcol'
            cases hcol'
            constructor
            · simp only [List.length_append, List.length_replicate, List.length_cons,
                List.length_nil]
              omega
            · rw [getD_append_right _ _ _ _ (by omega), hlen1']
              simp
          · have hprev := h4 j' (by omega) i a hcol'
            constructor
            · simp only [List.length_append, List.length_replicate, List.length_cons,
                List.length_nil]
              omega
            · rw [getD_append_left _ _ _ _ (by omega),
                getD_append_left _ _ _ _ hprev.1]
              exact hprev.2
        · intro j' hj' hj'n p hp
          have := hord j j' (by omega) hj'n ind p hpj0 hp
          simp only [List.length_append, List.length_replicate, List.length_cons,
            List.length_nil]
          omega
        · rw [ColumnMatrix.length_cols_setCol]
          exact h6
        · omega
    · rw [if_neg hg]
      rcases not_and_or.mp hg with hml | hnl
      · -- acc.length ≥ m: any remaining pivot would exceed the row count
        apply exitCase
        intro j' hj1 hj2
        by_contra hc
        cases hcol' : E0.col j' with
        | nil => exact hc hcol'
        | cons hd rest =>
          have hp : pivot_ind E0 j' = some hd.1 := by
            unfold pivot_ind
            rw [hcol']
            rfl
          have hge := h5 j' hj1 hj2 hd.1 hp
          have hmem : hd ∈ E0.col j' := by rw [hcol']; exact List.mem_cons_self _ _
          have := (ColumnMatrix.col_wf E0 hwf j').2 hd hmem
          omega
      · exact exitCase (fun j' hj1 hj2 => absurd hj2 (by omega))

theorem extract_row_scale_red (E : ColumnMatrix α) (hE : E.wf) (hred : E.ELred) :
    (∀ j', ∀ i a, E.col j' = [(i, a)] → j' < E.ncol →
        (extract_row_scale E).1.col j' = [(i, 1)] ∧ (extract_row_scale E).2.getD i 1 = a) ∧
      (∀ j', E.col j' = [] → (extract_row_scale E).1.col j' = []) ∧
      (extract_row_scale E).1.cols.length = E.cols.length := by
  rcases hred with ⟨hEL, hlen1, htrail⟩
  exact ers_go_red E.nrow E.ncol E hE rfl rfl (is_EL_pivot_mono E hEL) hlen1 htrail
    E.ncol 0 E [] (by omega) (fun _ _ => rfl) (fun j' hj' => absurd hj' (by omega))
    (fun j' hj' => absurd hj' (by omega)) (fun j' hj' _ _ hh => absurd hj' (by omega))
    (fun _ _ _ p _ => Nat.zero_le p) rfl (Nat.zero_le _)

/-- Claim C5 (amended): for every well-formed matrix in fully reduced EL
form — each nonzero column holding exactly its pivot entry, zero columns
trailing, as the E factor of LEUP is — `extract_row_scale` sets every
pivot value to one and returns per-row coefficients whose row scaling
recovers the original matrix exactly. -/
theorem extract_row_scale_roundtrip (E : ColumnMatrix α) (hE : E.wf) (hred : E.ELred) :
    (∀ j p, j < E.ncol → ((extract_row_scale E).1.col j).head? = some p → p.2 = 1) ∧
      (extract_row_scale E).1.row_scale (extract_row_scale E).2 = E := by
  have facts := extract_row_scale_red E hE hred
  have hspec := ers_go_spec E.nrow E.ncol E (is_EL_pivot_mono E hred.1) E.ncol 0 E []
    (fun _ => rfl) rfl rfl (fun r' _ => rfl) (fun _ _ _ p _ => Nat.zero_le p)
  have hnr : (extract_row_scale E).1.nrow = E.nrow := hspec.2.1
  have hnc : (extract_row_scale E).1.ncol = E.ncol := hspec.2.2.1
  have hcase : ∀ j, j < E.ncol → E.col j = [] ∨ ∃ i a, E.col j = [(i, a)] := by
    intro j hj
    have := hred.2.1 j hj
    cases hcol : E.col j with
    | nil => exact Or.inl rfl
    | cons x t =>
      rw [hcol] at this
      cases t with
      | nil => exact Or.inr ⟨x.1, x.2, rfl⟩
      | cons y t2 => simp at this
  have hXwf : (extract_row_scale E).1.wf := by
    constructor
    · rw [facts.2.2, hE.1, hnc]
    · intro v hv
      rcases List.mem_iff_getElem.mp hv with ⟨c, hcl, hveq⟩
      have hcol : (extract_row_scale E).1.col c = v := by
        unfold ColumnMatrix.col
        rw [List.getD_eq_getElem?_getD, List.getElem?_eq_getElem hcl]
        exact hveq
      have hcE : c < E.ncol := by
        rw [facts.2.2, hE.1] at hcl
        exact hcl
      rcases hcase c hcE with h0 | ⟨i, a, hia⟩
      · rw [facts.2.1 c h0] at hcol
        rw [← hcol]
        exact ⟨⟨List.Pairwise.nil, by simp⟩, by simp⟩
      · rw [(facts.1 c i a hia hcE).1] at hcol
        rw [← hcol]
        have hi : i < E.nrow := by
          have hmem : (i, a) ∈ E.col c := by rw [hia]; exact List.mem_cons_self _ _
          exact (ColumnMatrix.col_wf E hE c).2 _ hmem
        refine ⟨SpVec.wf_single i 1 one_ne_zero, ?_⟩
        intro p hp
        rcases List.mem_cons.mp hp with h | h
        · subst h
          rw [hnr]
          exact hi
        · cases h
  constructor
  · intro j p hj hhd
    rcases hcase j hj with h0 | ⟨i, a, hia⟩
    · rw [facts.2.1 j h0] at hhd
      cases hhd
    · rw [(facts.1 j i a hia hj).1] at hhd
      cases hhd
      rfl
  · apply ColumnMatrix.ext_entry
      (ColumnMatrix.wf_row_scale _ hXwf _) hE
      (by show (extract_row_scale E).1.nrow = E.nrow; exact hnr)
      (by show (extract_row_scale E).1.ncol = E.ncol; exact hnc)
    intro r c
    rw [ColumnMatrix.entry_row_scale _ hXwf]
    by_cases hc : c < E.ncol
    · rcases hcase c hc with h0 | ⟨i, a, hia⟩
      · have hXc : (extract_row_scale E).1.entry r c = 0 := by
          unfold ColumnMatrix.entry
          rw [facts.2.1 c h0]
          exact SpVec.get_nil r
        have hEc : E.entry r c = 0 := by
          unfold ColumnMatrix.entry
          rw [h0]
          exact SpVec.get_nil r
        rw [hXc, hEc, mul_zero]
      · have hXc : (extract_row_scale E).1.entry r c = if i = r then 1 else 0 := by
          unfold ColumnMatrix.entry
          rw [(facts.1 c i a hia hc).1]
          exact SpVec.get_single i 1 r
        have hEc : E.entry r c = if i = r then a else 0 := by
          unfold ColumnMatrix.entry
          rw [hia]
          exact SpVec.get_single i a r
        rw [hXc, hEc]
        by_cases hir : i = r
        · rw [if_pos hir, if_pos hir, mul_one, ← hir]
          exact (facts.1 c i a hia hc).2
        · rw [if_neg hir, if_neg hir, mul_zero]
    · have hXc : (extract_row_scale E).1.entry r c = 0 :=
        ColumnMatrix.entry_eq_zero_of_ge _ hXwf r c (Or.inr (by rw [hnc]; omega))
      have hEc : E.entry r c = 0 :=
        ColumnMatrix.entry_eq_zero_of_ge _ hE r c (Or.inr (by omega))
      rw [hXc, hEc, mul_zero]

/-- Concrete reduced EL matrix over `F5` for the C5 witness. -/
def Ered : ColumnMatrix F5 := ⟨3, 3, [[(0, 2)], [(2, 3)], []]⟩

/-- Witness for the amended claim C5 at `Ered`. -/
theorem extract_row_scale_roundtrip_witness :
    Ered.wf ∧ Ered.ELred ∧
      ((∀ j p, j < Ered.ncol → ((extract_row_scale Ered).1.col j).head? = some p → p.2 = 1) ∧
        (extract_row_scale Ered).1.row_scale (extract_row_scale Ered).2 = Ered) :=
  ⟨by decide, by decide, extract_row_scale_roundtrip Ered (by decide) (by decide)⟩

theorem SpVec.get_of_mem {v : SpVec α} (hv : v.wf) {r : Nat} {a : α} (h : (r, a) ∈ v) :
    v.get r = a := by
  induction v with
  | nil => cases h
  | cons q t ih =>
    have hpw := List.pairwise_cons.mp hv.1
    rcases List.mem_cons.mp h with hq | ht
    · subst hq
      exact SpVec.get_cons_self (r, a) t
    · have hlt : q.1 < r := hpw.1 _ ht
      rw [SpVec.get_cons_ne _ _ _ (by omega)]
      exact ih ⟨hpw.2, fun p hp => hv.2 p (List.mem_cons_of_mem _ hp)⟩ ht

theorem SpVec.get_mem_of_ne_zero {v : SpVec α} {r : Nat} (h : v.get r ≠ 0) :
    (r, v.get r) ∈ v := by
  unfold SpVec.get at h ⊢
  cases hf : v.find? (fun p => p.1 == r) with
  | none => rw [hf] at h; exact absurd rfl h
  | some p =>
    show (r, p.2) ∈ v
    have hpr : p.1 = r := by simpa using List.find?_some hf
    have hm := List.mem_of_find?_eq_some hf
    rw [← hpr]
    exact hm

theorem SpVec.bnd_le (v : SpVec α) (M : Nat) (h : ∀ p ∈ v, p.1 < M) : v.bnd ≤ M := by
  induction v with
  | nil => exact Nat.zero_le M
  | cons q t ih =>
    have h1 := h q (List.mem_cons_self _ _)
    have h2 := ih (fun p hp => h p (List.mem_cons_of_mem _ hp))
    simp only [SpVec.bnd, List.foldr_cons] at h2 ⊢
    omega

theorem SpVec.lowerBound_spec {v : SpVec α} (hv : v.wf) {i0 : Nat} {p : Nat × α}
    (h : v.lowerBound i0 = some p) :
    i0 ≤ p.1 ∧ v.get p.1 = p.2 ∧ p.2 ≠ 0 ∧ ∀ r, i0 ≤ r → r < p.1 → v.get r = 0 := by
  induction v with
  | nil => cases h
  | cons q t ih =>
    have hpw := List.pairwise_cons.mp hv.1
    by_cases hq : i0 ≤ q.1
    · have heq : SpVec.lowerBound (q :: t) i0 = some q :=
        List.find?_cons_of_pos _ (by simpa using hq)
      rw [heq] at h
      injection h with h
      subst h
      refine ⟨hq, SpVec.get_cons_self q t, hv.2 q (List.mem_cons_self _ _), ?_⟩
      intro r h1 h2
      rw [SpVec.get_cons_ne _ _ _ (by omega)]
      apply SpVec.get_of_not_mem
      intro x hx
      have := hpw.1 x hx
      omega
    · have heq : SpVec.lowerBound (q :: t) i0 = SpVec.lowerBound t i0 :=
        List.find?_cons_of_neg _ (by simpa using hq)
      rw [heq] at h
      have htwf : SpVec.wf t := ⟨hpw.2, fun x hx => hv.2 x (List.mem_cons_of_mem _ hx)⟩
      rcases ih htwf h with ⟨h1, h2, h3, h4⟩
      refine ⟨h1, ?_, h3, ?_⟩
      · rw [SpVec.get_cons_ne _ _ _ (by omega), h2]
      · intro r hr1 hr2
        rw [SpVec.get_cons_ne _ _ _ (by omega)]
        exact h4 r hr1 hr2

theorem SpVec.lowerBound_none {v : SpVec α} (hv : v.wf) {i0 : Nat}
    (h : v.lowerBound i0 = none) : ∀ r, i0 ≤ r → v.get r = 0 := by
  intro r hr
  induction v with
  | nil => exact SpVec.get_nil r
  | cons q t ih =>
    have hpw := List.pairwise_cons.mp hv.1
    by_cases hq : i0 ≤ q.1
    · have heq : SpVec.lowerBound (q :: t) i0 = some q :=
        List.find?_cons_of_pos _ (by simpa using hq)
      rw [heq] at h
      cases h
    · have heq : SpVec.lowerBound (q :: t) i0 = SpVec.lowerBound t i0 :=
        List.find?_cons_of_neg _ (by simpa using hq)
      rw [heq] at h
      rw [SpVec.get_cons_ne _ _ _ (by omega)]
      exact ih ⟨hpw.2, fun x hx => hv.2 x (List.mem_cons_of_mem _ hx)⟩ h

theorem SpVec.lowerBound_of_get_ne {v : SpVec α} (hv : v.wf) {i0 : Nat}
    (h : v.get i0 ≠ 0) : v.lowerBound i0 = some (i0, v.get i0) := by
  induction v with
  | nil => exact absurd (SpVec.get_nil i0) h
  | cons q t ih =>
    have hpw := List.pairwise_cons.mp hv.1
    by_cases hq1 : q.1 = i0
    · have hget : SpVec.get (q :: t) i0 = q.2 := by
        rw [← hq1]; exact SpVec.get_cons_self q t
      have heq : SpVec.lowerBound (q :: t) i0 = some q :=
        List.find?_cons_of_pos _ (by simp [hq1])
      rw [heq, hget]
      rw [← hq1]
    · have hget : SpVec.get (q :: t) i0 = SpVec.get t i0 := SpVec.get_cons_ne _ _ _ hq1
      rw [hget] at h ⊢
      have hmem := SpVec.get_mem_of_ne_zero h
      have hqlt : q.1 < i0 := by
        have := hpw.1 _ hmem
        omega
      have heq : SpVec.lowerBound (q :: t) i0 = SpVec.lowerBound t i0 :=
        List.find?_cons_of_neg _ (by simp; omega)
      rw [heq]
      exact ih ⟨hpw.2, fun x hx => hv.2 x (List.mem_cons_of_mem _ hx)⟩ h

theorem SpVec.lowerBound_succ_of_get_eq {v : SpVec α} (hv : v.wf) {i0 : Nat}
    (h : v.get i0 = 0) : v.lowerBound i0 = v.lowerBound (i0 + 1) := by
  induction v with
  | nil => rfl
  | cons q t ih =>
    have hpw := List.pairwise_cons.mp hv.1
    by_cases hq1 : q.1 = i0
    · have hget : SpVec.get (q :: t) i0 = q.2 := by
        rw [← hq1]; exact SpVec.get_cons_self q t
      exact absurd (hget.symm.trans h) (hv.2 q (List.mem_cons_self _ _))
    · by_cases hq : i0 ≤ q.1
      · have hq' : i0 + 1 ≤ q.1 := by omega
        have heq1 : SpVec.lowerBound (q :: t) i0 = some q :=
          List.find?_cons_of_pos _ (by simpa using hq)
        have heq2 : SpVec.lowerBound (q :: t) (i0 + 1) = some q :=
          List.find?_cons_of_pos _ (by simpa using hq')
        rw [heq1, heq2]
      · have hgt : SpVec.get (q :: t) i0 = SpVec.get t i0 := SpVec.get_cons_ne _ _ _ hq1
        have heq1 : SpVec.lowerBound (q :: t) i0 = SpVec.lowerBound t i0 :=
          List.find?_cons_of_neg _ (by simpa using hq)
        have heq2 : SpVec.lowerBound (q :: t) (i0 + 1) = SpVec.lowerBound t (i0 + 1) :=
          List.find?_cons_of_neg _ (by simp; omega)
        rw [heq1, heq2]
        exact ih ⟨hpw.2, fun x hx => hv.2 x (List.mem_cons_of_mem _ hx)⟩ (hgt.symm.trans h)

theorem SpVec.lowerBound_isSome_of {v : SpVec α} (hv : v.wf) {i0 r : Nat}
    (h : v.get r ≠ 0) (hr : i0 ≤ r) :
    ∃ p, v.lowerBound i0 = some p ∧ i0 ≤ p.1 ∧ p.1 ≤ r := by
  cases hlb : v.lowerBound i0 with
  | none => exact absurd (SpVec.lowerBound_none hv hlb r hr) h
  | some p =>
    rcases SpVec.lowerBound_spec hv hlb with ⟨h1, _, _, h4⟩
    refine ⟨p, rfl, h1, ?_⟩
    by_contra hc
    exact h (h4 r hr (by omega))

theorem ColumnMatrix.wf_of_forall_col (A : ColumnMatrix α)
    (hlen : A.cols.length = A.ncol)
    (h : ∀ c, c < A.ncol → (A.col c).wf ∧ ∀ p ∈ A.col c, p.1 < A.nrow) : A.wf := by
  refine ⟨hlen, ?_⟩
  intro v hv
  rcases List.mem_iff_getElem.mp hv with ⟨c, hc, rfl⟩
  have hcol : A.col c = A.cols[c] := by
    unfold ColumnMatrix.col
    rw [List.getD_eq_getElem?_getD, List.getElem?_eq_getElem hc]
    rfl
  rw [← hcol]
  exact h c (by omega)

theorem SpVec.axpy_bound {y x : SpVec α} {c : α} {lo hi M : Nat}
    (hy : ∀ p ∈ y, p.1 < M) (hhi : hi ≤ M) :
    ∀ p ∈ y.axpy c x lo hi, p.1 < M := by
  intro p hp
  have h1 := (SpVec.mem_ofFn.mp hp).1
  have h2 := SpVec.bnd_le y M hy
  omega

theorem SpVec.axpyLazy_bound {y x : SpVec α} {coeff : List α} {pivs : List Nat} {M : Nat}
    (hy : ∀ p ∈ y, p.1 < M) (hlen : coeff.length ≤ M) :
    ∀ p ∈ y.axpyLazy x coeff pivs, p.1 < M := by
  intro p hp
  have h1 := (SpVec.mem_ofFn.mp hp).1
  have h2 := SpVec.bnd_le y M hy
  omega

theorem sum_range_drop {β : Type} [AddCommMonoid β] (f : Nat → β) {n1 n2 : Nat}
    (h : n1 ≤ n2) (h0 : ∀ k, n1 ≤ k → k < n2 → f k = 0) :
    ∑ k ∈ Finset.range n2, f k = ∑ k ∈ Finset.range n1, f k := by
  refine (Finset.sum_subset (Finset.range_subset.mpr h) ?_).symm
  intro x hx hx2
  rw [Finset.mem_range] at hx
  rw [Finset.mem_range] at hx2
  exact h0 x (by omega) hx

theorem sum_range_swapIdx {β : Type} [AddCommMonoid β] (f : Nat → β) (n j j2 : Nat)
    (hj : j < n) (hj2 : j2 < n) :
    ∑ l ∈ Finset.range n, f l =
      ∑ l ∈ Finset.range n, f (if l = j then j2 else if l = j2 then j else l) := by
  have htau : ∀ l, (if (if l = j then j2 else if l = j2 then j else l) = j then j2
      else if (if l = j then j2 else if l = j2 then j else l) = j2 then j
      else (if l = j then j2 else if l = j2 then j else l)) = l := by
    intro l
    by_cases h1 : l = j
    · by_cases h2 : j2 = j
      · simp [h1, h2]
      · simp [h1, h2]
    · by_cases h2 : l = j2
      · simp [h1, h2]
      · simp [h1, h2]
  have hmem : ∀ a, a < n → (if a = j then j2 else if a = j2 then j else a) < n := by
    intro a ha
    by_cases h1 : a = j
    · rw [if_pos h1]; omega
    · rw [if_neg h1]
      by_cases h2 : a = j2
      · rw [if_pos h2]; omega
      · rw [if_neg h2]; omega
  refine Finset.sum_nbij' (fun l => if l = j then j2 else if l = j2 then j else l)
    (fun l => if l = j then j2 else if l = j2 then j else l) ?_ ?_ ?_ ?_ ?_
  · intro a ha
    rw [Finset.mem_range] at ha
    exact Finset.mem_range.mpr (hmem a ha)
  · intro a ha
    rw [Finset.mem_range] at ha
    exact Finset.mem_range.mpr (hmem a ha)
  · intro a _
    exact htau a
  · intro a _
    exact htau a
  · intro a _
    exact (congrArg f (htau a)).symm

theorem ColumnMatrix.col_T (A : ColumnMatrix α) (r : Nat) :
    A.T.col r =
      if r < A.nrow then SpVec.ofFn A.ncol (fun j => A.entry r j) else [] := by
  unfold ColumnMatrix.T ColumnMatrix.col
  simp only
  rw [getD_map_range]

theorem ColumnMatrix.col_J (A : ColumnMatrix α) (c : Nat) :
    A.J.col c =
      if c < A.ncol then
        SpVec.ofFn A.nrow (fun i => A.entry (A.nrow - 1 - i) (A.ncol - 1 - c))
      else [] := by
  unfold ColumnMatrix.J ColumnMatrix.col
  simp only
  rw [getD_map_range]

theorem ColumnMatrix.mul_identity (A : ColumnMatrix α) (hA : A.wf) :
    A * ColumnMatrix.identity A.ncol = A := by
  apply ColumnMatrix.ext_entry ?_ ?_ ?_ ?_ ?_
  · exact ColumnMatrix.wf_mul _ _
  · exact hA
  · rfl
  · rfl
  intro r c
  rw [ColumnMatrix.entry_mul]
  by_cases hrc : r < A.nrow ∧ c < (ColumnMatrix.identity A.ncol (α := α)).ncol
  · rw [if_pos hrc]
    have hc : c < A.ncol := hrc.2
    have hz : ∀ k ∈ Finset.range A.ncol, k ≠ c →
        A.entry r k * (ColumnMatrix.identity A.ncol).entry k c = 0 := by
      intro k _ hk
      rw [ColumnMatrix.entry_identity, if_neg (fun hh => hk hh.1), mul_zero]
    rw [Finset.sum_eq_single c hz (fun hcm => absurd (Finset.mem_range.mpr hc) hcm)]
    rw [ColumnMatrix.entry_identity, if_pos ⟨rfl, hc⟩, mul_one]
  · rw [if_neg hrc]
    symm
    apply ColumnMatrix.entry_eq_zero_of_ge A hA
    rcases not_and_or.mp hrc with h | h
    · exact Or.inl (by omega)
    · refine Or.inr ?_
      have h' : ¬ c < A.ncol := h
      omega

theorem ColumnMatrix.identity_mul (A : ColumnMatrix α) (hA : A.wf) :
    ColumnMatrix.identity A.nrow * A = A := by
  apply ColumnMatrix.ext_entry ?_ ?_ ?_ ?_ ?_
  · exact ColumnMatrix.wf_mul _ _
  · exact hA
  · rfl
  · rfl
  intro r c
  rw [ColumnMatrix.entry_mul]
  by_cases hrc : r < (ColumnMatrix.identity A.nrow (α := α)).nrow ∧ c < A.ncol
  · rw [if_pos hrc]
    have hr : r < A.nrow := hrc.1
    have hz : ∀ k ∈ Finset.range (ColumnMatrix.identity A.nrow (α := α)).ncol, k ≠ r →
        (ColumnMatrix.identity A.nrow).entry r k * A.entry k c = 0 := by
      intro k _ hk
      rw [ColumnMatrix.entry_identity, if_neg (fun hh : r = k ∧ k < A.nrow => hk hh.1.symm),
        zero_mul]
    rw [Finset.sum_eq_single r hz (fun hcm => absurd (Finset.mem_range.mpr hr) hcm)]
    rw [ColumnMatrix.entry_identity, if_pos ⟨rfl, hr⟩, one_mul]
  · rw [if_neg hrc]
    symm
    apply ColumnMatrix.entry_eq_zero_of_ge A hA
    rcases not_and_or.mp hrc with h | h
    · refine Or.inl ?_
      have h' : ¬ r < A.nrow := h
      omega
    · exact Or.inr (by omega)

theorem ColumnMatrix.mul_assoc3 (X Y Z : ColumnMatrix α) (hY : Y.wf) :
    X * Y * Z = X * (Y * Z) := by
  apply ColumnMatrix.ext_entry ?_ ?_ ?_ ?_ ?_
  · exact ColumnMatrix.wf_mul _ _
  · exact ColumnMatrix.wf_mul _ _
  · rfl
  · rfl
  intro r c
  rw [ColumnMatrix.entry_mul (X * Y) Z, ColumnMatrix.entry_mul X (Y * Z),
    show (X * Y).nrow = X.nrow from rfl, show (X * Y).ncol = Y.ncol from rfl,
    show (Y * Z).ncol = Z.ncol from rfl]
  by_cases hrc : r < X.nrow ∧ c < Z.ncol
  · rw [if_pos hrc, if_pos hrc]
    have hL : ∀ l ∈ Finset.range Y.ncol,
        (X * Y).entry r l * Z.entry l c
          = ∑ k ∈ Finset.range X.ncol, X.entry r k * (Y.entry k l * Z.entry l c) := by
      intro l hl
      have hcond : r < X.nrow ∧ l < Y.ncol := ⟨hrc.1, Finset.mem_range.mp hl⟩
      rw [ColumnMatrix.entry_mul, if_pos hcond, Finset.sum_mul]
      exact Finset.sum_congr rfl (fun k _ => mul_assoc _ _ _)
    rw [Finset.sum_congr rfl hL, Finset.sum_comm]
    apply Finset.sum_congr rfl
    intro k _
    rw [ColumnMatrix.entry_mul]
    by_cases hk : k < Y.nrow
    · have hcond : k < Y.nrow ∧ c < Z.ncol := ⟨hk, hrc.2⟩
      rw [if_pos hcond, Finset.mul_sum]
    · have hcond : ¬(k < Y.nrow ∧ c < Z.ncol) := fun hh => hk hh.1
      rw [if_neg hcond, mul_zero]
      apply Finset.sum_eq_zero
      intro l _
      rw [ColumnMatrix.entry_eq_zero_of_ge Y hY k l (Or.inl (by omega)), zero_mul, mul_zero]
  · rw [if_neg hrc, if_neg hrc]

theorem ColumnMatrix.T_mul (X Y : ColumnMatrix α) (hX : X.wf) (hY : Y.wf) :
    (X * Y).T = Y.T * X.T := by
  apply ColumnMatrix.ext_entry ?_ ?_ ?_ ?_ ?_
  · exact ColumnMatrix.wf_T _
  · exact ColumnMatrix.wf_mul _ _
  · rfl
  · rfl
  intro r c
  rw [ColumnMatrix.entry_T, ColumnMatrix.entry_mul (Y.T) (X.T)]
  by_cases hrc : r < Y.ncol ∧ c < X.nrow
  · rw [if_pos (show r < (X * Y).ncol ∧ c < (X * Y).nrow from hrc),
      if_pos (show r < Y.T.nrow ∧ c < X.T.ncol from hrc),
      ColumnMatrix.entry_mul X Y, if_pos (show c < X.nrow ∧ r < Y.ncol from ⟨hrc.2, hrc.1⟩)]
    have hL : ∑ k ∈ Finset.range X.ncol, X.entry c k * Y.entry k r
        = ∑ k ∈ Finset.range (max X.ncol Y.nrow), X.entry c k * Y.entry k r :=
      (sum_range_drop _ (le_max_left _ _) (fun k h1 _ => by
        rw [ColumnMatrix.entry_eq_zero_of_ge X hX c k (Or.inr h1), zero_mul])).symm
    have hR : ∑ k ∈ Finset.range Y.T.ncol, Y.T.entry r k * X.T.entry k c
        = ∑ k ∈ Finset.range (max X.ncol Y.nrow), Y.T.entry r k * X.T.entry k c :=
      (sum_range_drop _ (le_max_right _ _) (fun k h1 _ => by
        have h1' : Y.nrow ≤ k := h1
        rw [ColumnMatrix.entry_T Y, if_neg (fun hh => by omega), zero_mul])).symm
    rw [hL, hR]
    apply Finset.sum_congr rfl
    intro k _
    rw [ColumnMatrix.entry_T Y, ColumnMatrix.entry_T X]
    by_cases h1 : k < Y.nrow
    · rw [if_pos ⟨hrc.1, h1⟩]
      by_cases h2 : k < X.ncol
      · rw [if_pos ⟨h2, hrc.2⟩, mul_comm]
      · rw [if_neg (fun hh => h2 hh.1), mul_zero,
          ColumnMatrix.entry_eq_zero_of_ge X hX c k (Or.inr (by omega)), zero_mul]
    · rw [if_neg (fun hh => h1 hh.2), zero_mul,
        ColumnMatrix.entry_eq_zero_of_ge Y hY k r (Or.inl (by omega)), mul_zero]
  · rw [if_neg (show ¬(r < (X * Y).ncol ∧ c < (X * Y).nrow) from hrc),
      if_neg (show ¬(r < Y.T.nrow ∧ c < X.T.ncol) from hrc)]

theorem ColumnMatrix.J_mul (X Y : ColumnMatrix α) (hX : X.wf) (hY : Y.wf)
    (hd : X.ncol = Y.nrow) : (X * Y).J = X.J * Y.J := by
  apply ColumnMatrix.ext_entry ?_ ?_ ?_ ?_ ?_
  · exact ColumnMatrix.wf_J _
  · exact ColumnMatrix.wf_mul _ _
  · rfl
  · rfl
  intro r c
  rw [ColumnMatrix.entry_J, ColumnMatrix.entry_mul (X.J) (Y.J),
    show (X * Y).nrow = X.nrow from rfl, show (X * Y).ncol = Y.ncol from rfl,
    show X.J.nrow = X.nrow from rfl, show X.J.ncol = X.ncol from rfl,
    show Y.J.ncol = Y.ncol from rfl]
  by_cases hrc : r < X.nrow ∧ c < Y.ncol
  · rw [if_pos hrc, if_pos hrc, ColumnMatrix.entry_mul X Y,
      if_pos (show X.nrow - 1 - r < X.nrow ∧ Y.ncol - 1 - c < Y.ncol from by omega)]
    have hrefl := Finset.sum_range_reflect
      (fun k => X.entry (X.nrow - 1 - r) k * Y.entry k (Y.ncol - 1 - c)) X.ncol
    rw [← hrefl]
    apply Finset.sum_congr rfl
    intro k hk
    rw [Finset.mem_range] at hk
    rw [ColumnMatrix.entry_J X, ColumnMatrix.entry_J Y,
      if_pos (show r < X.nrow ∧ k < X.ncol from ⟨hrc.1, hk⟩),
      if_pos (show k < Y.nrow ∧ c < Y.ncol from ⟨by omega, hrc.2⟩),
      show Y.nrow - 1 - k = X.ncol - 1 - k from by omega]
  · rw [if_neg hrc, if_neg hrc]

theorem ColumnMatrix.T_T (A : ColumnMatrix α) (hA : A.wf) : A.T.T = A := by
  apply ColumnMatrix.ext_entry ?_ ?_ ?_ ?_ ?_
  · exact ColumnMatrix.wf_T _
  · exact hA
  · rfl
  · rfl
  intro r c
  rw [ColumnMatrix.entry_T A.T, ColumnMatrix.entry_T A]
  by_cases h : r < A.nrow ∧ c < A.ncol
  · rw [if_pos (show r < A.T.ncol ∧ c < A.T.nrow from h),
      if_pos (show c < A.ncol ∧ r < A.nrow from ⟨h.2, h.1⟩)]
  · rw [if_neg (show ¬(r < A.T.ncol ∧ c < A.T.nrow) from h)]
    symm
    apply ColumnMatrix.entry_eq_zero_of_ge A hA
    rcases not_and_or.mp h with h1 | h1
    · exact Or.inl (by omega)
    · exact Or.inr (by omega)

theorem ColumnMatrix.J_J (A : ColumnMatrix α) (hA : A.wf) : A.J.J = A := by
  apply ColumnMatrix.ext_entry ?_ ?_ ?_ ?_ ?_
  · exact ColumnMatrix.wf_J _
  · exact hA
  · rfl
  · rfl
  intro r c
  rw [ColumnMatrix.entry_J A.J, ColumnMatrix.entry_J A,
    show A.J.nrow = A.nrow from rfl, show A.J.ncol = A.ncol from rfl]
  by_cases h : r < A.nrow ∧ c < A.ncol
  · rw [if_pos h,
      if_pos (show A.nrow - 1 - r < A.nrow ∧ A.ncol - 1 - c < A.ncol from by omega),
      show A.nrow - 1 - (A.nrow - 1 - r) = r from by omega,
      show A.ncol - 1 - (A.ncol - 1 - c) = c from by omega]
  · rw [if_neg h]
    symm
    apply ColumnMatrix.entry_eq_zero_of_ge A hA
    rcases not_and_or.mp h with h1 | h1
    · exact Or.inl (by omega)
    · exact Or.inr (by omega)

/-- Permutation matrix in columns-of-identity form: square, every column a
single unit entry, entry rows pairwise distinct. -/
def ColumnMatrix.PermMat (P : ColumnMatrix α) : Prop :=
  P.nrow = P.ncol ∧ ∃ σ : Nat → Nat,
    (∀ c, c < P.ncol → σ c < P.ncol ∧ P.col c = [(σ c, 1)]) ∧
    (∀ c1 c2, c1 < P.ncol → c2 < P.ncol → σ c1 = σ c2 → c1 = c2)

theorem permFn_surj (n : Nat) (σ : Nat → Nat) (hb : ∀ c, c < n → σ c < n)
    (hinj : ∀ c1 c2, c1 < n → c2 < n → σ c1 = σ c2 → c1 = c2) :
    ∀ r, r < n → ∃ c, c < n ∧ σ c = r := by
  intro r hr
  have hinj' : Set.InjOn σ (Finset.range n) := by
    intro c1 h1 c2 h2 he
    exact hinj c1 c2 (Finset.mem_range.mp (Finset.mem_coe.mp h1))
      (Finset.mem_range.mp (Finset.mem_coe.mp h2)) he
  have himg : (Finset.range n).image σ = Finset.range n := by
    apply Finset.eq_of_subset_of_card_le
    · intro x hx
      rcases Finset.mem_image.mp hx with ⟨c, hc, rfl⟩
      exact Finset.mem_range.mpr (hb c (Finset.mem_range.mp hc))
    · rw [Finset.card_range, Finset.card_image_of_injOn hinj', Finset.card_range]
  have hmem : r ∈ (Finset.range n).image σ := by
    rw [himg]
    exact Finset.mem_range.mpr hr
  rcases Finset.mem_image.mp hmem with ⟨c, hc, he⟩
  exact ⟨c, Finset.mem_range.mp hc, he⟩

theorem ColumnMatrix.PermMat_identity (n : Nat) :
    (ColumnMatrix.identity n (α := α)).PermMat := by
  refine ⟨rfl, fun c => c, ?_, ?_⟩
  · intro c hc
    have hc' : c < n := hc
    refine ⟨hc', ?_⟩
    show (ColumnMatrix.identity n (α := α)).col c = [(c, 1)]
    rw [ColumnMatrix.col_identity, if_pos hc']
  · intro c1 c2 _ _ h
    exact h

theorem ColumnMatrix.PermMat_swap_cols (P : ColumnMatrix α) (hP : P.PermMat)
    (hw : P.cols.length = P.ncol) (j j2 : Nat) (hj : j < P.ncol) (hj2 : j2 < P.ncol) :
    (P.swap_cols j j2).PermMat := by
  obtain ⟨hsq, σ, hcol, hinj⟩ := hP
  refine ⟨hsq, fun c => σ (if c = j2 then j else if c = j then j2 else c), ?_, ?_⟩
  · intro c hc
    have hc' : c < P.ncol := hc
    have hcs := ColumnMatrix.col_swap_cols P j j2 c (by omega) (by omega)
    show σ (if c = j2 then j else if c = j then j2 else c) < (P.swap_cols j j2).ncol ∧
      (P.swap_cols j j2).col c = [(σ (if c = j2 then j else if c = j then j2 else c), 1)]
    by_cases h2 : c = j2
    · rw [if_pos h2, hcs, if_pos h2]
      exact ⟨(hcol j hj).1, (hcol j hj).2⟩
    · rw [if_neg h2, hcs, if_neg h2]
      by_cases h1 : c = j
      · rw [if_pos h1, if_pos h1]
        exact ⟨(hcol j2 hj2).1, (hcol j2 hj2).2⟩
      · rw [if_neg h1, if_neg h1]
        exact ⟨(hcol c hc').1, (hcol c hc').2⟩
  · intro c1 c2 hc1 hc2 he
    have hc1' : c1 < P.ncol := hc1
    have hc2' : c2 < P.ncol := hc2
    have he' : σ (if c1 = j2 then j else if c1 = j then j2 else c1)
        = σ (if c2 = j2 then j else if c2 = j then j2 else c2) := he
    have hb1 : (if c1 = j2 then j else if c1 = j then j2 else c1) < P.ncol := by
      by_cases h2 : c1 = j2
      · rw [if_pos h2]; omega
      · rw [if_neg h2]
        by_cases h1 : c1 = j
        · rw [if_pos h1]; omega
        · rw [if_neg h1]; omega
    have hb2 : (if c2 = j2 then j else if c2 = j then j2 else c2) < P.ncol := by
      by_cases h2 : c2 = j2
      · rw [if_pos h2]; omega
      · rw [if_neg h2]
        by_cases h1 : c2 = j
        · rw [if_pos h1]; omega
        · rw [if_neg h1]; omega
    have hττ := hinj _ _ hb1 hb2 he'
    split_ifs at hττ <;> omega

theorem ColumnMatrix.PermMat_T (P : ColumnMatrix α) (hP : P.PermMat) (hw : P.wf) :
    P.T.PermMat := by
  obtain ⟨hsq, σ, hcol, hinj⟩ := hP
  have hsurj := permFn_surj P.ncol σ (fun c hc => (hcol c hc).1) hinj
  have hent : ∀ a b, b < P.ncol → P.entry a b = if σ b = a then 1 else 0 := by
    intro a b hb
    unfold ColumnMatrix.entry
    rw [(hcol b hb).2, SpVec.get_single]
  refine ⟨show P.ncol = P.nrow from hsq.symm,
    fun r => if h : r < P.ncol then (hsurj r h).choose else 0, ?_, ?_⟩
  · intro r hr
    have hr0 : r < P.nrow := hr
    have hr' : r < P.ncol := by omega
    obtain ⟨hcl, hcσ⟩ := (hsurj r hr').choose_spec
    constructor
    · show (if h : r < P.ncol then (hsurj r h).choose else 0) < P.T.ncol
      rw [dif_pos hr']
      have hTn : P.T.ncol = P.nrow := rfl
      omega
    · show P.T.col r = [((if h : r < P.ncol then (hsurj r h).choose else 0), 1)]
      rw [dif_pos hr', ColumnMatrix.col_T, if_pos (show r < P.nrow from by omega)]
      apply SpVec.ofFn_eq_single (show (hsurj r hr').choose < P.ncol from hcl) one_ne_zero
      intro b hb
      rw [hent r b hb]
      by_cases he : b = (hsurj r hr').choose
      · rw [if_pos he, if_pos (by rw [he, hcσ])]
      · rw [if_neg he, if_neg ?_]
        intro hσ
        exact he (hinj b _ hb hcl (hσ.trans hcσ.symm))
  · intro c1 c2 hc1 hc2 he
    have hc10 : c1 < P.nrow := hc1
    have hc20 : c2 < P.nrow := hc2
    have hc1' : c1 < P.ncol := by omega
    have hc2' : c2 < P.ncol := by omega
    have he' : (if h : c1 < P.ncol then (hsurj c1 h).choose else 0)
        = (if h : c2 < P.ncol then (hsurj c2 h).choose else 0) := he
    rw [dif_pos hc1', dif_pos hc2'] at he'
    have h1 := (hsurj c1 hc1').choose_spec
    have h2 := (hsurj c2 hc2').choose_spec
    rw [← h1.2, ← h2.2, he']

theorem ColumnMatrix.PermMat_J (P : ColumnMatrix α) (hP : P.PermMat) (hw : P.wf) :
    P.J.PermMat := by
  obtain ⟨hsq, σ, hcol, hinj⟩ := hP
  have hent : ∀ a b, b < P.ncol → P.entry a b = if σ b = a then 1 else 0 := by
    intro a b hb
    unfold ColumnMatrix.entry
    rw [(hcol b hb).2, SpVec.get_single]
  refine ⟨hsq, fun c => P.ncol - 1 - σ (P.ncol - 1 - c), ?_, ?_⟩
  · intro c hc
    have hc' : c < P.ncol := hc
    have hcr : P.ncol - 1 - c < P.ncol := by omega
    have hσb := (hcol _ hcr).1
    constructor
    · show P.ncol - 1 - σ (P.ncol - 1 - c) < P.J.ncol
      have hJn : P.J.ncol = P.ncol := rfl
      omega
    · show P.J.col c = [((P.ncol - 1 - σ (P.ncol - 1 - c)), 1)]
      rw [ColumnMatrix.col_J, if_pos hc']
      apply SpVec.ofFn_eq_single
        (show P.ncol - 1 - σ (P.ncol - 1 - c) < P.nrow from by omega) one_ne_zero
      intro i hi
      rw [hent (P.nrow - 1 - i) (P.ncol - 1 - c) hcr]
      by_cases he : i = P.ncol - 1 - σ (P.ncol - 1 - c)
      · rw [if_pos he, if_pos (by omega)]
      · rw [if_neg he, if_neg ?_]
        intro hσ2
        apply he
        omega
  · intro c1 c2 hc1 hc2 he
    have hc1' : c1 < P.ncol := hc1
    have hc2' : c2 < P.ncol := hc2
    have he' : P.ncol - 1 - σ (P.ncol - 1 - c1) = P.ncol - 1 - σ (P.ncol - 1 - c2) := he
    have hb1 := (hcol _ (show P.ncol - 1 - c1 < P.ncol from by omega)).1
    have hb2 := (hcol _ (show P.ncol - 1 - c2 < P.ncol from by omega)).1
    have hσe : σ (P.ncol - 1 - c1) = σ (P.ncol - 1 - c2) := by omega
    have := hinj _ _ (show P.ncol - 1 - c1 < P.ncol from by omega)
      (show P.ncol - 1 - c2 < P.ncol from by omega) hσe
    omega

theorem ColumnMatrix.PermMat_mul_T (P : ColumnMatrix α) (hP : P.PermMat) (hw : P.wf) :
    P * P.T = ColumnMatrix.identity P.ncol := by
  obtain ⟨hsq, σ, hcol, hinj⟩ := hP
  have hsurj := permFn_surj P.ncol σ (fun c hc => (hcol c hc).1) hinj
  have hent : ∀ a b, b < P.ncol → P.entry a b = if σ b = a then 1 else 0 := by
    intro a b hb
    unfold ColumnMatrix.entry
    rw [(hcol b hb).2, SpVec.get_single]
  apply ColumnMatrix.ext_entry ?_ ?_ ?_ ?_ ?_
  · exact ColumnMatrix.wf_mul _ _
  · exact ColumnMatrix.wf_identity _
  · exact hsq
  · exact show P.nrow = P.ncol from hsq
  intro r c
  rw [ColumnMatrix.entry_mul, ColumnMatrix.entry_identity,
    show P.T.ncol = P.nrow from rfl]
  by_cases hrc : r < P.nrow ∧ c < P.nrow
  · rw [if_pos hrc]
    have hterm : ∀ k, k < P.ncol → P.entry r k * P.T.entry k c =
        (if σ k = r then 1 else 0) * (if σ k = c then 1 else 0) := by
      intro k hk
      rw [hent r k hk, ColumnMatrix.entry_T,
        if_pos (show k < P.ncol ∧ c < P.nrow from ⟨hk, hrc.2⟩), hent c k hk]
    by_cases heq : r = c
    · subst heq
      have hrn : r < P.ncol := by omega
      obtain ⟨k0, hk0, hσ0⟩ := hsurj r hrn
      rw [if_pos ⟨rfl, hrn⟩]
      rw [Finset.sum_eq_single k0 ?_ ?_]
      · rw [hterm k0 hk0, if_pos hσ0, one_mul]
      · intro k hkm hkne
        rw [hterm k (Finset.mem_range.mp hkm)]
        rw [if_neg ?_, zero_mul]
        intro hσ
        exact hkne (hinj k k0 (Finset.mem_range.mp hkm) hk0 (hσ.trans hσ0.symm))
      · intro hcm
        exact absurd (Finset.mem_range.mpr hk0) hcm
    · rw [if_neg (fun hh => heq hh.1)]
      apply Finset.sum_eq_zero
      intro k hkm
      rw [hterm k (Finset.mem_range.mp hkm)]
      by_cases h1 : σ k = r
      · rw [if_neg (fun h2 => heq (h1.symm.trans h2)), mul_zero]
      · rw [if_neg h1, zero_mul]
  · rw [if_neg hrc, if_neg ?_]
    intro hh
    exact hrc ⟨by omega, by omega⟩

/-- Columns of `js` whose first entry at row `≥ i0` sits at row `r`. -/
def pivotFilter (A : ColumnMatrix α) (i0 r : Nat) (js : List Nat) : List Nat :=
  js.filter (fun j => ((A.col j).lowerBound i0).map Prod.fst == some r)

theorem mem_pivotFilter (A : ColumnMatrix α) (i0 r : Nat) (js : List Nat) (jj : Nat) :
    jj ∈ pivotFilter A i0 r js ↔
      jj ∈ js ∧ ∃ v, (A.col jj).lowerBound i0 = some (r, v) := by
  unfold pivotFilter
  rw [List.mem_filter]
  constructor
  · rintro ⟨h1, h2⟩
    refine ⟨h1, ?_⟩
    cases hlb : (A.col jj).lowerBound i0 with
    | none => rw [hlb] at h2; cases h2
    | some p =>
      rw [hlb] at h2
      have h2' : p.1 = r := by simpa using h2
      refine ⟨p.2, ?_⟩
      rcases p with ⟨p1, pv⟩
      rw [← h2']
  · rintro ⟨h1, v, h2⟩
    refine ⟨h1, ?_⟩
    rw [h2]
    simp

theorem pivotFilter_nodup (A : ColumnMatrix α) (i0 r : Nat) (js : List Nat)
    (h : js.Nodup) : (pivotFilter A i0 r js).Nodup := h.filter _

theorem update_pivot_foldl (A : ColumnMatrix α) (i0 : Nat) (js : List Nat) (p0 : PivMap)
    (r : Nat) :
    (js.foldl (fun p2c j => update_pivot A p2c j i0) p0) r =
      if pivotFilter A i0 r js = [] then p0 r
      else some ((p0 r).getD [] ++ pivotFilter A i0 r js) := by
  induction js generalizing p0 with
  | nil => simp [pivotFilter]
  | cons j rest ih =>
    rw [List.foldl_cons, ih]
    cases hlb : (A.col j).lowerBound i0 with
    | none =>
      rw [update_pivot_eq_none A p0 j i0 hlb]
      have hfil : pivotFilter A i0 r (j :: rest) = pivotFilter A i0 r rest := by
        unfold pivotFilter
        rw [List.filter_cons_of_neg]
        simp [hlb]
      rw [hfil]
    | some piv =>
      have hval : (update_pivot A p0 j i0) r
          = if r = piv.1 then some ((p0 piv.1).getD [] ++ [j]) else p0 r := by
        rw [update_pivot_eq_some A p0 j i0 piv hlb]
      by_cases hr : piv.1 = r
      · have hfil : pivotFilter A i0 r (j :: rest) = j :: pivotFilter A i0 r rest := by
          unfold pivotFilter
          rw [List.filter_cons_of_pos]
          simp [hlb, hr]
        have hval2 : (update_pivot A p0 j i0) r = some ((p0 r).getD [] ++ [j]) := by
          rw [hval, if_pos hr.symm, hr]
        rw [hfil, hval2]
        by_cases hrest : pivotFilter A i0 r rest = []
        · rw [if_pos hrest, if_neg (by simp), hrest]
        · rw [if_neg hrest, if_neg (by simp)]
          simp only [Option.getD_some, Option.some.injEq]
          rw [List.append_assoc]
          rfl
      · have hfil : pivotFilter A i0 r (j :: rest) = pivotFilter A i0 r rest := by
          unfold pivotFilter
          rw [List.filter_cons_of_neg]
          simp [hlb, hr]
        have hval2 : (update_pivot A p0 j i0) r = p0 r := by
          rw [hval, if_neg (fun hh => hr hh.symm)]
        rw [hfil, hval2]

theorem get_pivots_spec (A : ColumnMatrix α) (r : Nat) :
    get_pivots A r =
      if pivotFilter A 0 r (List.range A.ncol) = [] then none
      else some (pivotFilter A 0 r (List.range A.ncol)) := by
  unfold get_pivots
  rw [update_pivot_foldl]
  by_cases h : pivotFilter A 0 r (List.range A.ncol) = []
  · rw [if_pos h, if_pos h]
  · rw [if_neg h, if_neg h]
    rfl

theorem sum_identity_left (m : Nat) (f : Nat → α) (r : Nat) (hr : r < m) :
    ∑ k ∈ Finset.range m, (ColumnMatrix.identity m (α := α)).entry r k * f k = f r := by
  have hz : ∀ k ∈ Finset.range m, k ≠ r →
      (ColumnMatrix.identity m (α := α)).entry r k * f k = 0 := by
    intro k _ hk
    rw [ColumnMatrix.entry_identity, if_neg (fun hh : r = k ∧ k < m => hk hh.1.symm), zero_mul]
  rw [Finset.sum_eq_single r hz (fun hcm => absurd (Finset.mem_range.mpr hr) hcm)]
  rw [ColumnMatrix.entry_identity, if_pos ⟨rfl, hr⟩, one_mul]

theorem sum_identity_right (n : Nat) (f : Nat → α) (c : Nat) (hc : c < n) :
    ∑ k ∈ Finset.range n, f k * (ColumnMatrix.identity n (α := α)).entry k c = f c := by
  have hz : ∀ k ∈ Finset.range n, k ≠ c →
      f k * (ColumnMatrix.identity n (α := α)).entry k c = 0 := by
    intro k _ hk
    rw [ColumnMatrix.entry_identity, if_neg (fun hh : k = c ∧ c < n => hk hh.1), mul_zero]
  rw [Finset.sum_eq_single c hz (fun hcm => absurd (Finset.mem_range.mpr hc) hcm)]
  rw [ColumnMatrix.entry_identity, if_pos ⟨rfl, hc⟩, mul_one]

/-- Invariant of the main loop of `LEUP_inplace` on input `A` (`m` rows,
`n` columns), tying the bundle, the pivot map and the recorded history to
the original matrix. -/
structure LeupInv (A : ColumnMatrix α) (m n : Nat) (s : LoopSt α) : Prop where
  hLr : s.F.L.nrow = m
  hLc : s.F.L.ncol = m
  hEr : s.F.E.nrow = m
  hEc : s.F.E.ncol = n
  hUr : s.F.U.nrow = n
  hUc : s.F.U.ncol = n
  hPr : s.F.P.nrow = n
  hPc : s.F.P.ncol = n
  hLw : s.F.L.wf
  hEw : s.F.E.wf
  hUw : s.F.U.wf
  hPw : s.F.P.wf
  hPperm : s.F.P.PermMat
  hij : s.j ≤ s.i
  him : s.i ≤ m
  hjn : s.j ≤ n
  hplen : s.pivs.length = s.j
  hclen : s.coeff.length = s.j
  hpiv_lt : ∀ c, c < s.j → s.pivs.getD c 0 < s.i
  hpiv_mono : ∀ c1 c2, c1 < c2 → c2 < s.j → s.pivs.getD c1 0 < s.pivs.getD c2 0
  hEproc : ∀ c, c < s.j → ∃ a, a ≠ 0 ∧ s.F.E.col c = [(s.pivs.getD c 0, a)] ∧
    s.coeff.getD c 1 = a⁻¹
  hEsub : ∀ c, s.j ≤ c → ∀ r, r < s.i → (s.F.E.col c).get r ≠ 0 →
    ∃ k, k < s.j ∧ s.pivs.getD k 0 = r
  hLfix : ∀ c, s.i ≤ c → s.F.L.col c = if c < m then [(c, 1)] else []
  hLlow : ∀ c, c < m → (s.F.L.col c).get c = 1 ∧ ∀ r, r < c → (s.F.L.col c).get r = 0
  hUid : ∀ c, s.j ≤ c → s.F.U.col c = if c < n then [(c, 1)] else []
  hUup : ∀ c, c < n → (s.F.U.col c).get c = 1 ∧
    ∀ r, r ≠ c → (s.F.U.col c).get r ≠ 0 → r < c
  hP1 : ∀ r, s.i ≤ r → ∀ jj, jj ∈ (s.p2c r).getD [] →
    s.j ≤ jj ∧ jj < n ∧ ∃ v, (s.F.E.col jj).lowerBound s.i = some (r, v)
  hP2 : ∀ jj, s.j ≤ jj → jj < n → ∀ p, (s.F.E.col jj).lowerBound s.i = some p →
    jj ∈ (s.p2c p.1).getD []
  hP3 : ∀ r, s.i ≤ r → ((s.p2c r).getD []).Nodup
  hP4 : ∀ r, s.i ≤ r → s.p2c r ≠ some []
  hM : ∀ r c, r < m → c < n →
    ∑ l ∈ Finset.range n, (∑ k ∈ Finset.range m,
        s.F.L.entry r k * s.F.E.entry k l) * s.F.U.entry l c
      = ∑ k ∈ Finset.range n, A.entry r k * s.F.P.entry k c

theorem LeupInv_init (A : ColumnMatrix α) (hA : A.wf) :
    LeupInv A A.nrow A.ncol
      ⟨⟨ColumnMatrix.identity A.nrow, A, ColumnMatrix.identity A.ncol,
          ColumnMatrix.identity A.ncol⟩, get_pivots A, [], [], 0, 0⟩ := by
  refine ⟨rfl, rfl, rfl, rfl, rfl, rfl, rfl, rfl,
    ColumnMatrix.wf_identity _, hA, ColumnMatrix.wf_identity _, ColumnMatrix.wf_identity _,
    ColumnMatrix.PermMat_identity _,
    le_refl 0, Nat.zero_le _, Nat.zero_le _, rfl, rfl,
    fun c hc => absurd hc (Nat.not_lt_zero c),
    fun c1 c2 _ h2 => absurd h2 (Nat.not_lt_zero c2),
    fun c hc => absurd hc (Nat.not_lt_zero c),
    fun c _ r hr => absurd hr (Nat.not_lt_zero r),
    ?_, ?_, ?_, ?_, ?_, ?_, ?_, ?_, ?_⟩
  · intro c _
    exact ColumnMatrix.col_identity A.nrow c
  · intro c hc
    rw [ColumnMatrix.col_identity, if_pos hc, SpVec.get_single, if_pos rfl]
    refine ⟨rfl, ?_⟩
    intro r hr
    rw [SpVec.get_single, if_neg (by omega)]
  · intro c _
    exact ColumnMatrix.col_identity A.ncol c
  · intro c hc
    rw [ColumnMatrix.col_identity, if_pos hc, SpVec.get_single, if_pos rfl]
    refine ⟨rfl, ?_⟩
    intro r hrc hr
    rw [SpVec.get_single] at hr
    by_cases h : c = r
    · exact absurd h.symm hrc
    · rw [if_neg h] at hr
      exact absurd rfl hr
  · intro r _ jj hm0
    have hm : jj ∈ (get_pivots A r).getD [] := hm0
    show 0 ≤ jj ∧ jj < A.ncol ∧ ∃ v, (A.col jj).lowerBound 0 = some (r, v)
    rw [get_pivots_spec] at hm
    by_cases h : pivotFilter A 0 r (List.range A.ncol) = []
    · rw [if_pos h] at hm
      cases hm
    · rw [if_neg h] at hm
      rcases (mem_pivotFilter A 0 r (List.range A.ncol) jj).mp hm with ⟨h1, h2⟩
      exact ⟨Nat.zero_le _, List.mem_range.mp h1, h2⟩
  · intro jj _ hjn p hlb
    show jj ∈ (get_pivots A p.1).getD []
    rw [get_pivots_spec]
    have hmem : jj ∈ pivotFilter A 0 p.1 (List.range A.ncol) :=
      (mem_pivotFilter A 0 p.1 (List.range A.ncol) jj).mpr
        ⟨List.mem_range.mpr hjn, p.2, by rw [hlb]⟩
    rw [if_neg (fun hh => by rw [hh] at hmem; cases hmem)]
    exact hmem
  · intro r _
    show ((get_pivots A r).getD []).Nodup
    rw [get_pivots_spec]
    by_cases h : pivotFilter A 0 r (List.range A.ncol) = []
    · rw [if_pos h]
      exact List.nodup_nil
    · rw [if_neg h]
      exact pivotFilter_nodup A 0 r _ (List.nodup_range _)
  · intro r _
    show get_pivots A r ≠ some []
    rw [get_pivots_spec]
    by_cases h : pivotFilter A 0 r (List.range A.ncol) = []
    · rw [if_pos h]
      intro hh
      cases hh
    · rw [if_neg h]
      intro hh
      injection hh with hh
      exact h hh
  · intro r c hr hc
    show ∑ l ∈ Finset.range A.ncol, (∑ k ∈ Finset.range A.nrow,
        (ColumnMatrix.identity A.nrow).entry r k * A.entry k l)
          * (ColumnMatrix.identity A.ncol).entry l c
      = ∑ k ∈ Finset.range A.ncol,
          A.entry r k * (ColumnMatrix.identity A.ncol).entry k c
    rw [sum_identity_right A.ncol _ c hc, sum_identity_right A.ncol _ c hc]
    exact sum_identity_left A.nrow _ r hr

theorem schur_fold_spec (m i j : Nat) (a11 : α) :
    ∀ (tl : List Nat) (E : ColumnMatrix α) (p2c : PivMap),
      tl.Nodup → (∀ jj ∈ tl, jj ≠ j) → (∀ jj ∈ tl, jj < E.cols.length) →
      ((tl.foldl (schur_update m i j a11) (E, p2c)).1.nrow = E.nrow ∧
        (tl.foldl (schur_update m i j a11) (E, p2c)).1.ncol = E.ncol ∧
        (tl.foldl (schur_update m i j a11) (E, p2c)).1.cols.length = E.cols.length) ∧
      (∀ c, c ∉ tl → (tl.foldl (schur_update m i j a11) (E, p2c)).1.col c = E.col c) ∧
      (∀ jj ∈ tl, (tl.foldl (schur_update m i j a11) (E, p2c)).1.col jj
        = (E.col jj).axpy (-(E.entry i jj / a11)) (E.col j) (i + 1) m) ∧
      (∀ r, (tl.foldl (schur_update m i j a11) (E, p2c)).2 r =
        if p2c r = none ∧
            pivotFilter (tl.foldl (schur_update m i j a11) (E, p2c)).1 (i + 1) r tl = []
        then none
        else some ((p2c r).getD [] ++
          pivotFilter (tl.foldl (schur_update m i j a11) (E, p2c)).1 (i + 1) r tl)) := by
  intro tl
  induction tl with
  | nil =>
    intro E p2c _ _ _
    refine ⟨⟨rfl, rfl, rfl⟩, fun c _ => rfl, fun jj hjj => absurd hjj (List.not_mem_nil _), ?_⟩
    intro r
    cases hpr : p2c r with
    | none => simp [pivotFilter, hpr]
    | some b => simp [pivotFilter, hpr]
  | cons jj rest ih =>
    intro E p2c hnd hne hlt
    have hjlen : jj < E.cols.length := hlt jj (List.mem_cons_self _ _)
    have hjne : jj ≠ j := hne jj (List.mem_cons_self _ _)
    have hjrest : jj ∉ rest := (List.nodup_cons.mp hnd).1
    have hndr : rest.Nodup := (List.nodup_cons.mp hnd).2
    have hpair : schur_update m i j a11 (E, p2c) jj =
        (E.setCol jj ((E.col jj).axpy (-(E.entry i jj / a11)) (E.col j) (i + 1) m),
          update_pivot
            (E.setCol jj ((E.col jj).axpy (-(E.entry i jj / a11)) (E.col j) (i + 1) m))
            p2c jj (i + 1)) := rfl
    rw [List.foldl_cons, hpair]
    have hE1len : (E.setCol jj ((E.col jj).axpy (-(E.entry i jj / a11)) (E.col j)
        (i + 1) m)).cols.length = E.cols.length := ColumnMatrix.length_cols_setCol _ _ _
    have hcol1 : ∀ c, c ≠ jj →
        (E.setCol jj ((E.col jj).axpy (-(E.entry i jj / a11)) (E.col j) (i + 1) m)).col c
          = E.col c := by
      intro c hc
      rw [ColumnMatrix.col_setCol, if_neg (fun hh => hc hh.1)]
    have hcolj : (E.setCol jj ((E.col jj).axpy (-(E.entry i jj / a11)) (E.col j)
        (i + 1) m)).col jj
          = (E.col jj).axpy (-(E.entry i jj / a11)) (E.col j) (i + 1) m := by
      rw [ColumnMatrix.col_setCol, if_pos ⟨rfl, hjlen⟩]
    obtain ⟨⟨hd1, hd2, hd3⟩, huntou, hmem, hbuck⟩ :=
      ih (E.setCol jj ((E.col jj).axpy (-(E.entry i jj / a11)) (E.col j) (i + 1) m))
        (update_pivot
          (E.setCol jj ((E.col jj).axpy (-(E.entry i jj / a11)) (E.col j) (i + 1) m))
          p2c jj (i + 1))
        hndr (fun x hx => hne x (List.mem_cons_of_mem _ hx))
        (fun x hx => by rw [hE1len]; exact hlt x (List.mem_cons_of_mem _ hx))
    have hfinj : (rest.foldl (schur_update m i j a11)
        (E.setCol jj ((E.col jj).axpy (-(E.entry i jj / a11)) (E.col j) (i + 1) m),
          update_pivot
            (E.setCol jj ((E.col jj).axpy (-(E.entry i jj / a11)) (E.col j) (i + 1) m))
            p2c jj (i + 1))).1.col jj
          = (E.col jj).axpy (-(E.entry i jj / a11)) (E.col j) (i + 1) m := by
      rw [huntou jj hjrest, hcolj]
    refine ⟨⟨hd1.trans rfl, hd2.trans rfl, hd3.trans hE1len⟩, ?_, ?_, ?_⟩
    · intro c hc
      have hc1 : c ≠ jj := fun hh => hc (hh ▸ List.mem_cons_self _ _)
      have hc2 : c ∉ rest := fun hh => hc (List.mem_cons_of_mem _ hh)
      rw [huntou c hc2, hcol1 c hc1]
    · intro x hx
      rcases List.mem_cons.mp hx with hh | hh
      · subst hh
        exact hfinj
      · rw [hmem x hh, hcol1 x (fun he => hjrest (he ▸ hh)), hcol1 j (fun he => hjne he.symm)]
        have hent : (E.setCol jj ((E.col jj).axpy (-(E.entry i jj / a11)) (E.col j)
            (i + 1) m)).entry i x = E.entry i x := by
          show ((E.setCol jj ((E.col jj).axpy (-(E.entry i jj / a11)) (E.col j)
            (i + 1) m)).col x).get i = (E.col x).get i
          rw [hcol1 x (fun he => hjrest (he ▸ hh))]
        rw [hent]
    · intro r
      rw [hbuck r]
      cases hlb : ((E.col jj).axpy (-(E.entry i jj / a11)) (E.col j) (i + 1) m).lowerBound
          (i + 1) with
      | none =>
        have hupd : update_pivot
            (E.setCol jj ((E.col jj).axpy (-(E.entry i jj / a11)) (E.col j) (i + 1) m))
            p2c jj (i + 1) = p2c :=
          update_pivot_eq_none _ _ _ _ (by rw [hcolj]; exact hlb)
        have hpred : pivotFilter (rest.foldl (schur_update m i j a11)
            (E.setCol jj ((E.col jj).axpy (-(E.entry i jj / a11)) (E.col j) (i + 1) m),
              update_pivot
                (E.setCol jj ((E.col jj).axpy (-(E.entry i jj / a11)) (E.col j) (i + 1) m))
                p2c jj (i + 1))).1 (i + 1) r (jj :: rest)
            = pivotFilter (rest.foldl (schur_update m i j a11)
                (E.setCol jj ((E.col jj).axpy (-(E.entry i jj / a11)) (E.col j) (i + 1) m),
                  update_pivot
                    (E.setCol jj ((E.col jj).axpy (-(E.entry i jj / a11)) (E.col j)
                      (i + 1) m))
                    p2c jj (i + 1))).1 (i + 1) r rest := by
          unfold pivotFilter
          rw [List.filter_cons_of_neg]
          simp [hfinj, hlb]
        rw [hpred, hupd]
      | some piv =>
        have hupd : update_pivot
            (E.setCol jj ((E.col jj).axpy (-(E.entry i jj / a11)) (E.col j) (i + 1) m))
            p2c jj (i + 1)
            = fun r => if r = piv.1 then some ((p2c piv.1).getD [] ++ [jj]) else p2c r :=
          update_pivot_eq_some _ _ _ _ _ (by rw [hcolj]; exact hlb)
        by_cases hr : piv.1 = r
        · have hpred : pivotFilter (rest.foldl (schur_update m i j a11)
              (E.setCol jj ((E.col jj).axpy (-(E.entry i jj / a11)) (E.col j) (i + 1) m),
                update_pivot
                  (E.setCol jj ((E.col jj).axpy (-(E.entry i jj / a11)) (E.col j) (i + 1) m))
                  p2c jj (i + 1))).1 (i + 1) r (jj :: rest)
              = jj :: pivotFilter (rest.foldl (schur_update m i j a11)
                  (E.setCol jj ((E.col jj).axpy (-(E.entry i jj / a11)) (E.col j) (i + 1) m),
                    update_pivot
                      (E.setCol jj ((E.col jj).axpy (-(E.entry i jj / a11)) (E.col j)
                        (i + 1) m))
                      p2c jj (i + 1))).1 (i + 1) r rest := by
            unfold pivotFilter
            rw [List.filter_cons_of_pos]
            simp [hfinj, hlb, hr]
          have hpr : (update_pivot
              (E.setCol jj ((E.col jj).axpy (-(E.entry i jj / a11)) (E.col j) (i + 1) m))
              p2c jj (i + 1)) r = some ((p2c r).getD [] ++ [jj]) := by
            rw [hupd]
            show (if r = piv.1 then some ((p2c piv.1).getD [] ++ [jj]) else p2c r)
              = some ((p2c r).getD [] ++ [jj])
            rw [if_pos hr.symm, hr]
          rw [hpred, hpr]
          have hC1 : ¬(some ((p2c r).getD [] ++ [jj]) = none ∧
              pivotFilter (rest.foldl (schur_update m i j a11)
                (E.setCol jj ((E.col jj).axpy (-(E.entry i jj / a11)) (E.col j) (i + 1) m),
                  update_pivot
                    (E.setCol jj ((E.col jj).axpy (-(E.entry i jj / a11)) (E.col j)
                      (i + 1) m))
                    p2c jj (i + 1))).1 (i + 1) r rest = []) :=
            fun hh => Option.noConfusion hh.1
          have hC2 : ¬(p2c r = none ∧
              jj :: pivotFilter (rest.foldl (schur_update m i j a11)
                (E.setCol jj ((E.col jj).axpy (-(E.entry i jj / a11)) (E.col j) (i + 1) m),
                  update_pivot
                    (E.setCol jj ((E.col jj).axpy (-(E.entry i jj / a11)) (E.col j)
                      (i + 1) m))
                    p2c jj (i + 1))).1 (i + 1) r rest = []) :=
            fun hh => List.noConfusion hh.2
          rw [if_neg hC1, if_neg hC2]
          simp only [Option.getD_some, Option.some.injEq]
          rw [List.append_assoc]
          rfl
        · have hpred : pivotFilter (rest.foldl (schur_update m i j a11)
              (E.setCol jj ((E.col jj).axpy (-(E.entry i jj / a11)) (E.col j) (i + 1) m),
                update_pivot
                  (E.setCol jj ((E.col jj).axpy (-(E.entry i jj / a11)) (E.col j) (i + 1) m))
                  p2c jj (i + 1))).1 (i + 1) r (jj :: rest)
              = pivotFilter (rest.foldl (schur_update m i j a11)
                  (E.setCol jj ((E.col jj).axpy (-(E.entry i jj / a11)) (E.col j) (i + 1) m),
                    update_pivot
                      (E.setCol jj ((E.col jj).axpy (-(E.entry i jj / a11)) (E.col j)
                        (i + 1) m))
                      p2c jj (i + 1))).1 (i + 1) r rest := by
            unfold pivotFilter
            rw [List.filter_cons_of_neg]
            simp [hfinj, hlb, hr]
          have hpr : (update_pivot
              (E.setCol jj ((E.col jj).axpy (-(E.entry i jj / a11)) (E.col j) (i + 1) m))
              p2c jj (i + 1)) r = p2c r := by
            rw [hupd]
            show (if r = piv.1 then some ((p2c piv.1).getD [] ++ [jj]) else p2c r) = p2c r
            rw [if_neg (fun hh => hr hh.symm)]
          rw [hpred, hpr]

theorem sum_mul_single (m p : Nat) (g : Nat → α) (a : α) (hp : p < m) :
    ∑ k ∈ Finset.range m, g k * (if p = k then a else 0) = g p * a := by
  have hz : ∀ k ∈ Finset.range m, k ≠ p → g k * (if p = k then a else 0) = 0 := by
    intro k _ hk
    rw [if_neg (fun hh => hk hh.symm), mul_zero]
  rw [Finset.sum_eq_single p hz (fun hcm => absurd (Finset.mem_range.mpr hp) hcm), if_pos rfl]

theorem sum_eq_sum_add_diff_single (m i : Nat) (f g : Nat → α) (hi : i < m)
    (h : ∀ k, k ≠ i → f k = g k) :
    ∑ k ∈ Finset.range m, f k = (∑ k ∈ Finset.range m, g k) + (f i - g i) := by
  have hsub : ∑ k ∈ Finset.range m, (f k - g k) = f i - g i := by
    have hz : ∀ k ∈ Finset.range m, k ≠ i → f k - g k = 0 := by
      intro k _ hk
      rw [h k hk, sub_self]
    rw [Finset.sum_eq_single i hz (fun hcm => absurd (Finset.mem_range.mpr hi) hcm)]
  rw [Finset.sum_sub_distrib] at hsub
  have := sub_eq_iff_eq_add.mp hsub
  rw [this]
  ring

theorem sum_range_if_lt (f : Nat → α) (j n : Nat) (h : j ≤ n) :
    ∑ l ∈ Finset.range n, (if l < j then f l else 0) = ∑ l ∈ Finset.range j, f l := by
  rw [sum_range_drop _ h (fun k hk _ => if_neg (by omega))]
  exact Finset.sum_congr rfl (fun l hl => if_pos (Finset.mem_range.mp hl))

theorem sum_piv_image (i j : Nat) (pivs : List Nat) (f : Nat → α)
    (hlt : ∀ c, c < j → pivs.getD c 0 < i)
    (hmono : ∀ c1 c2, c1 < c2 → c2 < j → pivs.getD c1 0 < pivs.getD c2 0)
    (hsupp : ∀ k, k < i → f k ≠ 0 → ∃ l, l < j ∧ pivs.getD l 0 = k) :
    ∑ k ∈ Finset.range i, f k = ∑ l ∈ Finset.range j, f (pivs.getD l 0) := by
  have hinj : Set.InjOn (fun l => pivs.getD l 0) (Finset.range j) := by
    intro c1 h1 c2 h2 he
    have h1' : c1 < j := Finset.mem_range.mp (Finset.mem_coe.mp h1)
    have h2' : c2 < j := Finset.mem_range.mp (Finset.mem_coe.mp h2)
    by_contra hne
    rcases Nat.lt_or_ge c1 c2 with hlt12 | hge
    · have := hmono c1 c2 hlt12 h2'
      simp only at he
      omega
    · have hlt21 : c2 < c1 := by omega
      have := hmono c2 c1 hlt21 h1'
      simp only at he
      omega
  have hsub : (Finset.range j).image (fun l => pivs.getD l 0) ⊆ Finset.range i := by
    intro x hx
    rcases Finset.mem_image.mp hx with ⟨l, hl, rfl⟩
    exact Finset.mem_range.mpr (hlt l (Finset.mem_range.mp hl))
  have h1 : ∑ k ∈ Finset.range i, f k
      = ∑ k ∈ (Finset.range j).image (fun l => pivs.getD l 0), f k := by
    symm
    apply Finset.sum_subset hsub
    intro x hx hx2
    by_contra hfz
    rcases hsupp x (Finset.mem_range.mp hx) hfz with ⟨l, hl, he⟩
    exact hx2 (Finset.mem_image.mpr ⟨l, Finset.mem_range.mpr hl, he⟩)
  rw [h1, Finset.sum_image hinj]

/-- Product preservation across one elimination step, stated over the
entry-level characterizations of the updated factors. -/
theorem elim_phase_prod (A L E U P Lp Ep Up : ColumnMatrix α) (tl : List Nat)
    (pivs : List Nat) (coeff : List α) (m n i j r c : Nat)
    (hr : r < m) (hc : c < n) (him : i < m) (hjn : j < n)
    (ha11 : E.entry i j ≠ 0)
    (hLpne : ∀ k, k ≠ i → Lp.entry r k = L.entry r k)
    (hLpi : Lp.entry r i = (if i = r then 1 else 0) +
      (if i + 1 ≤ r ∧ r < m then (E.entry i j)⁻¹ * E.entry r j else 0))
    (hEpj : ∀ k, Ep.entry k j = if i = k then E.entry i j else 0)
    (hEpin : ∀ l, l ∈ tl → ∀ k, Ep.entry k l = E.entry k l +
      (if i + 1 ≤ k ∧ k < m then -(E.entry i l / E.entry i j) * E.entry k j else 0))
    (hEpout : ∀ l, l ≠ j → l ∉ tl → ∀ k, Ep.entry k l = E.entry k l)
    (hUpj : ∀ l, Up.entry l j = (if j = l then 1 else 0) +
      (if l < j then coeff.getD l 0 * E.entry (pivs.getD l 0) j else 0))
    (hUpne : ∀ l c', c' ≠ j → Up.entry l c' = U.entry l c')
    (htl : ∀ l ∈ tl, j < l ∧ l < n)
    (hQ3 : ∀ l, j < l → l < n → l ∉ tl → E.entry i l = 0)
    (hLid : ∀ k, i ≤ k → k < m → L.entry r k = if k = r then 1 else 0)
    (hEprocE : ∀ l, l < j → ∃ a, a ≠ 0 ∧
      (∀ k, E.entry k l = if pivs.getD l 0 = k then a else 0) ∧ coeff.getD l 0 = a⁻¹)
    (hpiv_lt : ∀ l, l < j → pivs.getD l 0 < i)
    (hpiv_mono : ∀ c1 c2, c1 < c2 → c2 < j → pivs.getD c1 0 < pivs.getD c2 0)
    (hEsubj : ∀ k, k < i → E.entry k j ≠ 0 → ∃ l, l < j ∧ pivs.getD l 0 = k)
    (hUj : ∀ l, U.entry l j = if j = l then 1 else 0)
    (hUrow : ∀ c', c' < n → c' ≠ j → U.entry j c' = 0)
    (hM0 : ∑ l ∈ Finset.range n, (∑ k ∈ Finset.range m,
        L.entry r k * E.entry k l) * U.entry l c
      = ∑ k ∈ Finset.range n, A.entry r k * P.entry k c) :
    ∑ l ∈ Finset.range n, (∑ k ∈ Finset.range m,
        Lp.entry r k * Ep.entry k l) * Up.entry l c
      = ∑ k ∈ Finset.range n, A.entry r k * P.entry k c := by
  have hGne : ∀ l, l < n → l ≠ j →
      (∑ k ∈ Finset.range m, Lp.entry r k * Ep.entry k l)
        = ∑ k ∈ Finset.range m, L.entry r k * E.entry k l := by
    intro l hln hlj
    by_cases hlt : l < j
    · obtain ⟨a, ha, hcol, _⟩ := hEprocE l hlt
      have hpl := hpiv_lt l hlt
      have hplm : pivs.getD l 0 < m := by omega
      have hltl : l ∉ tl := fun hh => by
        have := (htl l hh).1
        omega
      have hEn : ∀ k, Ep.entry k l = if pivs.getD l 0 = k then a else 0 := by
        intro k
        rw [hEpout l hlj hltl k, hcol k]
      rw [Finset.sum_congr rfl (fun k _ => by rw [hEn k]),
        sum_mul_single m _ (fun k => Lp.entry r k) a hplm,
        Finset.sum_congr rfl (fun k _ => by rw [hcol k]),
        sum_mul_single m _ (fun k => L.entry r k) a hplm]
      show Lp.entry r (pivs.getD l 0) * a = L.entry r (pivs.getD l 0) * a
      rw [hLpne _ (by omega)]
    · have hgt : j < l := by omega
      by_cases hmemtl : l ∈ tl
      · have hEn := hEpin l hmemtl
        rw [Finset.sum_congr rfl (fun k _ => by rw [hEn k, mul_add]),
          Finset.sum_add_distrib]
        have h1 : ∑ k ∈ Finset.range m, Lp.entry r k * E.entry k l
            = (∑ k ∈ Finset.range m, L.entry r k * E.entry k l)
              + (Lp.entry r i * E.entry i l - L.entry r i * E.entry i l) :=
          sum_eq_sum_add_diff_single m i _ _ him
            (fun k hk => by rw [hLpne k hk])
        have h2 : ∑ k ∈ Finset.range m, Lp.entry r k *
            (if i + 1 ≤ k ∧ k < m then -(E.entry i l / E.entry i j) * E.entry k j else 0)
            = (if i + 1 ≤ r then -(E.entry i l / E.entry i j) * E.entry r j else 0) := by
          by_cases hri : i + 1 ≤ r
          · rw [if_pos hri]
            have hz : ∀ k ∈ Finset.range m, k ≠ r → Lp.entry r k *
                (if i + 1 ≤ k ∧ k < m then
                  -(E.entry i l / E.entry i j) * E.entry k j else 0) = 0 := by
              intro k _ hkr
              by_cases hik : i + 1 ≤ k ∧ k < m
              · rw [hLpne k (by omega), hLid k (by omega) hik.2, if_neg hkr, zero_mul]
              · rw [if_neg hik, mul_zero]
            rw [Finset.sum_eq_single r hz
              (fun hrm => absurd (Finset.mem_range.mpr hr) hrm)]
            rw [hLpne r (by omega), hLid r (by omega) hr, if_pos rfl, one_mul,
              if_pos (show i + 1 ≤ r ∧ r < m from ⟨hri, hr⟩)]
          · rw [if_neg hri]
            apply Finset.sum_eq_zero
            intro k _
            by_cases hik : i + 1 ≤ k ∧ k < m
            · have hkr : k ≠ r := by omega
              rw [hLpne k (by omega), hLid k (by omega) hik.2, if_neg hkr, zero_mul]
            · rw [if_neg hik, mul_zero]
        rw [h1, h2, hLpi, hLid i (le_refl i) him]
        by_cases hri : i + 1 ≤ r
        · rw [if_pos (show i + 1 ≤ r ∧ r < m from ⟨hri, hr⟩), if_pos hri,
            div_eq_mul_inv]
          ring
        · rw [if_neg (fun hh : i + 1 ≤ r ∧ r < m => hri hh.1), if_neg hri]
          ring
      · have hEl0 : E.entry i l = 0 := hQ3 l hgt hln hmemtl
        have hEn : ∀ k, Ep.entry k l = E.entry k l := hEpout l hlj hmemtl
        rw [Finset.sum_congr rfl (fun k _ => by rw [hEn k]),
          sum_eq_sum_add_diff_single m i _ _ him (fun k hk => by rw [hLpne k hk])]
        rw [hEl0, mul_zero, mul_zero, sub_zero, add_zero]
  have hGj : (∑ k ∈ Finset.range m, Lp.entry r k * Ep.entry k j)
      = E.entry i j * (if i = r then 1 else 0)
        + (if i + 1 ≤ r then E.entry r j else 0) := by
    rw [Finset.sum_congr rfl (fun k _ => by rw [hEpj k]),
      sum_mul_single m i (fun k => Lp.entry r k) (E.entry i j) him]
    show Lp.entry r i * E.entry i j = _
    rw [hLpi]
    by_cases hri : i + 1 ≤ r
    · rw [if_pos (show i + 1 ≤ r ∧ r < m from ⟨hri, hr⟩), if_pos hri, add_mul,
        mul_comm ((E.entry i j)⁻¹) (E.entry r j), mul_assoc, inv_mul_cancel₀ ha11,
        mul_one, mul_comm ((if i = r then (1 : α) else 0)) (E.entry i j)]
    · rw [if_neg (fun hh : i + 1 ≤ r ∧ r < m => hri hh.1), if_neg hri, add_zero,
        add_zero, mul_comm]
  by_cases hcj : c = j
  · subst hcj
    rw [Finset.sum_congr rfl (fun l _ => by rw [hUpj l, mul_add]),
      Finset.sum_add_distrib]
    have hT1 : ∑ l ∈ Finset.range n,
        (∑ k ∈ Finset.range m, Lp.entry r k * Ep.entry k l) * (if c = l then 1 else 0)
        = ∑ k ∈ Finset.range m, Lp.entry r k * Ep.entry k c := by
      rw [sum_mul_single n c (fun l => ∑ k ∈ Finset.range m, Lp.entry r k * Ep.entry k l)
        1 hc, mul_one]
    have hT2 : ∑ l ∈ Finset.range n,
        (∑ k ∈ Finset.range m, Lp.entry r k * Ep.entry k l) *
          (if l < c then coeff.getD l 0 * E.entry (pivs.getD l 0) c else 0)
        = ∑ l ∈ Finset.range c, L.entry r (pivs.getD l 0) * E.entry (pivs.getD l 0) c := by
      have hstep : ∀ l, (∑ k ∈ Finset.range m, Lp.entry r k * Ep.entry k l) *
          (if l < c then coeff.getD l 0 * E.entry (pivs.getD l 0) c else 0)
          = if l < c then (∑ k ∈ Finset.range m, Lp.entry r k * Ep.entry k l) *
              (coeff.getD l 0 * E.entry (pivs.getD l 0) c) else 0 := by
        intro l
        by_cases hl : l < c
        · rw [if_pos hl, if_pos hl]
        · rw [if_neg hl, if_neg hl, mul_zero]
      rw [Finset.sum_congr rfl (fun l _ => hstep l), sum_range_if_lt _ c n (by omega)]
      apply Finset.sum_congr rfl
      intro l hl
      have hlc : l < c := Finset.mem_range.mp hl
      obtain ⟨a, ha, hcol, hcf⟩ := hEprocE l hlc
      have hpl := hpiv_lt l hlc
      have hplm : pivs.getD l 0 < m := by omega
      have hltl : l ∉ tl := fun hh => by
        have := (htl l hh).1
        omega
      have hEn : ∀ k, Ep.entry k l = if pivs.getD l 0 = k then a else 0 := by
        intro k
        rw [hEpout l (by omega) hltl k, hcol k]
      rw [Finset.sum_congr rfl (fun k _ => by rw [hEn k]),
        sum_mul_single m _ (fun k => Lp.entry r k) a hplm]
      show Lp.entry r (pivs.getD l 0) * a * (coeff.getD l 0 * E.entry (pivs.getD l 0) c)
        = L.entry r (pivs.getD l 0) * E.entry (pivs.getD l 0) c
      rw [hLpne _ (by omega), hcf, mul_assoc, ← mul_assoc a, mul_inv_cancel₀ ha, one_mul]
    rw [hT1, hT2, ← hM0]
    have hold : ∑ l ∈ Finset.range n,
        (∑ k ∈ Finset.range m, L.entry r k * E.entry k l) * U.entry l c
        = ∑ k ∈ Finset.range m, L.entry r k * E.entry k c := by
      rw [Finset.sum_congr rfl (fun l _ => by rw [hUj l]),
        sum_mul_single n c (fun l => ∑ k ∈ Finset.range m, L.entry r k * E.entry k l)
          1 hc, mul_one]
    rw [hold, hGj]
    have hsplit : ∑ k ∈ Finset.range m, L.entry r k * E.entry k c
        = ((∑ k ∈ Finset.range i, L.entry r k * E.entry k c)
          + L.entry r i * E.entry i c)
          + ∑ k ∈ Finset.Ico (i + 1) m, L.entry r k * E.entry k c := by
      rw [Finset.range_eq_Ico,
        ← Finset.sum_Ico_consecutive _ (Nat.zero_le (i + 1)) (show i + 1 ≤ m from him),
        ← Finset.range_eq_Ico, Finset.sum_range_succ]
    have hIco : ∑ k ∈ Finset.Ico (i + 1) m, L.entry r k * E.entry k c
        = (if i + 1 ≤ r then E.entry r c else 0) := by
      have hterm : ∀ k ∈ Finset.Ico (i + 1) m, L.entry r k * E.entry k c
          = if k = r then E.entry k c else 0 := by
        intro k hk
        have hk' := Finset.mem_Ico.mp hk
        rw [hLid k (by omega) hk'.2]
        by_cases hkr : k = r
        · rw [if_pos hkr, if_pos hkr, one_mul]
        · rw [if_neg hkr, if_neg hkr, zero_mul]
      rw [Finset.sum_congr rfl hterm,
        Finset.sum_ite_eq' (Finset.Ico (i + 1) m) r (fun k => E.entry k c)]
      by_cases hri : i + 1 ≤ r
      · rw [if_pos (Finset.mem_Ico.mpr ⟨hri, hr⟩), if_pos hri]
      · rw [if_neg (fun hh => hri (Finset.mem_Ico.mp hh).1), if_neg hri]
    have hlow : ∑ k ∈ Finset.range i, L.entry r k * E.entry k c
        = ∑ l ∈ Finset.range c, L.entry r (pivs.getD l 0) * E.entry (pivs.getD l 0) c := by
      apply sum_piv_image i c pivs (fun k => L.entry r k * E.entry k c) hpiv_lt hpiv_mono
      intro k hk hf
      apply hEsubj k hk
      intro hz
      rw [hz, mul_zero] at hf
      exact hf rfl
    have hi_term : L.entry r i * E.entry i c
        = E.entry i c * (if i = r then 1 else 0) := by
      rw [hLid i (le_refl i) him]
      exact mul_comm _ _
    rw [hsplit, hIco, hlow, hi_term]
    ring
  · rw [Finset.sum_congr rfl (fun l _ => by rw [hUpne l c hcj]), ← hM0]
    apply Finset.sum_congr rfl
    intro l hl
    by_cases hlj : l = j
    · subst hlj
      rw [hUrow c hc hcj, mul_zero, mul_zero]
    · rw [hGne l (Finset.mem_range.mp hl) hlj]

/-- Facts holding on entry to the elimination phase (after the column
swap) of one `LEUP_inplace` iteration. -/
structure ElimReady (A : ColumnMatrix α) (m n : Nat) (s : LoopSt α) : Prop where
  hLr : s.F.L.nrow = m
  hLc : s.F.L.ncol = m
  hEr : s.F.E.nrow = m
  hEc : s.F.E.ncol = n
  hUr : s.F.U.nrow = n
  hUc : s.F.U.ncol = n
  hPr : s.F.P.nrow = n
  hPc : s.F.P.ncol = n
  hLw : s.F.L.wf
  hEw : s.F.E.wf
  hUw : s.F.U.wf
  hPw : s.F.P.wf
  hPperm : s.F.P.PermMat
  hij : s.j ≤ s.i
  him : s.i < m
  hjn : s.j < n
  hplen : s.pivs.length = s.j
  hclen : s.coeff.length = s.j
  hpiv_lt : ∀ c, c < s.j → s.pivs.getD c 0 < s.i
  hpiv_mono : ∀ c1 c2, c1 < c2 → c2 < s.j → s.pivs.getD c1 0 < s.pivs.getD c2 0
  hEproc : ∀ c, c < s.j → ∃ a, a ≠ 0 ∧ s.F.E.col c = [(s.pivs.getD c 0, a)] ∧
    s.coeff.getD c 1 = a⁻¹
  hEsub : ∀ c, s.j ≤ c → ∀ r, r < s.i → (s.F.E.col c).get r ≠ 0 →
    ∃ k, k < s.j ∧ s.pivs.getD k 0 = r
  hLfix : ∀ c, s.i ≤ c → s.F.L.col c = if c < m then [(c, 1)] else []
  hLlow : ∀ c, c < m → (s.F.L.col c).get c = 1 ∧ ∀ r, r < c → (s.F.L.col c).get r = 0
  hUid : ∀ c, s.j ≤ c → s.F.U.col c = if c < n then [(c, 1)] else []
  hUup : ∀ c, c < n → (s.F.U.col c).get c = 1 ∧
    ∀ r, r ≠ c → (s.F.U.col c).get r ≠ 0 → r < c
  hM : ∀ r c, r < m → c < n →
    ∑ l ∈ Finset.range n, (∑ k ∈ Finset.range m,
        s.F.L.entry r k * s.F.E.entry k l) * s.F.U.entry l c
      = ∑ k ∈ Finset.range n, A.entry r k * s.F.P.entry k c
  hcolj : ∃ v, (s.F.E.col s.j).lowerBound s.i = some (s.i, v)
  htl : ∀ jj ∈ ((s.p2c s.i).getD []).tail, s.j < jj ∧ jj < n ∧
    ∃ v, (s.F.E.col jj).lowerBound s.i = some (s.i, v)
  htlnd : ((s.p2c s.i).getD []).tail.Nodup
  hQ3 : ∀ c, s.j < c → c < n → (s.F.E.col c).get s.i ≠ 0 →
    c ∈ ((s.p2c s.i).getD []).tail
  hQ1 : ∀ r, s.i < r → ∀ jj, jj ∈ (s.p2c r).getD [] →
    s.j ≤ jj ∧ jj < n ∧ ∃ v, (s.F.E.col jj).lowerBound s.i = some (r, v)
  hQ2 : ∀ jj, s.j ≤ jj → jj < n → jj ≠ s.j → ∀ p,
    (s.F.E.col jj).lowerBound s.i = some p → s.i < p.1 → jj ∈ (s.p2c p.1).getD []
  hQnd : ∀ r, s.i < r → ((s.p2c r).getD []).Nodup
  hQ4 : ∀ r, s.i < r → s.p2c r ≠ some []

theorem elim_phase_inv (A : ColumnMatrix α) (m n : Nat) (s : LoopSt α)
    (h : ElimReady A m n s) : LeupInv A m n (elim_phase m s) := by
  obtain ⟨⟨L, E, U, P⟩, p2c, pivs, coeff, i, j⟩ := s
  have hLr0 : L.nrow = m := h.hLr
  have hLc0 : L.ncol = m := h.hLc
  have hEr0 : E.nrow = m := h.hEr
  have hEc0 : E.ncol = n := h.hEc
  have hUr0 : U.nrow = n := h.hUr
  have hUc0 : U.ncol = n := h.hUc
  have hPr0 : P.nrow = n := h.hPr
  have hPc0 : P.ncol = n := h.hPc
  have hLw0 : L.wf := h.hLw
  have hEw0 : E.wf := h.hEw
  have hUw0 : U.wf := h.hUw
  have hPw0 : P.wf := h.hPw
  have hPperm0 : P.PermMat := h.hPperm
  have hij0 : j ≤ i := h.hij
  have him0 : i < m := h.him
  have hjn0 : j < n := h.hjn
  have hplen0 : pivs.length = j := h.hplen
  have hclen0 : coeff.length = j := h.hclen
  have hpiv_lt0 : ∀ c, c < j → pivs.getD c 0 < i := h.hpiv_lt
  have hpiv_mono0 : ∀ c1 c2, c1 < c2 → c2 < j → pivs.getD c1 0 < pivs.getD c2 0 :=
    h.hpiv_mono
  have hEproc0 : ∀ c, c < j → ∃ a, a ≠ 0 ∧ E.col c = [(pivs.getD c 0, a)] ∧
      coeff.getD c 1 = a⁻¹ := h.hEproc
  have hEsub0 : ∀ c, j ≤ c → ∀ r, r < i → (E.col c).get r ≠ 0 →
      ∃ k, k < j ∧ pivs.getD k 0 = r := h.hEsub
  have hLfix0 : ∀ c, i ≤ c → L.col c = if c < m then [(c, 1)] else [] := h.hLfix
  have hLlow0 : ∀ c, c < m → (L.col c).get c = 1 ∧ ∀ r, r < c → (L.col c).get r = 0 :=
    h.hLlow
  have hUid0 : ∀ c, j ≤ c → U.col c = if c < n then [(c, 1)] else [] := h.hUid
  have hUup0 : ∀ c, c < n → (U.col c).get c = 1 ∧
      ∀ r, r ≠ c → (U.col c).get r ≠ 0 → r < c := h.hUup
  have hM0 : ∀ r c, r < m → c < n →
      ∑ l ∈ Finset.range n, (∑ k ∈ Finset.range m,
          L.entry r k * E.entry k l) * U.entry l c
        = ∑ k ∈ Finset.range n, A.entry r k * P.entry k c := h.hM
  obtain ⟨v0, hv0⟩ : ∃ v, (E.col j).lowerBound i = some (i, v) := h.hcolj
  have htl0 : ∀ jj ∈ ((p2c i).getD []).tail, j < jj ∧ jj < n ∧
      ∃ v, (E.col jj).lowerBound i = some (i, v) := h.htl
  have htlnd0 : ((p2c i).getD []).tail.Nodup := h.htlnd
  have hQ30 : ∀ c, j < c → c < n → (E.col c).get i ≠ 0 →
      c ∈ ((p2c i).getD []).tail := h.hQ3
  have hQ10 : ∀ r, i < r → ∀ jj, jj ∈ (p2c r).getD [] →
      j ≤ jj ∧ jj < n ∧ ∃ v, (E.col jj).lowerBound i = some (r, v) := h.hQ1
  have hQ20 : ∀ jj, j ≤ jj → jj < n → jj ≠ j → ∀ p,
      (E.col jj).lowerBound i = some p → i < p.1 → jj ∈ (p2c p.1).getD [] := h.hQ2
  have hQnd0 : ∀ r, i < r → ((p2c r).getD []).Nodup := h.hQnd
  have hQ40 : ∀ r, i < r → p2c r ≠ some [] := h.hQ4
  have hEcolwf : ∀ c, (E.col c).wf := fun c => (ColumnMatrix.col_wf E hEw0 c).1
  have hvspec := SpVec.lowerBound_spec (hEcolwf j) hv0
  have ha11v : E.entry i j = v0 := hvspec.2.1
  have ha11 : E.entry i j ≠ 0 := by rw [ha11v]; exact hvspec.2.2.1
  have hnotl : ∀ c, c ≤ j → c ∉ ((p2c i).getD []).tail := by
    intro c hcj hmm
    have := (htl0 c hmm).1
    omega
  have htlne : ∀ jj ∈ ((p2c i).getD []).tail, jj ≠ j := by
    intro jj hjj hh
    exact hnotl jj (le_of_eq hh) hjj
  have htllen : ∀ jj ∈ ((p2c i).getD []).tail, jj < E.cols.length := by
    intro jj hjj
    rw [hEw0.1]
    have := (htl0 jj hjj).2.1
    omega
  obtain ⟨⟨hd1, hd2, hd3⟩, huntou, hmem, hbuck⟩ :=
    schur_fold_spec m i j (E.entry i j) ((p2c i).getD []).tail E p2c htlnd0 htlne htllen
  have hE2colj : (((p2c i).getD []).tail.foldl (schur_update m i j (E.entry i j))
      (E, p2c)).1.col j = E.col j := huntou j (hnotl j (le_refl j))
  have hicolsL : i < L.cols.length := by rw [hLw0.1]; omega
  have hjcolsU : j < U.cols.length := by rw [hUw0.1]; omega
  have hjcolsE2 : j < (((p2c i).getD []).tail.foldl (schur_update m i j (E.entry i j))
      (E, p2c)).1.cols.length := by rw [hd3, hEw0.1]; omega
  have hLnewcoli : (L.setCol i ((L.col i).axpy (E.entry i j)⁻¹ (E.col j) (i + 1) m)).col i
      = (L.col i).axpy (E.entry i j)⁻¹ (E.col j) (i + 1) m := by
    rw [ColumnMatrix.col_setCol, if_pos ⟨rfl, hicolsL⟩]
  have hLnewcol : ∀ k, k ≠ i →
      (L.setCol i ((L.col i).axpy (E.entry i j)⁻¹ (E.col j) (i + 1) m)).col k = L.col k := by
    intro k hk
    rw [ColumnMatrix.col_setCol, if_neg (fun hh => hk hh.1)]
  have hLicol : L.col i = [(i, 1)] := by
    rw [hLfix0 i (le_refl i), if_pos him0]
  have hEnewcolj : ((((p2c i).getD []).tail.foldl (schur_update m i j (E.entry i j))
      (E, p2c)).1.setCol j [(i, E.entry i j)]).col j = [(i, E.entry i j)] := by
    rw [ColumnMatrix.col_setCol, if_pos ⟨rfl, hjcolsE2⟩]
  have hEnewcol : ∀ x, x ≠ j →
      ((((p2c i).getD []).tail.foldl (schur_update m i j (E.entry i j))
        (E, p2c)).1.setCol j [(i, E.entry i j)]).col x
      = (((p2c i).getD []).tail.foldl (schur_update m i j (E.entry i j)) (E, p2c)).1.col x := by
    intro x hx
    rw [ColumnMatrix.col_setCol, if_neg (fun hh => hx hh.1)]
  have hUjcol : U.col j = [(j, 1)] := by
    rw [hUid0 j (le_refl j), if_pos hjn0]
  have hUnewcolj : (U.setCol j ((U.col j).axpyLazy (E.col j) coeff pivs)).col j
      = (U.col j).axpyLazy (E.col j) coeff pivs := by
    rw [ColumnMatrix.col_setCol, if_pos ⟨rfl, hjcolsU⟩]
  have hUnewcol : ∀ c, c ≠ j →
      (U.setCol j ((U.col j).axpyLazy (E.col j) coeff pivs)).col c = U.col c := by
    intro c hc
    rw [ColumnMatrix.col_setCol, if_neg (fun hh => hc hh.1)]
  have hE2w : (((p2c i).getD []).tail.foldl (schur_update m i j (E.entry i j))
      (E, p2c)).1.wf := by
    apply ColumnMatrix.wf_of_forall_col
    · rw [hd3, hd2]
      exact hEw0.1
    · intro c hc
      by_cases hctl : c ∈ ((p2c i).getD []).tail
      · rw [hmem c hctl]
        refine ⟨SpVec.wf_axpy _ _ _ _ _, ?_⟩
        intro p hp
        have hb := SpVec.axpy_bound
          (fun q hq => (ColumnMatrix.col_wf E hEw0 c).2 q hq)
          (show m ≤ E.nrow from by omega) p hp
        rw [hd1]
        exact hb
      · rw [huntou c hctl]
        refine ⟨(ColumnMatrix.col_wf E hEw0 c).1, ?_⟩
        intro p hp
        rw [hd1]
        exact (ColumnMatrix.col_wf E hEw0 c).2 p hp
  have hgetD01 : ∀ l, l < j → coeff.getD l 0 = coeff.getD l 1 := by
    intro l hl
    rw [List.getD_eq_getElem?_getD, List.getD_eq_getElem?_getD,
      List.getElem?_eq_getElem (show l < coeff.length from by omega)]
    rfl
  have hpivs_app : ∀ c, c < j → (pivs ++ [i]).getD c 0 = pivs.getD c 0 := by
    intro c hc
    exact getD_append_left pivs [i] c 0 (by omega)
  have hpivs_j : (pivs ++ [i]).getD j 0 = i := by
    rw [getD_append_right pivs [i] j 0 (by omega),
      show j - pivs.length = 0 from by omega]
    rfl
  have hcoeff_app : ∀ c, c < j → (coeff ++ [(E.entry i j)⁻¹]).getD c 1 = coeff.getD c 1 := by
    intro c hc
    exact getD_append_left coeff [(E.entry i j)⁻¹] c 1 (by omega)
  have hcoeff_j : (coeff ++ [(E.entry i j)⁻¹]).getD j 1 = (E.entry i j)⁻¹ := by
    rw [getD_append_right coeff [(E.entry i j)⁻¹] j 1 (by omega),
      show j - coeff.length = 0 from by omega]
    rfl
  have hmem_fold : ∀ r x, x ∈ ((((p2c i).getD []).tail.foldl
      (schur_update m i j (E.entry i j)) (E, p2c)).2 r).getD [] →
      x ∈ (p2c r).getD [] ∨ (x ∈ ((p2c i).getD []).tail ∧
        ∃ v, ((((p2c i).getD []).tail.foldl (schur_update m i j (E.entry i j))
          (E, p2c)).1.col x).lowerBound (i + 1) = some (r, v)) := by
    intro r x hx
    rw [hbuck r] at hx
    by_cases hce : p2c r = none ∧ pivotFilter (((p2c i).getD []).tail.foldl
        (schur_update m i j (E.entry i j)) (E, p2c)).1 (i + 1) r
        ((p2c i).getD []).tail = []
    · rw [if_pos hce] at hx
      cases hx
    · rw [if_neg hce] at hx
      rcases List.mem_append.mp hx with h1 | h1
      · exact Or.inl h1
      · exact Or.inr ((mem_pivotFilter _ _ _ _ x).mp h1)
  have hmem_fold_old : ∀ r x, x ∈ (p2c r).getD [] →
      x ∈ ((((p2c i).getD []).tail.foldl (schur_update m i j (E.entry i j))
        (E, p2c)).2 r).getD [] := by
    intro r x hx
    rw [hbuck r]
    have hpne : p2c r ≠ none := by
      intro hh
      rw [hh] at hx
      cases hx
    rw [if_neg (fun hh => hpne hh.1)]
    exact List.mem_append_left _ hx
  have hmem_fold_new : ∀ r x, x ∈ ((p2c i).getD []).tail →
      (∃ v, ((((p2c i).getD []).tail.foldl (schur_update m i j (E.entry i j))
        (E, p2c)).1.col x).lowerBound (i + 1) = some (r, v)) →
      x ∈ ((((p2c i).getD []).tail.foldl (schur_update m i j (E.entry i j))
        (E, p2c)).2 r).getD [] := by
    intro r x hxtl hlb
    rw [hbuck r]
    have hmemf : x ∈ pivotFilter (((p2c i).getD []).tail.foldl
        (schur_update m i j (E.entry i j)) (E, p2c)).1 (i + 1) r ((p2c i).getD []).tail :=
      (mem_pivotFilter _ _ _ _ x).mpr ⟨hxtl, hlb⟩
    rw [if_neg (fun hh => by rw [hh.2] at hmemf; cases hmemf)]
    exact List.mem_append_right _ hmemf
  have hold_facts : ∀ r, i < r → ∀ x, x ∈ (p2c r).getD [] →
      j + 1 ≤ x ∧ x < n ∧ x ∉ ((p2c i).getD []).tail ∧ x ≠ j ∧
        ∃ v, ((((p2c i).getD []).tail.foldl (schur_update m i j (E.entry i j))
          (E, p2c)).1.col x).lowerBound (i + 1) = some (r, v) := by
    intro r hir x hx
    obtain ⟨hxj, hxn, v, hvlb⟩ := hQ10 r hir x hx
    have hxnej : x ≠ j := by
      intro hh
      subst hh
      rw [hv0] at hvlb
      injection hvlb with hvlb
      have heq : i = r := congrArg Prod.fst hvlb
      omega
    have hxntl : x ∉ ((p2c i).getD []).tail := by
      intro hh
      obtain ⟨v1, hv1⟩ := (htl0 x hh).2.2
      rw [hv1] at hvlb
      injection hvlb with hvlb
      have heq : i = r := congrArg Prod.fst hvlb
      omega
    refine ⟨by omega, hxn, hxntl, hxnej, v, ?_⟩
    rw [huntou x hxntl]
    have hgi : (E.col x).get i = 0 :=
      (SpVec.lowerBound_spec (hEcolwf x) hvlb).2.2.2 i (le_refl i) (by omega)
    rw [← SpVec.lowerBound_succ_of_get_eq (hEcolwf x) hgi]
    exact hvlb
  rw [elim_phase_mk, hE2colj]
  refine ⟨?_, ?_, ?_, ?_, ?_, ?_, ?_, ?_, ?_, ?_, ?_, ?_, ?_, ?_, ?_, ?_, ?_, ?_, ?_,
    ?_, ?_, ?_, ?_, ?_, ?_, ?_, ?_, ?_, ?_, ?_, ?_⟩
  · exact hLr0
  · exact hLc0
  · exact hd1.trans hEr0
  · exact hd2.trans hEc0
  · exact hUr0
  · exact hUc0
  · exact hPr0
  · exact hPc0
  · exact ColumnMatrix.wf_setCol L hLw0 i _ (SpVec.wf_axpy _ _ _ _ _)
      (SpVec.axpy_bound (fun p hp => (ColumnMatrix.col_wf L hLw0 i).2 p hp) (by omega))
  · show ((((p2c i).getD []).tail.foldl (schur_update m i j (E.entry i j))
      (E, p2c)).1.setCol j [(i, E.entry i j)]).wf
    apply ColumnMatrix.wf_setCol _ hE2w j _ (SpVec.wf_single i _ ha11)
    intro p hp
    rcases List.mem_cons.mp hp with hh | hh
    · rw [hh]
      show i < _
      rw [hd1]
      omega
    · cases hh
  · exact ColumnMatrix.wf_setCol U hUw0 j _ (SpVec.wf_axpyLazy _ _ _ _)
      (SpVec.axpyLazy_bound (fun p hp => (ColumnMatrix.col_wf U hUw0 j).2 p hp) (by omega))
  · exact hPw0
  · exact hPperm0
  · show j + 1 ≤ i + 1
    omega
  · show i + 1 ≤ m
    omega
  · show j + 1 ≤ n
    omega
  · show (pivs ++ [i]).length = j + 1
    rw [List.length_append, hplen0]
    rfl
  · show (coeff ++ [(E.entry i j)⁻¹]).length = j + 1
    rw [List.length_append, hclen0]
    rfl
  · intro c hc
    have hc' : c < j + 1 := hc
    show (pivs ++ [i]).getD c 0 < i + 1
    by_cases hcj2 : c < j
    · rw [hpivs_app c hcj2]
      have := hpiv_lt0 c hcj2
      omega
    · have hcj3 : c = j := by omega
      rw [hcj3, hpivs_j]
      omega
  · intro c1 c2 h12 hc2
    have hc2' : c2 < j + 1 := hc2
    show (pivs ++ [i]).getD c1 0 < (pivs ++ [i]).getD c2 0
    by_cases hcj2 : c2 < j
    · rw [hpivs_app c1 (by omega), hpivs_app c2 hcj2]
      exact hpiv_mono0 c1 c2 h12 hcj2
    · have hcj3 : c2 = j := by omega
      rw [hcj3, hpivs_j, hpivs_app c1 (by omega)]
      exact hpiv_lt0 c1 (by omega)
  · intro c hc
    have hc' : c < j + 1 := hc
    show ∃ a, a ≠ 0 ∧
        ((((p2c i).getD []).tail.foldl (schur_update m i j (E.entry i j))
          (E, p2c)).1.setCol j [(i, E.entry i j)]).col c
          = [((pivs ++ [i]).getD c 0, a)] ∧
        (coeff ++ [(E.entry i j)⁻¹]).getD c 1 = a⁻¹
    by_cases hcj2 : c = j
    · subst hcj2
      refine ⟨E.entry i c, ha11, ?_, hcoeff_j⟩
      rw [hpivs_j]
      exact hEnewcolj
    · have hclt : c < j := by omega
      obtain ⟨a, ha, hcol, hcf⟩ := hEproc0 c hclt
      refine ⟨a, ha, ?_, ?_⟩
      · rw [hEnewcol c hcj2, huntou c (hnotl c (by omega)), hpivs_app c hclt]
        exact hcol
      · rw [hcoeff_app c hclt]
        exact hcf
  · intro c hc r hr hne
    have hc' : j + 1 ≤ c := hc
    have hr' : r < i + 1 := hr
    have hne' : (((((p2c i).getD []).tail.foldl (schur_update m i j (E.entry i j))
        (E, p2c)).1.setCol j [(i, E.entry i j)]).col c).get r ≠ 0 := hne
    show ∃ k, k < j + 1 ∧ (pivs ++ [i]).getD k 0 = r
    by_cases hri : r = i
    · refine ⟨j, by omega, ?_⟩
      rw [hpivs_j, hri]
    · have hrlt : r < i := by omega
      have hcj2 : c ≠ j := by omega
      have hget : (((((p2c i).getD []).tail.foldl (schur_update m i j (E.entry i j))
          (E, p2c)).1.setCol j [(i, E.entry i j)]).col c).get r = (E.col c).get r := by
        rw [hEnewcol c hcj2]
        by_cases hctl : c ∈ ((p2c i).getD []).tail
        · rw [hmem c hctl, SpVec.get_axpy,
            if_neg (fun hh : i + 1 ≤ r ∧ r < m => by omega), add_zero]
        · rw [huntou c hctl]
      rw [hget] at hne'
      obtain ⟨k, hk, hpk⟩ := hEsub0 c (by omega) r hrlt hne'
      refine ⟨k, by omega, ?_⟩
      rw [hpivs_app k hk]
      exact hpk
  · intro c hc
    have hc' : i + 1 ≤ c := hc
    show (L.setCol i ((L.col i).axpy (E.entry i j)⁻¹ (E.col j) (i + 1) m)).col c
      = if c < m then [(c, 1)] else []
    rw [hLnewcol c (by omega)]
    exact hLfix0 c (by omega)
  · intro c hcm
    show ((L.setCol i ((L.col i).axpy (E.entry i j)⁻¹ (E.col j) (i + 1) m)).col c).get c
        = 1 ∧
      ∀ r, r < c →
        ((L.setCol i ((L.col i).axpy (E.entry i j)⁻¹ (E.col j) (i + 1) m)).col c).get r = 0
    by_cases hci : c = i
    · subst hci
      constructor
      · rw [hLnewcoli, SpVec.get_axpy, hLicol, SpVec.get_single, if_pos rfl,
          if_neg (fun hh : c + 1 ≤ c ∧ c < m => by omega), add_zero]
      · intro r hrc
        rw [hLnewcoli, SpVec.get_axpy, hLicol, SpVec.get_single,
          if_neg (by omega), if_neg (fun hh : c + 1 ≤ r ∧ r < m => by omega), add_zero]
    · rw [hLnewcol c hci]
      exact hLlow0 c hcm
  · intro c hc
    have hc' : j + 1 ≤ c := hc
    show (U.setCol j ((U.col j).axpyLazy (E.col j) coeff pivs)).col c
      = if c < n then [(c, 1)] else []
    rw [hUnewcol c (by omega)]
    exact hUid0 c (by omega)
  · intro c hc
    show ((U.setCol j ((U.col j).axpyLazy (E.col j) coeff pivs)).col c).get c = 1 ∧
      ∀ r, r ≠ c →
        ((U.setCol j ((U.col j).axpyLazy (E.col j) coeff pivs)).col c).get r ≠ 0 → r < c
    by_cases hcj2 : c = j
    · subst hcj2
      constructor
      · rw [hUnewcolj, SpVec.get_axpyLazy, hUjcol, SpVec.get_single, if_pos rfl,
          if_neg (fun hh : c < coeff.length ∧ c < pivs.length => by omega), add_zero]
      · intro r hrj hne
        rw [hUnewcolj, SpVec.get_axpyLazy, hUjcol, SpVec.get_single,
          if_neg (fun hh => hrj hh.symm)] at hne
        by_contra hc2
        rw [if_neg (fun hh : r < coeff.length ∧ r < pivs.length => by omega),
          add_zero] at hne
        exact hne rfl
    · constructor
      · rw [hUnewcol c hcj2]
        exact (hUup0 c hc).1
      · intro r hrc hne
        rw [hUnewcol c hcj2] at hne
        exact (hUup0 c hc).2 r hrc hne
  · intro r hr1 x hx0
    have hr1' : i + 1 ≤ r := hr1
    show j + 1 ≤ x ∧ x < n ∧
      ∃ v, (((((p2c i).getD []).tail.foldl (schur_update m i j (E.entry i j))
        (E, p2c)).1.setCol j [(i, E.entry i j)]).col x).lowerBound (i + 1) = some (r, v)
    have hrne : r ≠ i := by omega
    have hx : x ∈ ((((p2c i).getD []).tail.foldl (schur_update m i j (E.entry i j))
        (E, p2c)).2 r).getD [] := by
      have hx1 : x ∈ ((if r = i then none
          else (((p2c i).getD []).tail.foldl (schur_update m i j (E.entry i j))
            (E, p2c)).2 r)).getD [] := hx0
      rw [if_neg hrne] at hx1
      exact hx1
    rcases hmem_fold r x hx with h1 | ⟨hxtl, v, hvlb⟩
    · obtain ⟨hxj, hxn, _, hxnej, v, hvlb⟩ := hold_facts r (by omega) x h1
      refine ⟨hxj, hxn, v, ?_⟩
      rw [hEnewcol x hxnej]
      exact hvlb
    · obtain ⟨hxj, hxn, _⟩ := htl0 x hxtl
      refine ⟨by omega, hxn, v, ?_⟩
      rw [hEnewcol x (by omega)]
      exact hvlb
  · intro x hxj1 hxn p hlb
    have hxj1' : j + 1 ≤ x := hxj1
    have hlb' : (((((p2c i).getD []).tail.foldl (schur_update m i j (E.entry i j))
        (E, p2c)).1.setCol j [(i, E.entry i j)]).col x).lowerBound (i + 1) = some p := hlb
    have hip : i + 1 ≤ p.1 := by
      have hEnw : ((((p2c i).getD []).tail.foldl (schur_update m i j (E.entry i j))
          (E, p2c)).1.setCol j [(i, E.entry i j)]).wf := by
        apply ColumnMatrix.wf_setCol _ hE2w j _ (SpVec.wf_single i _ ha11)
        intro q hq
        rcases List.mem_cons.mp hq with hh | hh
        · rw [hh]
          show i < _
          rw [hd1]
          omega
        · cases hh
      exact (SpVec.lowerBound_spec (ColumnMatrix.col_wf _ hEnw x).1 hlb').1
    have hpne : p.1 ≠ i := by omega
    show x ∈ ((if p.1 = i then none
        else (((p2c i).getD []).tail.foldl (schur_update m i j (E.entry i j))
          (E, p2c)).2 p.1)).getD []
    rw [if_neg hpne]
    have hxnej : x ≠ j := by omega
    rw [hEnewcol x hxnej] at hlb'
    by_cases hxtl : x ∈ ((p2c i).getD []).tail
    · apply hmem_fold_new p.1 x hxtl
      refine ⟨p.2, ?_⟩
      rw [hlb']
    · rw [huntou x hxtl] at hlb'
      have hgi : (E.col x).get i = 0 := by
        by_contra hne
        exact hxtl (hQ30 x (by omega) hxn hne)
      have hlb0 : (E.col x).lowerBound i = some p := by
        rw [SpVec.lowerBound_succ_of_get_eq (hEcolwf x) hgi]
        exact hlb'
      exact hmem_fold_old p.1 x (hQ20 x (by omega) hxn hxnej p hlb0 (by omega))
  · intro r hr1
    have hr1' : i + 1 ≤ r := hr1
    have hrne : r ≠ i := by omega
    show (((if r = i then none
        else (((p2c i).getD []).tail.foldl (schur_update m i j (E.entry i j))
          (E, p2c)).2 r)).getD []).Nodup
    rw [if_neg hrne, hbuck r]
    by_cases hce : p2c r = none ∧ pivotFilter (((p2c i).getD []).tail.foldl
        (schur_update m i j (E.entry i j)) (E, p2c)).1 (i + 1) r
        ((p2c i).getD []).tail = []
    · rw [if_pos hce]
      exact List.nodup_nil
    · rw [if_neg hce]
      show ((p2c r).getD [] ++ pivotFilter _ (i + 1) r ((p2c i).getD []).tail).Nodup
      apply List.Nodup.append (hQnd0 r (by omega)) (pivotFilter_nodup _ _ _ _ htlnd0)
      intro x hx1 hx2
      obtain ⟨_, _, hxntl, _, _⟩ := hold_facts r (by omega) x hx1
      exact hxntl ((mem_pivotFilter _ _ _ _ x).mp hx2).1
  · intro r hr1
    have hr1' : i + 1 ≤ r := hr1
    have hrne : r ≠ i := by omega
    show (if r = i then none
        else (((p2c i).getD []).tail.foldl (schur_update m i j (E.entry i j))
          (E, p2c)).2 r) ≠ some []
    rw [if_neg hrne, hbuck r]
    by_cases hce : p2c r = none ∧ pivotFilter (((p2c i).getD []).tail.foldl
        (schur_update m i j (E.entry i j)) (E, p2c)).1 (i + 1) r
        ((p2c i).getD []).tail = []
    · rw [if_pos hce]
      intro hh
      cases hh
    · rw [if_neg hce]
      intro hh
      injection hh with hh
      rcases List.append_eq_nil.mp hh with ⟨h1, h2⟩
      rcases not_and_or.mp hce with h3 | h3
      · cases hpc : p2c r with
        | none => exact h3 hpc
        | some b =>
          rw [hpc] at h1
          have h1' : b = [] := h1
          exact hQ40 r (by omega) (by rw [hpc, h1'])
      · exact h3 h2
  · intro r c hr hc
    have hLpne : ∀ k, k ≠ i →
        (L.setCol i ((L.col i).axpy (E.entry i j)⁻¹ (E.col j) (i + 1) m)).entry r k
          = L.entry r k := by
      intro k hk
      show ((L.setCol i ((L.col i).axpy (E.entry i j)⁻¹ (E.col j) (i + 1) m)).col k).get r
        = (L.col k).get r
      rw [hLnewcol k hk]
    have hLpi : (L.setCol i ((L.col i).axpy (E.entry i j)⁻¹ (E.col j) (i + 1) m)).entry r i
        = (if i = r then 1 else 0) +
          (if i + 1 ≤ r ∧ r < m then (E.entry i j)⁻¹ * E.entry r j else 0) := by
      show ((L.setCol i ((L.col i).axpy (E.entry i j)⁻¹ (E.col j) (i + 1) m)).col i).get r
        = _
      rw [hLnewcoli, SpVec.get_axpy, hLicol, SpVec.get_single]
      rfl
    have hLid : ∀ k, i ≤ k → k < m → L.entry r k = if k = r then 1 else 0 := by
      intro k h1 h2
      show (L.col k).get r = _
      rw [hLfix0 k h1, if_pos h2, SpVec.get_single]
    have hEpj : ∀ k, ((((p2c i).getD []).tail.foldl (schur_update m i j (E.entry i j))
        (E, p2c)).1.setCol j [(i, E.entry i j)]).entry k j
        = if i = k then E.entry i j else 0 := by
      intro k
      show (((((p2c i).getD []).tail.foldl (schur_update m i j (E.entry i j))
        (E, p2c)).1.setCol j [(i, E.entry i j)]).col j).get k = _
      rw [hEnewcolj, SpVec.get_single]
    have hEpin : ∀ l, l ∈ ((p2c i).getD []).tail → ∀ k,
        ((((p2c i).getD []).tail.foldl (schur_update m i j (E.entry i j))
          (E, p2c)).1.setCol j [(i, E.entry i j)]).entry k l
        = E.entry k l + (if i + 1 ≤ k ∧ k < m then
            -(E.entry i l / E.entry i j) * E.entry k j else 0) := by
      intro l hl k
      show (((((p2c i).getD []).tail.foldl (schur_update m i j (E.entry i j))
        (E, p2c)).1.setCol j [(i, E.entry i j)]).col l).get k = _
      rw [hEnewcol l (htlne l hl), hmem l hl, SpVec.get_axpy]
      rfl
    have hEpout : ∀ l, l ≠ j → l ∉ ((p2c i).getD []).tail → ∀ k,
        ((((p2c i).getD []).tail.foldl (schur_update m i j (E.entry i j))
          (E, p2c)).1.setCol j [(i, E.entry i j)]).entry k l = E.entry k l := by
      intro l h1 h2 k
      show (((((p2c i).getD []).tail.foldl (schur_update m i j (E.entry i j))
        (E, p2c)).1.setCol j [(i, E.entry i j)]).col l).get k = (E.col l).get k
      rw [hEnewcol l h1, huntou l h2]
    have hUpj : ∀ l, (U.setCol j ((U.col j).axpyLazy (E.col j) coeff pivs)).entry l j
        = (if j = l then 1 else 0) +
          (if l < j then coeff.getD l 0 * E.entry (pivs.getD l 0) j else 0) := by
      intro l
      show ((U.setCol j ((U.col j).axpyLazy (E.col j) coeff pivs)).col j).get l = _
      rw [hUnewcolj, SpVec.get_axpyLazy, hUjcol, SpVec.get_single]
      congr 1
      by_cases hlj : l < j
      · rw [if_pos (show l < coeff.length ∧ l < pivs.length from by omega), if_pos hlj]
        rfl
      · rw [if_neg (fun hh : l < coeff.length ∧ l < pivs.length => by omega), if_neg hlj]
    have hUpne : ∀ l c', c' ≠ j →
        (U.setCol j ((U.col j).axpyLazy (E.col j) coeff pivs)).entry l c'
          = U.entry l c' := by
      intro l c' hc'
      show ((U.setCol j ((U.col j).axpyLazy (E.col j) coeff pivs)).col c').get l
        = (U.col c').get l
      rw [hUnewcol c' hc']
    have htl2 : ∀ l ∈ ((p2c i).getD []).tail, j < l ∧ l < n := by
      intro l hl
      exact ⟨(htl0 l hl).1, (htl0 l hl).2.1⟩
    have hQ3b : ∀ l, j < l → l < n → l ∉ ((p2c i).getD []).tail → E.entry i l = 0 := by
      intro l h1 h2 h3
      by_contra hne
      exact h3 (hQ30 l h1 h2 hne)
    have hEprocE2 : ∀ l, l < j → ∃ a, a ≠ 0 ∧
        (∀ k, E.entry k l = if pivs.getD l 0 = k then a else 0) ∧
          coeff.getD l 0 = a⁻¹ := by
      intro l hl
      obtain ⟨a, ha, hcol, hcf⟩ := hEproc0 l hl
      refine ⟨a, ha, ?_, ?_⟩
      · intro k
        show (E.col l).get k = _
        rw [hcol, SpVec.get_single]
      · rw [hgetD01 l hl]
        exact hcf
    have hEsubj2 : ∀ k, k < i → E.entry k j ≠ 0 → ∃ l, l < j ∧ pivs.getD l 0 = k :=
      fun k h1 h2 => hEsub0 j (le_refl j) k h1 h2
    have hUj2 : ∀ l, U.entry l j = if j = l then 1 else 0 := by
      intro l
      show (U.col j).get l = _
      rw [hUjcol, SpVec.get_single]
    have hUrow2 : ∀ c', c' < n → c' ≠ j → U.entry j c' = 0 := by
      intro c' h1 h2
      by_cases hcj2 : c' < j
      · by_contra hne
        have := (hUup0 c' h1).2 j (fun hh => h2 hh.symm) hne
        omega
      · show (U.col c').get j = 0
        rw [hUid0 c' (by omega), if_pos h1, SpVec.get_single, if_neg h2]
    exact elim_phase_prod A L E U P _ _ _ ((p2c i).getD []).tail pivs coeff m n i j r c
      hr hc him0 hjn0 ha11 hLpne hLpi hEpj hEpin hEpout hUpj hUpne htl2 hQ3b hLid
      hEprocE2 hpiv_lt0 hpiv_mono0 hEsubj2 hUj2 hUrow2 (hM0 r c hr hc)

theorem swap_phase_mk_eq (L E U P : ColumnMatrix α) (p2c : PivMap) (pivs : List Nat)
    (coeff : List α) (i j : Nat) :
    swap_phase (⟨⟨L, E, U, P⟩, p2c, pivs, coeff, i, j⟩ : LoopSt α) j
      = ⟨⟨L, E, U, P⟩, p2c, pivs, coeff, i, j⟩ := by
  unfold swap_phase
  rw [if_neg (fun hh => hh rfl)]

theorem swap_phase_mk_ne (L E U P : ColumnMatrix α) (p2c : PivMap) (pivs : List Nat)
    (coeff : List α) (i j j2 : Nat) (h : j2 ≠ j) :
    swap_phase (⟨⟨L, E, U, P⟩, p2c, pivs, coeff, i, j⟩ : LoopSt α) j2
      = ⟨⟨L, E.swap_cols j j2, U, P.swap_cols j j2⟩,
          update_pivot (E.swap_cols j j2) (delete_pivot E p2c j i) j2 i,
          pivs, coeff, i, j⟩ := by
  unfold swap_phase
  rw [if_pos h]

theorem swap_ready (A : ColumnMatrix α) (m n : Nat) (s : LoopSt α)
    (h : LeupInv A m n s) (him : s.i < m) (hjn : s.j < n)
    (b : List Nat) (hpc : s.p2c s.i = some b) :
    ElimReady A m n (swap_phase s (b.headD 0)) := by
  obtain ⟨⟨L, E, U, P⟩, p2c, pivs, coeff, i, j⟩ := s
  have him0 : i < m := him
  have hjn0 : j < n := hjn
  have hpc0 : p2c i = some b := hpc
  have hLr0 : L.nrow = m := h.hLr
  have hLc0 : L.ncol = m := h.hLc
  have hEr0 : E.nrow = m := h.hEr
  have hEc0 : E.ncol = n := h.hEc
  have hUr0 : U.nrow = n := h.hUr
  have hUc0 : U.ncol = n := h.hUc
  have hPr0 : P.nrow = n := h.hPr
  have hPc0 : P.ncol = n := h.hPc
  have hLw0 : L.wf := h.hLw
  have hEw0 : E.wf := h.hEw
  have hUw0 : U.wf := h.hUw
  have hPw0 : P.wf := h.hPw
  have hPperm0 : P.PermMat := h.hPperm
  have hij0 : j ≤ i := h.hij
  have hplen0 : pivs.length = j := h.hplen
  have hclen0 : coeff.length = j := h.hclen
  have hpiv_lt0 : ∀ c, c < j → pivs.getD c 0 < i := h.hpiv_lt
  have hpiv_mono0 : ∀ c1 c2, c1 < c2 → c2 < j → pivs.getD c1 0 < pivs.getD c2 0 :=
    h.hpiv_mono
  have hEproc0 : ∀ c, c < j → ∃ a1, a1 ≠ 0 ∧ E.col c = [(pivs.getD c 0, a1)] ∧
      coeff.getD c 1 = a1⁻¹ := h.hEproc
  have hEsub0 : ∀ c, j ≤ c → ∀ r, r < i → (E.col c).get r ≠ 0 →
      ∃ k, k < j ∧ pivs.getD k 0 = r := h.hEsub
  have hLfix0 : ∀ c, i ≤ c → L.col c = if c < m then [(c, 1)] else [] := h.hLfix
  have hLlow0 : ∀ c, c < m → (L.col c).get c = 1 ∧ ∀ r, r < c → (L.col c).get r = 0 :=
    h.hLlow
  have hUid0 : ∀ c, j ≤ c → U.col c = if c < n then [(c, 1)] else [] := h.hUid
  have hUup0 : ∀ c, c < n → (U.col c).get c = 1 ∧
      ∀ r, r ≠ c → (U.col c).get r ≠ 0 → r < c := h.hUup
  have hP10 : ∀ r, i ≤ r → ∀ jj, jj ∈ (p2c r).getD [] →
      j ≤ jj ∧ jj < n ∧ ∃ v, (E.col jj).lowerBound i = some (r, v) := h.hP1
  have hP20 : ∀ jj, j ≤ jj → jj < n → ∀ p, (E.col jj).lowerBound i = some p →
      jj ∈ (p2c p.1).getD [] := h.hP2
  have hP30 : ∀ r, i ≤ r → ((p2c r).getD []).Nodup := h.hP3
  have hP40 : ∀ r, i ≤ r → p2c r ≠ some [] := h.hP4
  have hM0 : ∀ r c, r < m → c < n →
      ∑ l ∈ Finset.range n, (∑ k ∈ Finset.range m,
          L.entry r k * E.entry k l) * U.entry l c
        = ∑ k ∈ Finset.range n, A.entry r k * P.entry k c := h.hM
  have hbne : b ≠ [] := by
    intro hh
    exact hP40 i (le_refl i) (by rw [hpc0, hh])
  obtain ⟨a, t, rfl⟩ := List.exists_cons_of_ne_nil hbne
  have hb : (p2c i).getD [] = a :: t := by rw [hpc0]; rfl
  have hP1i : ∀ jj ∈ a :: t, j ≤ jj ∧ jj < n ∧
      ∃ v, (E.col jj).lowerBound i = some (i, v) := by
    intro jj hjj
    exact hP10 i (le_refl i) jj (by rw [hb]; exact hjj)
  have hbnd : (a :: t).Nodup := by
    have hx := hP30 i (le_refl i)
    rw [hb] at hx
    exact hx
  have hant : a ∉ t := (List.nodup_cons.mp hbnd).1
  have htnd : t.Nodup := (List.nodup_cons.mp hbnd).2
  have haf := hP1i a (List.mem_cons_self a t)
  have hEcolwf : ∀ c, (E.col c).wf := fun c => (ColumnMatrix.col_wf E hEw0 c).1
  by_cases haj : a = j
  · rw [haj] at hP1i hant haf hb ⊢
    show ElimReady A m n (swap_phase ⟨⟨L, E, U, P⟩, p2c, pivs, coeff, i, j⟩ j)
    rw [swap_phase_mk_eq]
    refine ⟨hLr0, hLc0, hEr0, hEc0, hUr0, hUc0, hPr0, hPc0, hLw0, hEw0, hUw0, hPw0,
      hPperm0, hij0, him0, hjn0, hplen0, hclen0, hpiv_lt0, hpiv_mono0, hEproc0, hEsub0,
      hLfix0, hLlow0, hUid0, hUup0, hM0, ?_, ?_, ?_, ?_, ?_, ?_, ?_, ?_⟩
    · exact haf.2.2
    · intro jj hjj
      have hjj' : jj ∈ t := by
        have hx : jj ∈ ((p2c i).getD []).tail := hjj
        rw [hb] at hx
        exact hx
      obtain ⟨h1, h2, h3⟩ := hP1i jj (List.mem_cons_of_mem j hjj')
      have hne : jj ≠ j := fun hh => hant (hh ▸ hjj')
      refine ⟨?_, h2, h3⟩
      show j < jj
      omega
    · show (((p2c i).getD []).tail).Nodup
      rw [hb]
      exact htnd
    · intro c h1 h2 h3
      have h1' : j < c := h1
      have h3' : (E.col c).get i ≠ 0 := h3
      show c ∈ ((p2c i).getD []).tail
      rw [hb]
      have hlb := SpVec.lowerBound_of_get_ne (hEcolwf c) h3'
      have hmemb : c ∈ (p2c i).getD [] := hP20 c (by omega) h2 (i, (E.col c).get i) hlb
      rw [hb] at hmemb
      rcases List.mem_cons.mp hmemb with hh | hh
      · exact absurd hh (by omega)
      · exact hh
    · intro r hr
      have hr' : i < r := hr
      exact fun jj hjj => hP10 r (by omega) jj hjj
    · intro jj h1 h2 h3 p h4 h5
      have h1' : j ≤ jj := h1
      have h4' : (E.col jj).lowerBound i = some p := h4
      exact hP20 jj h1' h2 p h4'
    · intro r hr
      have hr' : i < r := hr
      exact hP30 r (by omega)
    · intro r hr
      have hr' : i < r := hr
      exact hP40 r (by omega)
  · have hja : j ≤ a := haf.1
    have han : a < n := haf.2.1
    obtain ⟨va, hva⟩ := haf.2.2
    have hEcl : E.cols.length = n := by rw [hEw0.1, hEc0]
    have hPcl : P.cols.length = n := by rw [hPw0.1, hPc0]
    have hswapa : (E.swap_cols j a).col a = E.col j := by
      rw [ColumnMatrix.col_swap_cols E j a a (by omega) (by omega), if_pos rfl]
    have hswapj : (E.swap_cols j a).col j = E.col a := by
      rw [ColumnMatrix.col_swap_cols E j a j (by omega) (by omega),
        if_neg (fun hh => haj hh.symm), if_pos rfl]
    have hswapo : ∀ c, c ≠ j → c ≠ a → (E.swap_cols j a).col c = E.col c := by
      intro c h1 h2
      rw [ColumnMatrix.col_swap_cols E j a c (by omega) (by omega), if_neg h2, if_neg h1]
    have hE1w : (E.swap_cols j a).wf := ColumnMatrix.wf_swap_cols E hEw0 j a
    have hPs1w : (P.swap_cols j a).wf := ColumnMatrix.wf_swap_cols P hPw0 j a
    have hPperm1 : (P.swap_cols j a).PermMat :=
      ColumnMatrix.PermMat_swap_cols P hPperm0 hPw0.1 j a (by omega) (by omega)
    have hEproc1 : ∀ c, c < j → ∃ a1, a1 ≠ 0 ∧
        (E.swap_cols j a).col c = [(pivs.getD c 0, a1)] ∧ coeff.getD c 1 = a1⁻¹ := by
      intro c hc
      rw [hswapo c (by omega) (by omega)]
      exact hEproc0 c hc
    have hEsub1 : ∀ c, j ≤ c → ∀ r, r < i → ((E.swap_cols j a).col c).get r ≠ 0 →
        ∃ k, k < j ∧ pivs.getD k 0 = r := by
      intro c hcge r hri hne
      by_cases hcj : c = j
      · rw [hcj, hswapj] at hne
        exact hEsub0 a hja r hri hne
      · by_cases hca : c = a
        · rw [hca, hswapa] at hne
          exact hEsub0 j (le_refl j) r hri hne
        · rw [hswapo c hcj hca] at hne
          exact hEsub0 c hcge r hri hne
    have hM1 : ∀ r c, r < m → c < n →
        ∑ l ∈ Finset.range n,
            (∑ k ∈ Finset.range m, L.entry r k * (E.swap_cols j a).entry k l) *
              U.entry l c
          = ∑ k ∈ Finset.range n, A.entry r k * (P.swap_cols j a).entry k c := by
      intro r c hr hc
      have hτc : (if c = j then a else if c = a then j else c) < n := by
        split_ifs <;> omega
      have hE1e : ∀ k l, (E.swap_cols j a).entry k l
          = E.entry k (if l = j then a else if l = a then j else l) := by
        intro k l
        rw [ColumnMatrix.entry_swap_cols E j a k l (by omega) (by omega)]
        by_cases h1 : l = j
        · have h2 : ¬ l = a := by omega
          simp only [if_pos h1, if_neg h2]
        · by_cases h2 : l = a
          · simp only [if_neg h1, if_pos h2]
          · simp only [if_neg h1, if_neg h2]
      have hPe : ∀ k, (P.swap_cols j a).entry k c
          = P.entry k (if c = j then a else if c = a then j else c) := by
        intro k
        rw [ColumnMatrix.entry_swap_cols P j a k c (by omega) (by omega)]
        by_cases h1 : c = j
        · have h2 : ¬ c = a := by omega
          simp only [if_pos h1, if_neg h2]
        · by_cases h2 : c = a
          · simp only [if_neg h1, if_pos h2]
          · simp only [if_neg h1, if_neg h2]
      have hUswap : ∀ l, l < n → U.entry (if l = j then a else if l = a then j else l) c
          = U.entry l (if c = j then a else if c = a then j else c) := by
        intro l hl
        by_cases hcj : c < j
        · have hτceq : (if c = j then a else if c = a then j else c) = c := by
            rw [if_neg (by omega), if_neg (by omega)]
          rw [hτceq]
          by_cases hlj : l < j
          · have hτleq : (if l = j then a else if l = a then j else l) = l := by
              rw [if_neg (by omega), if_neg (by omega)]
            rw [hτleq]
          · have hz : ∀ rr, j ≤ rr → U.entry rr c = 0 := by
              intro rr hrr
              by_contra hne2
              have := (hUup0 c (by omega)).2 rr (by omega) hne2
              omega
            rw [hz (if l = j then a else if l = a then j else l)
              (by split_ifs <;> omega), hz l (by omega)]
        · have hcge : j ≤ c := by omega
          have hUcc : ∀ rr, U.entry rr c = if c = rr then 1 else 0 := by
            intro rr
            show (U.col c).get rr = _
            rw [hUid0 c hcge, if_pos hc, SpVec.get_single]
          have hτcge : j ≤ (if c = j then a else if c = a then j else c) := by
            split_ifs <;> omega
          have hUτc : ∀ rr, U.entry rr (if c = j then a else if c = a then j else c)
              = if (if c = j then a else if c = a then j else c) = rr then 1 else 0 := by
            intro rr
            show (U.col (if c = j then a else if c = a then j else c)).get rr = _
            rw [hUid0 _ hτcge, if_pos hτc, SpVec.get_single]
          rw [hUcc, hUτc]
          split_ifs <;> first | rfl | (exfalso; omega)
      have hstep1 : ∑ l ∈ Finset.range n,
          (∑ k ∈ Finset.range m, L.entry r k * (E.swap_cols j a).entry k l) * U.entry l c
        = ∑ l ∈ Finset.range n,
          (∑ k ∈ Finset.range m,
            L.entry r k * E.entry k (if l = j then a else if l = a then j else l)) *
            U.entry l c := by
        apply Finset.sum_congr rfl
        intro l _
        congr 1
        apply Finset.sum_congr rfl
        intro k _
        rw [hE1e k l]
      have hττ : ∀ l, (if (if l = j then a else if l = a then j else l) = j then a
          else if (if l = j then a else if l = a then j else l) = a then j
          else (if l = j then a else if l = a then j else l)) = l := by
        intro l
        split_ifs <;> omega
      have hstep2 : ∑ l ∈ Finset.range n,
          (∑ k ∈ Finset.range m, L.entry r k * E.entry k l) *
            U.entry (if l = j then a else if l = a then j else l) c
        = ∑ l ∈ Finset.range n,
          (∑ k ∈ Finset.range m,
            L.entry r k * E.entry k (if l = j then a else if l = a then j else l)) *
            U.entry l c := by
        rw [sum_range_swapIdx (fun l => (∑ k ∈ Finset.range m,
          L.entry r k * E.entry k l) *
          U.entry (if l = j then a else if l = a then j else l) c) n j a
          (by omega) (by omega)]
        apply Finset.sum_congr rfl
        intro l _
        show (∑ k ∈ Finset.range m,
            L.entry r k * E.entry k (if l = j then a else if l = a then j else l)) *
            U.entry (if (if l = j then a else if l = a then j else l) = j then a
              else if (if l = j then a else if l = a then j else l) = a then j
              else (if l = j then a else if l = a then j else l)) c
          = (∑ k ∈ Finset.range m,
            L.entry r k * E.entry k (if l = j then a else if l = a then j else l)) *
            U.entry l c
        rw [hττ l]
      have hstep3 : ∑ l ∈ Finset.range n,
          (∑ k ∈ Finset.range m, L.entry r k * E.entry k l) *
            U.entry (if l = j then a else if l = a then j else l) c
        = ∑ l ∈ Finset.range n,
          (∑ k ∈ Finset.range m, L.entry r k * E.entry k l) *
            U.entry l (if c = j then a else if c = a then j else c) := by
        apply Finset.sum_congr rfl
        intro l hl
        rw [hUswap l (Finset.mem_range.mp hl)]
      have hstep4 : ∑ k ∈ Finset.range n, A.entry r k *
          P.entry k (if c = j then a else if c = a then j else c)
        = ∑ k ∈ Finset.range n, A.entry r k * (P.swap_cols j a).entry k c := by
        apply Finset.sum_congr rfl
        intro k _
        rw [hPe k]
      exact hstep1.trans (hstep2.symm.trans (hstep3.trans
        ((hM0 r (if c = j then a else if c = a then j else c) hr hτc).trans hstep4)))
    show ElimReady A m n (swap_phase ⟨⟨L, E, U, P⟩, p2c, pivs, coeff, i, j⟩ a)
    rw [swap_phase_mk_ne L E U P p2c pivs coeff i j a haj]
    cases hlbj : (E.col j).lowerBound i with
    | none =>
      have hup : update_pivot (E.swap_cols j a) (delete_pivot E p2c j i) a i = p2c := by
        rw [delete_pivot_eq_none E p2c j i hlbj]
        apply update_pivot_eq_none
        rw [hswapa]
        exact hlbj
      rw [hup]
      have hjnotb : j ∉ a :: t := by
        intro hh
        obtain ⟨v, hv⟩ := (hP1i j hh).2.2
        rw [hlbj] at hv
        cases hv
      refine ⟨hLr0, hLc0, hEr0, hEc0, hUr0, hUc0, hPr0, hPc0, hLw0, hE1w, hUw0, hPs1w,
        hPperm1, hij0, him0, hjn0, hplen0, hclen0, hpiv_lt0, hpiv_mono0, hEproc1, hEsub1,
        hLfix0, hLlow0, hUid0, hUup0, hM1, ?_, ?_, ?_, ?_, ?_, ?_, ?_, ?_⟩
      · refine ⟨va, ?_⟩
        show ((E.swap_cols j a).col j).lowerBound i = some (i, va)
        rw [hswapj]
        exact hva
      · intro jj hjj
        have hjj' : jj ∈ t := by
          have hx : jj ∈ ((p2c i).getD []).tail := hjj
          rw [hb] at hx
          exact hx
        have hmemb : jj ∈ a :: t := List.mem_cons_of_mem a hjj'
        obtain ⟨h1, h2, v, hv⟩ := hP1i jj hmemb
        have hnej : jj ≠ j := fun hh => hjnotb (hh ▸ hmemb)
        have hnea : jj ≠ a := fun hh => hant (hh ▸ hjj')
        refine ⟨?_, h2, v, ?_⟩
        · show j < jj
          omega
        · show ((E.swap_cols j a).col jj).lowerBound i = some (i, v)
          rw [hswapo jj hnej hnea]
          exact hv
      · show (((p2c i).getD []).tail).Nodup
        rw [hb]
        exact htnd
      · intro c h1 h2 h3
        have h1' : j < c := h1
        have h3' : ((E.swap_cols j a).col c).get i ≠ 0 := h3
        show c ∈ ((p2c i).getD []).tail
        rw [hb]
        by_cases hca : c = a
        · exfalso
          rw [hca, hswapa] at h3'
          exact h3' (SpVec.lowerBound_none (hEcolwf j) hlbj i (le_refl i))
        · rw [hswapo c (by omega) hca] at h3'
          have hlb := SpVec.lowerBound_of_get_ne (hEcolwf c) h3'
          have hmemb : c ∈ (p2c i).getD [] :=
            hP20 c (by omega) h2 (i, (E.col c).get i) hlb
          rw [hb] at hmemb
          rcases List.mem_cons.mp hmemb with hh | hh
          · exact absurd hh hca
          · exact hh
      · intro r hr jj hjj
        have hr' : i < r := hr
        have hjj' : jj ∈ (p2c r).getD [] := hjj
        obtain ⟨h1, h2, v, hv⟩ := hP10 r (by omega) jj hjj'
        have hnej : jj ≠ j := by
          intro hh
          rw [hh, hlbj] at hv
          cases hv
        have hnea : jj ≠ a := by
          intro hh
          rw [hh, hva] at hv
          injection hv with hv2
          have hir : i = r := congrArg Prod.fst hv2
          omega
        refine ⟨h1, h2, v, ?_⟩
        show ((E.swap_cols j a).col jj).lowerBound i = some (r, v)
        rw [hswapo jj hnej hnea]
        exact hv
      · intro jj h1 h2 h3 p h4 h5
        have h1' : j ≤ jj := h1
        have h3' : jj ≠ j := h3
        have h4' : ((E.swap_cols j a).col jj).lowerBound i = some p := h4
        by_cases hca : jj = a
        · exfalso
          rw [hca, hswapa, hlbj] at h4'
          cases h4'
        · rw [hswapo jj h3' hca] at h4'
          exact hP20 jj h1' h2 p h4'
      · intro r hr
        have hr' : i < r := hr
        exact hP30 r (by omega)
      · intro r hr
        have hr' : i < r := hr
        exact hP40 r (by omega)
    | some piv =>
      obtain ⟨rj, vj⟩ := piv
      have hrj_ge : i ≤ rj := (SpVec.lowerBound_spec (hEcolwf j) hlbj).1
      have hjmem : j ∈ (p2c rj).getD [] := hP20 j (le_refl j) hjn0 (rj, vj) hlbj
      have hp2cB : ∀ rr, update_pivot (E.swap_cols j a) (delete_pivot E p2c j i) a i rr
          = if rr = rj then some ((((p2c rj).getD []).erase j) ++ [a]) else p2c rr := by
        intro rr
        have hlb2 : ((E.swap_cols j a).col a).lowerBound i = some (rj, vj) := by
          rw [hswapa]
          exact hlbj
        have hdel : ∀ x, delete_pivot E p2c j i x
            = if x = rj then some (((p2c rj).getD []).erase j) else p2c x := by
          intro x
          rw [delete_pivot_eq_some E p2c j i (rj, vj) hlbj]
        have hupd : update_pivot (E.swap_cols j a) (delete_pivot E p2c j i) a i rr
            = if rr = rj then some (((delete_pivot E p2c j i) rj).getD [] ++ [a])
              else delete_pivot E p2c j i rr := by
          rw [update_pivot_eq_some (E.swap_cols j a) (delete_pivot E p2c j i) a i
            (rj, vj) hlb2]
        rw [hupd, hdel rj, hdel rr, if_pos rfl]
        by_cases hrr : rr = rj
        · rw [if_pos hrr, if_pos hrr]
          rfl
        · rw [if_neg hrr, if_neg hrr, if_neg hrr]
      by_cases hrji : rj = i
      · subst hrji
        have hjt : j ∈ t := by
          have hx := hjmem
          rw [hb] at hx
          rcases List.mem_cons.mp hx with hh | hh
          · exact absurd hh.symm haj
          · exact hh
        have herase : (a :: t).erase j = a :: t.erase j := by
          rw [List.erase_cons, if_neg (by simp [haj])]
        refine ⟨hLr0, hLc0, hEr0, hEc0, hUr0, hUc0, hPr0, hPc0, hLw0, hE1w, hUw0, hPs1w,
          hPperm1, hij0, him0, hjn0, hplen0, hclen0, hpiv_lt0, hpiv_mono0, hEproc1,
          hEsub1, hLfix0, hLlow0, hUid0, hUup0, hM1, ?_, ?_, ?_, ?_, ?_, ?_, ?_, ?_⟩
        · refine ⟨va, ?_⟩
          show ((E.swap_cols j a).col j).lowerBound rj = some (rj, va)
          rw [hswapj]
          exact hva
        · intro jj hjj
          have hjj2 : jj ∈ ((((p2c rj).getD []).erase j) ++ [a]).tail := by
            have hx : jj ∈ ((update_pivot (E.swap_cols j a) (delete_pivot E p2c j rj)
                a rj rj).getD []).tail := hjj
            rw [hp2cB rj, if_pos rfl] at hx
            exact hx
          rw [hb, herase] at hjj2
          have hjj3 : jj ∈ t.erase j ++ [a] := hjj2
          rcases List.mem_append.mp hjj3 with hh | hh
          · have hmr := (List.Nodup.mem_erase_iff htnd).mp hh
            obtain ⟨h1, h2, v, hv⟩ := hP1i jj (List.mem_cons_of_mem a hmr.2)
            have hnea : jj ≠ a := fun hhh => hant (hhh ▸ hmr.2)
            have hnej : jj ≠ j := hmr.1
            refine ⟨?_, h2, v, ?_⟩
            · show j < jj
              omega
            · show ((E.swap_cols j a).col jj).lowerBound rj = some (rj, v)
              rw [hswapo jj hnej hnea]
              exact hv
          · have hja2 : jj = a := List.mem_singleton.mp hh
            refine ⟨?_, ?_, vj, ?_⟩
            · show j < jj
              omega
            · show jj < n
              omega
            · show ((E.swap_cols j a).col jj).lowerBound rj = some (rj, vj)
              rw [hja2, hswapa]
              exact hlbj
        · show (((update_pivot (E.swap_cols j a) (delete_pivot E p2c j rj)
              a rj rj).getD []).tail).Nodup
          rw [hp2cB rj, if_pos rfl, hb, herase]
          show (t.erase j ++ [a]).Nodup
          apply List.Nodup.append
            (List.Sublist.nodup (List.erase_sublist j t) htnd)
            (List.nodup_singleton a)
          intro x hx1 hx2
          rw [List.mem_singleton] at hx2
          subst hx2
          exact hant (List.mem_of_mem_erase hx1)
        · intro c h1 h2 h3
          have h1' : j < c := h1
          have h3' : ((E.swap_cols j a).col c).get rj ≠ 0 := h3
          show c ∈ ((update_pivot (E.swap_cols j a) (delete_pivot E p2c j rj)
              a rj rj).getD []).tail
          rw [hp2cB rj, if_pos rfl, hb, herase]
          show c ∈ t.erase j ++ [a]
          by_cases hca : c = a
          · exact List.mem_append_right _ (by rw [List.mem_singleton]; exact hca)
          · rw [hswapo c (by omega) hca] at h3'
            have hlb := SpVec.lowerBound_of_get_ne (hEcolwf c) h3'
            have hmemb : c ∈ (p2c rj).getD [] :=
              hP20 c (by omega) h2 (rj, (E.col c).get rj) hlb
            rw [hb] at hmemb
            rcases List.mem_cons.mp hmemb with hh | hh
            · exact absurd hh hca
            · exact List.mem_append_left _
                ((List.Nodup.mem_erase_iff htnd).mpr ⟨by omega, hh⟩)
        · intro r hr jj hjj
          have hr' : rj < r := hr
          have hjj' : jj ∈ (p2c r).getD [] := by
            have hx : jj ∈ ((update_pivot (E.swap_cols j a) (delete_pivot E p2c j rj)
                a rj r).getD []) := hjj
            rw [hp2cB r, if_neg (by omega)] at hx
            exact hx
          obtain ⟨h1, h2, v, hv⟩ := hP10 r (by omega) jj hjj'
          have hnej : jj ≠ j := by
            intro hh
            rw [hh, hlbj] at hv
            injection hv with hv2
            have hir : rj = r := congrArg Prod.fst hv2
            omega
          have hnea : jj ≠ a := by
            intro hh
            rw [hh, hva] at hv
            injection hv with hv2
            have hir : rj = r := congrArg Prod.fst hv2
            omega
          refine ⟨h1, h2, v, ?_⟩
          show ((E.swap_cols j a).col jj).lowerBound rj = some (r, v)
          rw [hswapo jj hnej hnea]
          exact hv
        · intro jj h1 h2 h3 p h4 h5
          have h1' : j ≤ jj := h1
          have h3' : jj ≠ j := h3
          have h5' : rj < p.1 := h5
          have h4' : ((E.swap_cols j a).col jj).lowerBound rj = some p := h4
          show jj ∈ ((update_pivot (E.swap_cols j a) (delete_pivot E p2c j rj)
              a rj p.1).getD [])
          rw [hp2cB p.1, if_neg (by omega)]
          by_cases hca : jj = a
          · exfalso
            rw [hca, hswapa, hlbj] at h4'
            injection h4' with h42
            have hip : rj = p.1 := congrArg Prod.fst h42
            omega
          · rw [hswapo jj h3' hca] at h4'
            exact hP20 jj h1' h2 p h4'
        · intro r hr
          have hr' : rj < r := hr
          show ((update_pivot (E.swap_cols j a) (delete_pivot E p2c j rj)
              a rj r).getD []).Nodup
          rw [hp2cB r, if_neg (by omega)]
          exact hP30 r (by omega)
        · intro r hr
          have hr' : rj < r := hr
          show (update_pivot (E.swap_cols j a) (delete_pivot E p2c j rj) a rj r)
            ≠ some []
          rw [hp2cB r, if_neg (by omega)]
          exact hP40 r (by omega)
      · have hirj : i < rj := by omega
        have hjnotb : j ∉ a :: t := by
          intro hh
          obtain ⟨v, hv⟩ := (hP1i j hh).2.2
          rw [hlbj] at hv
          injection hv with hv2
          have hri : rj = i := congrArg Prod.fst hv2
          omega
        have hanotrj : a ∉ (p2c rj).getD [] := by
          intro hh
          obtain ⟨h1, h2, v, hv⟩ := hP10 rj (by omega) a hh
          rw [hva] at hv
          injection hv with hv2
          have hri : i = rj := congrArg Prod.fst hv2
          omega
        have hbucki : ((update_pivot (E.swap_cols j a) (delete_pivot E p2c j i)
            a i i).getD []) = a :: t := by
          rw [hp2cB i, if_neg (fun hh => hrji hh.symm), hb]
        refine ⟨hLr0, hLc0, hEr0, hEc0, hUr0, hUc0, hPr0, hPc0, hLw0, hE1w, hUw0, hPs1w,
          hPperm1, hij0, him0, hjn0, hplen0, hclen0, hpiv_lt0, hpiv_mono0, hEproc1,
          hEsub1, hLfix0, hLlow0, hUid0, hUup0, hM1, ?_, ?_, ?_, ?_, ?_, ?_, ?_, ?_⟩
        · refine ⟨va, ?_⟩
          show ((E.swap_cols j a).col j).lowerBound i = some (i, va)
          rw [hswapj]
          exact hva
        · intro jj hjj
          have hjj' : jj ∈ t := by
            have hx : jj ∈ ((update_pivot (E.swap_cols j a) (delete_pivot E p2c j i)
                a i i).getD []).tail := hjj
            rw [hbucki] at hx
            exact hx
          have hmemb : jj ∈ a :: t := List.mem_cons_of_mem a hjj'
          obtain ⟨h1, h2, v, hv⟩ := hP1i jj hmemb
          have hnej : jj ≠ j := fun hh => hjnotb (hh ▸ hmemb)
          have hnea : jj ≠ a := fun hh => hant (hh ▸ hjj')
          refine ⟨?_, h2, v, ?_⟩
          · show j < jj
            omega
          · show ((E.swap_cols j a).col jj).lowerBound i = some (i, v)
            rw [hswapo jj hnej hnea]
            exact hv
        · show (((update_pivot (E.swap_cols j a) (delete_pivot E p2c j i)
              a i i).getD []).tail).Nodup
          rw [hbucki]
          exact htnd
        · intro c h1 h2 h3
          have h1' : j < c := h1
          have h3' : ((E.swap_cols j a).col c).get i ≠ 0 := h3
          show c ∈ ((update_pivot (E.swap_cols j a) (delete_pivot E p2c j i)
              a i i).getD []).tail
          rw [hbucki]
          by_cases hca : c = a
          · exfalso
            rw [hca, hswapa] at h3'
            have hz := (SpVec.lowerBound_spec (hEcolwf j) hlbj).2.2.2 i
              (le_refl i) (by omega)
            exact h3' hz
          · rw [hswapo c (by omega) hca] at h3'
            have hlb := SpVec.lowerBound_of_get_ne (hEcolwf c) h3'
            have hmemb : c ∈ (p2c i).getD [] :=
              hP20 c (by omega) h2 (i, (E.col c).get i) hlb
            rw [hb] at hmemb
            rcases List.mem_cons.mp hmemb with hh | hh
            · exact absurd hh hca
            · exact hh
        · intro r hr jj hjj
          have hr' : i < r := hr
          by_cases hrrj : r = rj
          · have hjj' : jj ∈ ((p2c rj).getD []).erase j ++ [a] := by
              have hx : jj ∈ ((update_pivot (E.swap_cols j a) (delete_pivot E p2c j i)
                  a i r).getD []) := hjj
              rw [hp2cB r, if_pos hrrj] at hx
              exact hx
            rcases List.mem_append.mp hjj' with hh | hh
            · have hmr := (List.Nodup.mem_erase_iff (hP30 rj (by omega))).mp hh
              obtain ⟨h1, h2, v, hv⟩ := hP10 rj (by omega) jj hmr.2
              have hnea : jj ≠ a := fun hhh => hanotrj (hhh ▸ hmr.2)
              refine ⟨h1, h2, v, ?_⟩
              show ((E.swap_cols j a).col jj).lowerBound i = some (r, v)
              rw [hswapo jj hmr.1 hnea, hrrj]
              exact hv
            · have hja2 : jj = a := List.mem_singleton.mp hh
              refine ⟨?_, ?_, vj, ?_⟩
              · show j ≤ jj
                omega
              · show jj < n
                omega
              · show ((E.swap_cols j a).col jj).lowerBound i = some (r, vj)
                rw [hja2, hswapa, hrrj]
                exact hlbj
          · have hjj' : jj ∈ (p2c r).getD [] := by
              have hx : jj ∈ ((update_pivot (E.swap_cols j a) (delete_pivot E p2c j i)
                  a i r).getD []) := hjj
              rw [hp2cB r, if_neg hrrj] at hx
              exact hx
            obtain ⟨h1, h2, v, hv⟩ := hP10 r (by omega) jj hjj'
            have hnej : jj ≠ j := by
              intro hh
              rw [hh, hlbj] at hv
              injection hv with hv2
              have hrr2 : rj = r := congrArg Prod.fst hv2
              omega
            have hnea : jj ≠ a := by
              intro hh
              rw [hh, hva] at hv
              injection hv with hv2
              have hir : i = r := congrArg Prod.fst hv2
              omega
            refine ⟨h1, h2, v, ?_⟩
            show ((E.swap_cols j a).col jj).lowerBound i = some (r, v)
            rw [hswapo jj hnej hnea]
            exact hv
        · intro jj h1 h2 h3 p h4 h5
          have h1' : j ≤ jj := h1
          have h3' : jj ≠ j := h3
          have h5' : i < p.1 := h5
          have h4' : ((E.swap_cols j a).col jj).lowerBound i = some p := h4
          show jj ∈ ((update_pivot (E.swap_cols j a) (delete_pivot E p2c j i)
              a i p.1).getD [])
          by_cases hca : jj = a
          · rw [hca, hswapa, hlbj] at h4'
            injection h4' with h42
            have hprj : p.1 = rj := by
              have hx : rj = p.1 := congrArg Prod.fst h42
              omega
            rw [hp2cB p.1, if_pos hprj]
            exact List.mem_append_right _ (by rw [List.mem_singleton]; exact hca)
          · rw [hswapo jj h3' hca] at h4'
            have hmemb := hP20 jj h1' h2 p h4'
            by_cases hprj : p.1 = rj
            · rw [hp2cB p.1, if_pos hprj]
              apply List.mem_append_left
              apply (List.Nodup.mem_erase_iff (hP30 rj (by omega))).mpr
              refine ⟨h3', ?_⟩
              rw [← hprj]
              exact hmemb
            · rw [hp2cB p.1, if_neg hprj]
              exact hmemb
        · intro r hr
          have hr' : i < r := hr
          show ((update_pivot (E.swap_cols j a) (delete_pivot E p2c j i)
              a i r).getD []).Nodup
          by_cases hrrj : r = rj
          · rw [hp2cB r, if_pos hrrj]
            show (((p2c rj).getD []).erase j ++ [a]).Nodup
            apply List.Nodup.append
              (List.Sublist.nodup (List.erase_sublist j ((p2c rj).getD []))
                (hP30 rj (by omega)))
              (List.nodup_singleton a)
            intro x hx1 hx2
            rw [List.mem_singleton] at hx2
            subst hx2
            exact hanotrj (List.mem_of_mem_erase hx1)
          · rw [hp2cB r, if_neg hrrj]
            exact hP30 r (by omega)
        · intro r hr
          have hr' : i < r := hr
          show (update_pivot (E.swap_cols j a) (delete_pivot E p2c j i) a i r)
            ≠ some []
          by_cases hrrj : r = rj
          · rw [hp2cB r, if_pos hrrj]
            intro hh
            injection hh with hh
            rcases List.append_eq_nil.mp hh with ⟨h1, h2⟩
            cases h2
          · rw [hp2cB r, if_neg hrrj]
            exact hP40 r (by omega)

theorem leup_none_inv (A : ColumnMatrix α) (m n : Nat) (s : LoopSt α)
    (h : LeupInv A m n s) (him : s.i < m) (hpc : s.p2c s.i = none) :
    LeupInv A m n { s with i := s.i + 1 } := by
  obtain ⟨⟨L, E, U, P⟩, p2c, pivs, coeff, i, j⟩ := s
  have him0 : i < m := him
  have hpc0 : p2c i = none := hpc
  have hij0 : j ≤ i := h.hij
  have hEw0 : E.wf := h.hEw
  have hEsub0 : ∀ c, j ≤ c → ∀ r, r < i → (E.col c).get r ≠ 0 →
      ∃ k, k < j ∧ pivs.getD k 0 = r := h.hEsub
  have hLfix0 : ∀ c, i ≤ c → L.col c = if c < m then [(c, 1)] else [] := h.hLfix
  have hP10 : ∀ r, i ≤ r → ∀ jj, jj ∈ (p2c r).getD [] →
      j ≤ jj ∧ jj < n ∧ ∃ v, (E.col jj).lowerBound i = some (r, v) := h.hP1
  have hP20 : ∀ jj, j ≤ jj → jj < n → ∀ p, (E.col jj).lowerBound i = some p →
      jj ∈ (p2c p.1).getD [] := h.hP2
  have hP30 : ∀ r, i ≤ r → ((p2c r).getD []).Nodup := h.hP3
  have hP40 : ∀ r, i ≤ r → p2c r ≠ some [] := h.hP4
  have hEcolwf : ∀ c, (E.col c).wf := fun c => (ColumnMatrix.col_wf E hEw0 c).1
  have hgeti : ∀ c, j ≤ c → c < n → (E.col c).get i = 0 := by
    intro c h1 h2
    by_contra hne
    have hlb := SpVec.lowerBound_of_get_ne (hEcolwf c) hne
    have hmemb : c ∈ (p2c i).getD [] := hP20 c h1 h2 (i, (E.col c).get i) hlb
    rw [hpc0] at hmemb
    cases hmemb
  refine ⟨h.hLr, h.hLc, h.hEr, h.hEc, h.hUr, h.hUc, h.hPr, h.hPc, h.hLw, h.hEw, h.hUw,
    h.hPw, h.hPperm, ?_, ?_, h.hjn, h.hplen, h.hclen, ?_, h.hpiv_mono, h.hEproc, ?_,
    ?_, h.hLlow, h.hUid, h.hUup, ?_, ?_, ?_, ?_, h.hM⟩
  · show j ≤ i + 1
    omega
  · show i + 1 ≤ m
    omega
  · intro c hc
    have hx : pivs.getD c 0 < i := h.hpiv_lt c hc
    show pivs.getD c 0 < i + 1
    omega
  · intro c hcge r hr hne
    have hcge' : j ≤ c := hcge
    have hr' : r < i + 1 := hr
    have hne' : (E.col c).get r ≠ 0 := hne
    by_cases hri : r = i
    · exfalso
      by_cases hcn : c < n
      · exact hne' (hri ▸ hgeti c hcge' hcn)
      · have hcol : E.col c = [] := by
          show E.cols.getD c [] = []
          rw [List.getD_eq_getElem?_getD]
          have h0 : E.cols[c]? = none := by
            rw [List.getElem?_eq_none]
            have hx : E.cols.length = n := by rw [hEw0.1, h.hEc]
            omega
          rw [h0]
          rfl
        rw [hcol] at hne'
        exact hne' (SpVec.get_nil r)
    · exact hEsub0 c hcge' r (by omega) hne'
  · intro c hc
    have hc' : i + 1 ≤ c := hc
    exact hLfix0 c (by omega)
  · intro r hr jj hjj
    have hr' : i + 1 ≤ r := hr
    have hjj' : jj ∈ (p2c r).getD [] := hjj
    obtain ⟨h1, h2, v, hv⟩ := hP10 r (by omega) jj hjj'
    refine ⟨h1, h2, v, ?_⟩
    show (E.col jj).lowerBound (i + 1) = some (r, v)
    have hgi : (E.col jj).get i = 0 :=
      (SpVec.lowerBound_spec (hEcolwf jj) hv).2.2.2 i (le_refl i) (by omega)
    rw [← SpVec.lowerBound_succ_of_get_eq (hEcolwf jj) hgi]
    exact hv
  · intro jj h1 h2 p h4
    have h1' : j ≤ jj := h1
    have h4' : (E.col jj).lowerBound (i + 1) = some p := h4
    have hgi : (E.col jj).get i = 0 := hgeti jj h1' h2
    have hlb : (E.col jj).lowerBound i = some p := by
      rw [SpVec.lowerBound_succ_of_get_eq (hEcolwf jj) hgi]
      exact h4'
    exact hP20 jj h1' h2 p hlb
  · intro r hr
    have hr' : i + 1 ≤ r := hr
    exact hP30 r (by omega)
  · intro r hr
    have hr' : i + 1 ≤ r := hr
    exact hP40 r (by omega)

theorem leup_body_inv (A : ColumnMatrix α) (m n : Nat) (s : LoopSt α)
    (h : LeupInv A m n s) (him : s.i < m) (hjn : s.j < n) :
    LeupInv A m n (leup_body m s) := by
  cases hpc : s.p2c s.i with
  | some bucket =>
    have hbody : leup_body m s = elim_phase m (swap_phase s (bucket.headD 0)) := by
      unfold leup_body
      rw [hpc]
    rw [hbody]
    exact elim_phase_inv A m n _ (swap_ready A m n s h him hjn bucket hpc)
  | none =>
    have hbody : leup_body m s = { s with i := s.i + 1 } := by
      unfold leup_body
      rw [hpc]
    rw [hbody]
    exact leup_none_inv A m n s h him hpc

theorem swap_phase_i (s : LoopSt α) (j2 : Nat) : (swap_phase s j2).i = s.i := by
  unfold swap_phase
  by_cases hh : j2 ≠ s.j
  · rw [if_pos hh]
  · rw [if_neg hh]

theorem swap_phase_j (s : LoopSt α) (j2 : Nat) : (swap_phase s j2).j = s.j := by
  unfold swap_phase
  by_cases hh : j2 ≠ s.j
  · rw [if_pos hh]
  · rw [if_neg hh]

theorem elim_phase_i (m : Nat) (s : LoopSt α) : (elim_phase m s).i = s.i + 1 := rfl

theorem leup_body_i (m : Nat) (s : LoopSt α) : (leup_body m s).i = s.i + 1 := by
  cases hpc : s.p2c s.i with
  | some bucket =>
    have hbody : leup_body m s = elim_phase m (swap_phase s (bucket.headD 0)) := by
      unfold leup_body
      rw [hpc]
    rw [hbody, elim_phase_i, swap_phase_i]
  | none =>
    have hbody : leup_body m s = { s with i := s.i + 1 } := by
      unfold leup_body
      rw [hpc]
    rw [hbody]

theorem leup_loop_inv (A : ColumnMatrix α) (m n fuel : Nat) (s : LoopSt α)
    (h : LeupInv A m n s) : LeupInv A m n (leup_loop m n fuel s) := by
  induction fuel generalizing s with
  | zero => exact h
  | succ f ih =>
    show LeupInv A m n (if s.i < m ∧ s.j < n then leup_loop m n f (leup_body m s) else s)
    by_cases hc : s.i < m ∧ s.j < n
    · rw [if_pos hc]
      exact ih _ (leup_body_inv A m n s h hc.1 hc.2)
    · rw [if_neg hc]
      exact h

theorem leup_loop_exit (m n fuel : Nat) (s : LoopSt α) (hfuel : m ≤ s.i + fuel) :
    ¬((leup_loop m n fuel s).i < m ∧ (leup_loop m n fuel s).j < n) := by
  induction fuel generalizing s with
  | zero =>
    intro hh
    have hx : leup_loop m n 0 s = s := rfl
    rw [hx] at hh
    omega
  | succ f ih =>
    have hx : leup_loop m n (f + 1) s
        = if s.i < m ∧ s.j < n then leup_loop m n f (leup_body m s) else s := rfl
    rw [hx]
    by_cases hc : s.i < m ∧ s.j < n
    · rw [if_pos hc]
      apply ih
      rw [leup_body_i]
      omega
    · rw [if_neg hc]
      exact hc

/-- Invariant of the trailing `while (j < n)` loop of `LEUP_inplace`: the
pivot data is frozen, every recorded column of E is a unit of its pivot
row, the columns between the pivot count and the cursor are cleared, and
the deferred product equation still holds. -/
structure FinInv (A : ColumnMatrix α) (m n : Nat) (s : LoopSt α) : Prop where
  hLr : s.F.L.nrow = m
  hLc : s.F.L.ncol = m
  hEr : s.F.E.nrow = m
  hEc : s.F.E.ncol = n
  hUr : s.F.U.nrow = n
  hUc : s.F.U.ncol = n
  hPr : s.F.P.nrow = n
  hPc : s.F.P.ncol = n
  hLw : s.F.L.wf
  hEw : s.F.E.wf
  hUw : s.F.U.wf
  hPw : s.F.P.wf
  hPperm : s.F.P.PermMat
  hjn : s.j ≤ n
  hclen : s.coeff.length = s.pivs.length
  hj1 : s.pivs.length ≤ s.j
  hpiv_lt : ∀ c, c < s.pivs.length → s.pivs.getD c 0 < m
  hpiv_mono : ∀ c1 c2, c1 < c2 → c2 < s.pivs.length →
    s.pivs.getD c1 0 < s.pivs.getD c2 0
  hEproc : ∀ c, c < s.pivs.length → ∃ a, a ≠ 0 ∧
    s.F.E.col c = [(s.pivs.getD c 0, a)] ∧ s.coeff.getD c 1 = a⁻¹
  hEmid : ∀ c, s.pivs.length ≤ c → c < s.j → s.F.E.col c = []
  hEsubf : ∀ c, s.j ≤ c → ∀ r, (s.F.E.col c).get r ≠ 0 →
    ∃ k, k < s.pivs.length ∧ s.pivs.getD k 0 = r
  hLlow : ∀ c, c < m → (s.F.L.col c).get c = 1 ∧ ∀ r, r < c → (s.F.L.col c).get r = 0
  hUid : ∀ c, s.j ≤ c → s.F.U.col c = if c < n then [(c, 1)] else []
  hUup : ∀ c, c < n → (s.F.U.col c).get c = 1 ∧
    ∀ r, r ≠ c → (s.F.U.col c).get r ≠ 0 → r < c
  hM : ∀ r c, r < m → c < n →
    ∑ l ∈ Finset.range n, (∑ k ∈ Finset.range m,
        s.F.L.entry r k * s.F.E.entry k l) * s.F.U.entry l c
      = ∑ k ∈ Finset.range n, A.entry r k * s.F.P.entry k c

theorem FinInv_of_exit (A : ColumnMatrix α) (m n : Nat) (s : LoopSt α)
    (h : LeupInv A m n s) (hexit : ¬(s.i < m ∧ s.j < n)) : FinInv A m n s := by
  obtain ⟨⟨L, E, U, P⟩, p2c, pivs, coeff, i, j⟩ := s
  have hexit0 : ¬(i < m ∧ j < n) := hexit
  have hEw0 : E.wf := h.hEw
  have hEc0 : E.ncol = n := h.hEc
  have hEr0 : E.nrow = m := h.hEr
  have him0 : i ≤ m := h.him
  have hplen0 : pivs.length = j := h.hplen
  have hclen0 : coeff.length = j := h.hclen
  have hEsub0 : ∀ c, j ≤ c → ∀ r, r < i → (E.col c).get r ≠ 0 →
      ∃ k, k < j ∧ pivs.getD k 0 = r := h.hEsub
  refine ⟨h.hLr, h.hLc, h.hEr, h.hEc, h.hUr, h.hUc, h.hPr, h.hPc, h.hLw, h.hEw, h.hUw,
    h.hPw, h.hPperm, h.hjn, ?_, ?_, ?_, ?_, ?_, ?_, ?_, h.hLlow, h.hUid, h.hUup, h.hM⟩
  · show coeff.length = pivs.length
    omega
  · show pivs.length ≤ j
    omega
  · intro c hc
    have hc' : c < pivs.length := hc
    have hx : pivs.getD c 0 < i := h.hpiv_lt c (show c < j from by omega)
    show pivs.getD c 0 < m
    rcases not_and_or.mp hexit0 with hcase | hcase
    · omega
    · -- j ≥ n: c < pivs.length = j, and pivot rows are below i ≤ m
      omega
  · intro c1 c2 h12 hc2
    have hc2' : c2 < pivs.length := hc2
    exact h.hpiv_mono c1 c2 h12 (show c2 < j from by omega)
  · intro c hc
    have hc' : c < pivs.length := hc
    exact h.hEproc c (show c < j from by omega)
  · intro c h1 h2
    have h1' : pivs.length ≤ c := h1
    have h2' : c < j := h2
    omega
  · intro c hcge r hne
    have hcge' : j ≤ c := hcge
    have hne' : (E.col c).get r ≠ 0 := hne
    by_cases hri : r < i
    · obtain ⟨k, hk, hpk⟩ := hEsub0 c hcge' r hri hne'
      exact ⟨k, show k < pivs.length from by omega, hpk⟩
    · exfalso
      rcases not_and_or.mp hexit0 with hcase | hcase
      · -- m ≤ i: any nonzero entry has row < nrow = m ≤ i ≤ r
        have hmem := SpVec.get_mem_of_ne_zero hne'
        have hb := (ColumnMatrix.col_wf E hEw0 c).2 _ hmem
        rw [hEr0] at hb
        omega
      · -- n ≤ j ≤ c: the column is out of range, hence empty
        have hcol : E.col c = [] := by
          show E.cols.getD c [] = []
          rw [List.getD_eq_getElem?_getD]
          have h0 : E.cols[c]? = none := by
            rw [List.getElem?_eq_none]
            have hx : E.cols.length = n := by rw [hEw0.1, hEc0]
            omega
          rw [h0]
          rfl
        rw [hcol] at hne'
        exact hne' (SpVec.get_nil r)

theorem finish_step_prod (A L E U P Ep Up : ColumnMatrix α) (pivs : List Nat)
    (coeff : List α) (m n j r c : Nat) (hr : r < m) (hc : c < n) (hjn : j < n)
    (hEpj : ∀ k, Ep.entry k j = 0)
    (hEpne : ∀ l, l ≠ j → ∀ k, Ep.entry k l = E.entry k l)
    (hUpj : ∀ l, Up.entry l j = (if j = l then 1 else 0) +
      (if l < pivs.length then coeff.getD l 0 * E.entry (pivs.getD l 0) j else 0))
    (hUpne : ∀ l c', c' ≠ j → Up.entry l c' = U.entry l c')
    (hj1 : pivs.length ≤ j)
    (hpiv_lt : ∀ l, l < pivs.length → pivs.getD l 0 < m)
    (hpiv_mono : ∀ l1 l2, l1 < l2 → l2 < pivs.length → pivs.getD l1 0 < pivs.getD l2 0)
    (hEprocE : ∀ l, l < pivs.length → ∃ a, a ≠ 0 ∧
      (∀ k, E.entry k l = if pivs.getD l 0 = k then a else 0) ∧ coeff.getD l 0 = a⁻¹)
    (hEsubf : ∀ k, k < m → E.entry k j ≠ 0 → ∃ l, l < pivs.length ∧ pivs.getD l 0 = k)
    (hUj : ∀ l, U.entry l j = if j = l then 1 else 0)
    (hUrow : ∀ c', c' < n → c' ≠ j → U.entry j c' = 0)
    (hM0 : ∑ l ∈ Finset.range n, (∑ k ∈ Finset.range m,
        L.entry r k * E.entry k l) * U.entry l c
      = ∑ k ∈ Finset.range n, A.entry r k * P.entry k c) :
    ∑ l ∈ Finset.range n, (∑ k ∈ Finset.range m,
        L.entry r k * Ep.entry k l) * Up.entry l c
      = ∑ k ∈ Finset.range n, A.entry r k * P.entry k c := by
  have hG : ∀ l, l ≠ j → ∑ k ∈ Finset.range m, L.entry r k * Ep.entry k l
      = ∑ k ∈ Finset.range m, L.entry r k * E.entry k l := by
    intro l hl
    apply Finset.sum_congr rfl
    intro k _
    rw [hEpne l hl k]
  have hGj : ∑ k ∈ Finset.range m, L.entry r k * Ep.entry k j = 0 := by
    rw [Finset.sum_eq_zero]
    intro k _
    rw [hEpj k, mul_zero]
  by_cases hcj : c = j
  · rw [hcj] at hM0 ⊢
    have hGproc : ∀ l, l < pivs.length →
        ∑ k ∈ Finset.range m, L.entry r k * E.entry k l
          = L.entry r (pivs.getD l 0) * (E.entry (pivs.getD l 0) l) := by
      intro l hl
      obtain ⟨a, ha, hcolE, hcf⟩ := hEprocE l hl
      have h1 : ∑ k ∈ Finset.range m, L.entry r k * E.entry k l
          = L.entry r (pivs.getD l 0) * a := by
        have hrw : ∀ k, k ∈ Finset.range m → L.entry r k * E.entry k l
            = L.entry r k * (if pivs.getD l 0 = k then a else 0) := by
          intro k _
          rw [hcolE k]
        rw [Finset.sum_congr rfl hrw]
        exact sum_mul_single m (pivs.getD l 0) (fun k => L.entry r k) a (hpiv_lt l hl)
      rw [h1, hcolE (pivs.getD l 0), if_pos rfl]
    have hterm : ∀ l, l ∈ Finset.range n →
        (∑ k ∈ Finset.range m, L.entry r k * Ep.entry k l) * Up.entry l j
          = if l < pivs.length
            then L.entry r (pivs.getD l 0) * E.entry (pivs.getD l 0) j else 0 := by
      intro l hl
      rw [hUpj l]
      by_cases hlj : l = j
      · rw [hlj, hGj, zero_mul, if_neg (by omega)]
      · rw [hG l hlj, if_neg (fun hh => hlj hh.symm), zero_add]
        by_cases hlp : l < pivs.length
        · rw [if_pos hlp, if_pos hlp, hGproc l hlp]
          obtain ⟨a, ha, hcolE, hcf⟩ := hEprocE l hlp
          rw [hcf, hcolE (pivs.getD l 0), if_pos rfl]
          field_simp
          ring
        · rw [if_neg hlp, if_neg hlp, mul_zero]
    rw [Finset.sum_congr rfl hterm]
    have hsplit : ∑ l ∈ Finset.range n, (if l < pivs.length
        then L.entry r (pivs.getD l 0) * E.entry (pivs.getD l 0) j else 0)
      = ∑ l ∈ Finset.range pivs.length,
          L.entry r (pivs.getD l 0) * E.entry (pivs.getD l 0) j :=
      sum_range_if_lt (fun l => L.entry r (pivs.getD l 0) * E.entry (pivs.getD l 0) j)
        pivs.length n (by omega)
    rw [hsplit]
    have himg : ∑ k ∈ Finset.range m, L.entry r k * E.entry k j
        = ∑ l ∈ Finset.range pivs.length,
            L.entry r (pivs.getD l 0) * E.entry (pivs.getD l 0) j := by
      apply sum_piv_image m pivs.length pivs (fun k => L.entry r k * E.entry k j)
        hpiv_lt hpiv_mono
      intro k hk hne
      apply hEsubf k hk
      intro hh
      rw [hh, mul_zero] at hne
      exact hne rfl
    rw [← himg]
    have hold : ∑ l ∈ Finset.range n, (∑ k ∈ Finset.range m,
        L.entry r k * E.entry k l) * U.entry l j
      = ∑ k ∈ Finset.range m, L.entry r k * E.entry k j := by
      have hterm2 : ∀ l, l ∈ Finset.range n →
          (∑ k ∈ Finset.range m, L.entry r k * E.entry k l) * U.entry l j
            = (∑ k ∈ Finset.range m, L.entry r k * E.entry k l) *
              (if j = l then 1 else 0) := by
        intro l _
        rw [hUj l]
      rw [Finset.sum_congr rfl hterm2,
        sum_mul_single n j (fun l => ∑ k ∈ Finset.range m, L.entry r k * E.entry k l)
          1 hjn, mul_one]
    rw [← hold]
    exact hM0
  · have hterm : ∀ l, l ∈ Finset.range n →
        (∑ k ∈ Finset.range m, L.entry r k * Ep.entry k l) * Up.entry l c
          = (fun l => (∑ k ∈ Finset.range m,
              L.entry r k * Ep.entry k l) * U.entry l c) l := by
      intro l _
      rw [hUpne l c hcj]
    rw [Finset.sum_congr rfl hterm]
    have hdiff := sum_eq_sum_add_diff_single n j
      (fun l => (∑ k ∈ Finset.range m, L.entry r k * Ep.entry k l) * U.entry l c)
      (fun l => (∑ k ∈ Finset.range m, L.entry r k * E.entry k l) * U.entry l c)
      hjn (fun l hl => by
        show (∑ k ∈ Finset.range m, L.entry r k * Ep.entry k l) * U.entry l c
          = (∑ k ∈ Finset.range m, L.entry r k * E.entry k l) * U.entry l c
        rw [hG l hl])
    rw [hdiff]
    show (∑ l ∈ Finset.range n, (∑ k ∈ Finset.range m,
        L.entry r k * E.entry k l) * U.entry l c)
      + ((∑ k ∈ Finset.range m, L.entry r k * Ep.entry k j) * U.entry j c
        - (∑ k ∈ Finset.range m, L.entry r k * E.entry k j) * U.entry j c)
      = ∑ k ∈ Finset.range n, A.entry r k * P.entry k c
    rw [hGj, zero_mul, hUrow c hc hcj, mul_zero, zero_sub, neg_zero,
      add_zero]
    exact hM0

theorem finish_step_inv (A : ColumnMatrix α) (m n : Nat) (s : LoopSt α)
    (h : FinInv A m n s) (hjn : s.j < n) :
    FinInv A m n { s with
      F := { s.F with
        U := s.F.U.setCol s.j ((s.F.U.col s.j).axpyLazy (s.F.E.col s.j) s.coeff s.pivs),
        E := s.F.E.setCol s.j [] },
      j := s.j + 1 } := by
  obtain ⟨⟨L, E, U, P⟩, p2c, pivs, coeff, i, j⟩ := s
  have hjn0 : j < n := hjn
  have hLr0 : L.nrow = m := h.hLr
  have hLc0 : L.ncol = m := h.hLc
  have hEr0 : E.nrow = m := h.hEr
  have hEc0 : E.ncol = n := h.hEc
  have hUr0 : U.nrow = n := h.hUr
  have hUc0 : U.ncol = n := h.hUc
  have hLw0 : L.wf := h.hLw
  have hEw0 : E.wf := h.hEw
  have hUw0 : U.wf := h.hUw
  have hclen0 : coeff.length = pivs.length := h.hclen
  have hj10 : pivs.length ≤ j := h.hj1
  have hpiv_lt0 : ∀ c, c < pivs.length → pivs.getD c 0 < m := h.hpiv_lt
  have hpiv_mono0 : ∀ c1 c2, c1 < c2 → c2 < pivs.length →
      pivs.getD c1 0 < pivs.getD c2 0 := h.hpiv_mono
  have hEproc0 : ∀ c, c < pivs.length → ∃ a, a ≠ 0 ∧
      E.col c = [(pivs.getD c 0, a)] ∧ coeff.getD c 1 = a⁻¹ := h.hEproc
  have hEmid0 : ∀ c, pivs.length ≤ c → c < j → E.col c = [] := h.hEmid
  have hEsubf0 : ∀ c, j ≤ c → ∀ r, (E.col c).get r ≠ 0 →
      ∃ k, k < pivs.length ∧ pivs.getD k 0 = r := h.hEsubf
  have hUid0 : ∀ c, j ≤ c → U.col c = if c < n then [(c, 1)] else [] := h.hUid
  have hUup0 : ∀ c, c < n → (U.col c).get c = 1 ∧
      ∀ r, r ≠ c → (U.col c).get r ≠ 0 → r < c := h.hUup
  have hM0 : ∀ r c, r < m → c < n →
      ∑ l ∈ Finset.range n, (∑ k ∈ Finset.range m,
          L.entry r k * E.entry k l) * U.entry l c
        = ∑ k ∈ Finset.range n, A.entry r k * P.entry k c := h.hM
  have hjcolsE : j < E.cols.length := by rw [hEw0.1]; omega
  have hjcolsU : j < U.cols.length := by rw [hUw0.1]; omega
  have hEcolj : (E.setCol j []).col j = [] := by
    rw [ColumnMatrix.col_setCol, if_pos ⟨rfl, hjcolsE⟩]
  have hEcoln : ∀ c, c ≠ j → (E.setCol j []).col c = E.col c := by
    intro c hc
    rw [ColumnMatrix.col_setCol, if_neg (fun hh => hc hh.1)]
  have hUcolj : (U.setCol j ((U.col j).axpyLazy (E.col j) coeff pivs)).col j
      = (U.col j).axpyLazy (E.col j) coeff pivs := by
    rw [ColumnMatrix.col_setCol, if_pos ⟨rfl, hjcolsU⟩]
  have hUcoln : ∀ c, c ≠ j →
      (U.setCol j ((U.col j).axpyLazy (E.col j) coeff pivs)).col c = U.col c := by
    intro c hc
    rw [ColumnMatrix.col_setCol, if_neg (fun hh => hc hh.1)]
  have hUjcol : U.col j = [(j, 1)] := by
    rw [hUid0 j (le_refl j), if_pos hjn0]
  have hgetD01 : ∀ l, l < pivs.length → coeff.getD l 0 = coeff.getD l 1 := by
    intro l hl
    rw [List.getD_eq_getElem?_getD, List.getD_eq_getElem?_getD,
      List.getElem?_eq_getElem (show l < coeff.length from by omega)]
    rfl
  show FinInv A m n ⟨⟨L, E.setCol j [],
    U.setCol j ((U.col j).axpyLazy (E.col j) coeff pivs), P⟩, p2c, pivs, coeff, i, j + 1⟩
  refine ⟨hLr0, hLc0, hEr0, hEc0, hUr0, hUc0, h.hPr, h.hPc, hLw0, ?_, ?_, h.hPw,
    h.hPperm, ?_, hclen0, ?_, hpiv_lt0, hpiv_mono0, ?_, ?_, ?_, h.hLlow, ?_, ?_, ?_⟩
  · exact ColumnMatrix.wf_setCol E hEw0 j []
      ⟨List.Pairwise.nil, fun p hp => absurd hp (List.not_mem_nil p)⟩
      (fun p hp => absurd hp (List.not_mem_nil p))
  · exact ColumnMatrix.wf_setCol U hUw0 j _ (SpVec.wf_axpyLazy _ _ _ _)
      (SpVec.axpyLazy_bound (fun p hp => (ColumnMatrix.col_wf U hUw0 j).2 p hp)
        (by omega))
  · show j + 1 ≤ n
    omega
  · show pivs.length ≤ j + 1
    omega
  · intro c hc
    have hc' : c < pivs.length := hc
    show ∃ a, a ≠ 0 ∧ (E.setCol j []).col c = [(pivs.getD c 0, a)] ∧
      coeff.getD c 1 = a⁻¹
    obtain ⟨a, ha, hcol, hcf⟩ := hEproc0 c hc'
    refine ⟨a, ha, ?_, hcf⟩
    rw [hEcoln c (by omega)]
    exact hcol
  · intro c h1 h2
    have h1' : pivs.length ≤ c := h1
    have h2' : c < j + 1 := h2
    show (E.setCol j []).col c = []
    by_cases hcj : c = j
    · rw [hcj]
      exact hEcolj
    · rw [hEcoln c hcj]
      exact hEmid0 c h1' (by omega)
  · intro c hcge r hne
    have hcge' : j + 1 ≤ c := hcge
    have hne' : ((E.setCol j []).col c).get r ≠ 0 := hne
    rw [hEcoln c (by omega)] at hne'
    obtain ⟨k, hk, hpk⟩ := hEsubf0 c (by omega) r hne'
    exact ⟨k, hk, hpk⟩
  · intro c hc
    have hc' : j + 1 ≤ c := hc
    show (U.setCol j ((U.col j).axpyLazy (E.col j) coeff pivs)).col c
      = if c < n then [(c, 1)] else []
    rw [hUcoln c (by omega)]
    exact hUid0 c (by omega)
  · intro c hc
    show ((U.setCol j ((U.col j).axpyLazy (E.col j) coeff pivs)).col c).get c = 1 ∧
      ∀ r, r ≠ c →
        ((U.setCol j ((U.col j).axpyLazy (E.col j) coeff pivs)).col c).get r ≠ 0 →
          r < c
    by_cases hcj : c = j
    · rw [hcj]
      constructor
      · rw [hUcolj, SpVec.get_axpyLazy, hUjcol, SpVec.get_single, if_pos rfl,
          if_neg (fun hh : j < coeff.length ∧ j < pivs.length => by omega), add_zero]
      · intro r hrj hne
        rw [hUcolj, SpVec.get_axpyLazy, hUjcol, SpVec.get_single,
          if_neg (fun hh => hrj hh.symm)] at hne
        by_contra hc2
        rw [if_neg (fun hh : r < coeff.length ∧ r < pivs.length => by omega),
          add_zero] at hne
        exact hne rfl
    · constructor
      · rw [hUcoln c hcj]
        exact (hUup0 c hc).1
      · intro r hrc hne
        rw [hUcoln c hcj] at hne
        exact (hUup0 c hc).2 r hrc hne
  · intro r c hr hc
    have hEpj : ∀ k, (E.setCol j []).entry k j = 0 := by
      intro k
      show ((E.setCol j []).col j).get k = 0
      rw [hEcolj]
      exact SpVec.get_nil k
    have hEpne : ∀ l, l ≠ j → ∀ k, (E.setCol j []).entry k l = E.entry k l := by
      intro l hl k
      show ((E.setCol j []).col l).get k = (E.col l).get k
      rw [hEcoln l hl]
    have hUpj : ∀ l, (U.setCol j ((U.col j).axpyLazy (E.col j) coeff pivs)).entry l j
        = (if j = l then 1 else 0) +
          (if l < pivs.length then coeff.getD l 0 * E.entry (pivs.getD l 0) j
            else 0) := by
      intro l
      show ((U.setCol j ((U.col j).axpyLazy (E.col j) coeff pivs)).col j).get l = _
      rw [hUcolj, SpVec.get_axpyLazy, hUjcol, SpVec.get_single]
      congr 1
      by_cases hlp : l < pivs.length
      · rw [if_pos (show l < coeff.length ∧ l < pivs.length from by omega), if_pos hlp]
        rfl
      · rw [if_neg (fun hh : l < coeff.length ∧ l < pivs.length => by omega),
          if_neg hlp]
    have hUpne : ∀ l c', c' ≠ j →
        (U.setCol j ((U.col j).axpyLazy (E.col j) coeff pivs)).entry l c'
          = U.entry l c' := by
      intro l c' hc'
      show ((U.setCol j ((U.col j).axpyLazy (E.col j) coeff pivs)).col c').get l
        = (U.col c').get l
      rw [hUcoln c' hc']
    have hEprocE : ∀ l, l < pivs.length → ∃ a, a ≠ 0 ∧
        (∀ k, E.entry k l = if pivs.getD l 0 = k then a else 0) ∧
          coeff.getD l 0 = a⁻¹ := by
      intro l hl
      obtain ⟨a, ha, hcol, hcf⟩ := hEproc0 l hl
      refine ⟨a, ha, ?_, ?_⟩
      · intro k
        show (E.col l).get k = _
        rw [hcol, SpVec.get_single]
      · rw [hgetD01 l hl]
        exact hcf
    have hEsubfj : ∀ k, k < m → E.entry k j ≠ 0 →
        ∃ l, l < pivs.length ∧ pivs.getD l 0 = k := by
      intro k hk hne
      exact hEsubf0 j (le_refl j) k hne
    have hUj : ∀ l, U.entry l j = if j = l then 1 else 0 := by
      intro l
      show (U.col j).get l = _
      rw [hUjcol, SpVec.get_single]
    have hUrow : ∀ c', c' < n → c' ≠ j → U.entry j c' = 0 := by
      intro c' h1 h2
      by_cases hcj2 : c' < j
      · by_contra hne
        have := (hUup0 c' h1).2 j (fun hh => h2 hh.symm) hne
        omega
      · show (U.col c').get j = 0
        rw [hUid0 c' (by omega), if_pos h1, SpVec.get_single, if_neg h2]
    exact finish_step_prod A L E U P _ _ pivs coeff m n j r c hr hc hjn0
      hEpj hEpne hUpj hUpne hj10 hpiv_lt0 hpiv_mono0 hEprocE hEsubfj hUj hUrow
      (hM0 r c hr hc)

theorem leup_finish_inv (A : ColumnMatrix α) (m n fuel : Nat) (s : LoopSt α)
    (h : FinInv A m n s) : FinInv A m n (leup_finish n fuel s) := by
  induction fuel generalizing s with
  | zero => exact h
  | succ f ih =>
    show FinInv A m n (if s.j < n then leup_finish n f { s with
      F := { s.F with
        U := s.F.U.setCol s.j ((s.F.U.col s.j).axpyLazy (s.F.E.col s.j) s.coeff s.pivs),
        E := s.F.E.setCol s.j [] },
      j := s.j + 1 } else s)
    by_cases hc : s.j < n
    · rw [if_pos hc]
      exact ih _ (finish_step_inv A m n s h hc)
    · rw [if_neg hc]
      exact h

theorem leup_finish_exit (n fuel : Nat) (s : LoopSt α) (hfuel : n ≤ s.j + fuel) :
    n ≤ (leup_finish n fuel s).j := by
  induction fuel generalizing s with
  | zero =>
    have hx : leup_finish n 0 s = s := rfl
    rw [hx]
    omega
  | succ f ih =>
    show n ≤ (if s.j < n then leup_finish n f { s with
      F := { s.F with
        U := s.F.U.setCol s.j ((s.F.U.col s.j).axpyLazy (s.F.E.col s.j) s.coeff s.pivs),
        E := s.F.E.setCol s.j [] },
      j := s.j + 1 } else s).j
    by_cases hc : s.j < n
    · rw [if_pos hc]
      apply ih
      show n ≤ s.j + 1 + f
      omega
    · rw [if_neg hc]
      omega

theorem filterMap_range_split {β : Type} (f : Nat → Option β) (g : Nat → β)
    (n t : Nat) (ht : t ≤ n)
    (h1 : ∀ j, j < t → f j = some (g j))
    (h2 : ∀ j, t ≤ j → j < n → f j = none) :
    (List.range n).filterMap f = (List.range t).map g := by
  induction n generalizing t with
  | zero =>
    have ht0 : t = 0 := by omega
    rw [ht0]
    rfl
  | succ k ih =>
    by_cases htk : t ≤ k
    · rw [List.range_succ, List.filterMap_append,
        ih t htk h1 (fun j hj1 hj2 => h2 j hj1 (by omega))]
      have hk : List.filterMap f [k] = [] := by
        rw [List.filterMap_cons_none (h2 k (by omega) (by omega))]
        rfl
      rw [hk, List.append_nil]
    · have htk2 : t = k + 1 := by omega
      subst htk2
      rw [List.range_succ, List.filterMap_append, List.map_append,
        ih k (by omega) (fun j hj => h1 j (by omega))
          (fun j hj1 hj2 => absurd hj2 (by omega))]
      congr 1
      rw [List.filterMap_cons_some (h1 k (by omega))]
      rfl

theorem is_lower_of_cols (L : ColumnMatrix α) (hw : L.wf)
    (h : ∀ c, c < L.ncol → ∀ r, r < c → (L.col c).get r = 0) :
    L.is_lower = true := by
  unfold ColumnMatrix.is_lower
  rw [List.all_eq_true]
  intro j hj
  have hj' : j < L.ncol := List.mem_range.mp hj
  rw [List.all_eq_true]
  intro p hp
  have hget : (L.col j).get p.1 = p.2 :=
    SpVec.get_of_mem (ColumnMatrix.col_wf L hw j).1
      (show (p.1, p.2) ∈ L.col j from hp)
  have hne : p.2 ≠ 0 := (ColumnMatrix.col_wf L hw j).1.2 p hp
  simp only [decide_eq_true_eq]
  by_contra hlt
  have h0 := h j hj' p.1 (by omega)
  rw [hget] at h0
  exact hne h0

theorem is_upper_of_cols (U : ColumnMatrix α) (hw : U.wf)
    (h : ∀ c, c < U.ncol → ∀ r, r ≠ c → (U.col c).get r ≠ 0 → r < c) :
    U.is_upper = true := by
  unfold ColumnMatrix.is_upper
  rw [List.all_eq_true]
  intro j hj
  have hj' : j < U.ncol := List.mem_range.mp hj
  rw [List.all_eq_true]
  intro p hp
  have hget : (U.col j).get p.1 = p.2 :=
    SpVec.get_of_mem (ColumnMatrix.col_wf U hw j).1
      (show (p.1, p.2) ∈ U.col j from hp)
  have hne : p.2 ≠ 0 := (ColumnMatrix.col_wf U hw j).1.2 p hp
  simp only [decide_eq_true_eq]
  by_cases hpj : p.1 = j
  · omega
  · have hlt := h j hj' p.1 hpj (by rw [hget]; exact hne)
    omega

theorem is_pivot_matrix_of_PermMat (P : ColumnMatrix α) (hP : P.PermMat) (hw : P.wf) :
    P.is_pivot_matrix = true := by
  obtain ⟨hsq, σ, hcol, hinj⟩ := hP
  have hsurj := permFn_surj P.ncol σ (fun c hc => (hcol c hc).1) hinj
  unfold ColumnMatrix.is_pivot_matrix
  rw [Bool.and_eq_true]
  constructor
  · rw [List.all_eq_true]
    intro j hj
    have hj' : j < P.ncol := List.mem_range.mp hj
    show (match P.col j with
      | [(_, a)] => decide (a = 1)
      | _ => false) = true
    rw [(hcol j hj').2]
    exact decide_eq_true rfl
  · rw [List.all_eq_true]
    intro r hr
    have hr' : r < P.nrow := List.mem_range.mp hr
    have hrn : r < P.ncol := by omega
    have hcols : P.cols = (List.range P.ncol).map (fun c => [(σ c, (1 : α))]) := by
      apply List.ext_getElem
      · rw [hw.1, List.length_map, List.length_range]
      · intro i h1 h2
        have hi : i < P.ncol := by rw [hw.1] at h1; exact h1
        have hget : P.cols[i] = P.col i := by
          show P.cols[i] = P.cols.getD i []
          rw [List.getD_eq_getElem?_getD, List.getElem?_eq_getElem h1]
          rfl
        rw [hget, (hcol i hi).2, List.getElem_map, List.getElem_range]
    show ((((P.cols.filterMap List.head?).map Prod.fst).count r) == 1) = true
    rw [hcols, List.filterMap_map]
    have hfm : (List.range P.ncol).filterMap
        (List.head? ∘ (fun c => [(σ c, (1 : α))]))
        = (List.range P.ncol).map (fun c => (σ c, (1 : α))) := by
      rw [show (List.head? ∘ (fun c => [(σ c, (1 : α))]))
          = (some ∘ (fun c => (σ c, (1 : α)))) from rfl]
      rw [List.filterMap_eq_map]
    rw [hfm, List.map_map]
    have hnd : ((List.range P.ncol).map (Prod.fst ∘ fun c => (σ c, (1 : α)))).Nodup := by
      apply List.Nodup.map_on ?_ (List.nodup_range P.ncol)
      intro x hx y hy hxy
      exact hinj x y (List.mem_range.mp hx) (List.mem_range.mp hy) hxy
    have hmem : r ∈ (List.range P.ncol).map (Prod.fst ∘ fun c => (σ c, (1 : α))) := by
      obtain ⟨c, hc, hcr⟩ := hsurj r hrn
      rw [List.mem_map]
      exact ⟨c, List.mem_range.mpr hc, hcr⟩
    rw [List.count_eq_one_of_mem hnd hmem]
    rfl

/-- Master correctness of `LEUP`: reconstruction, well-formedness, shapes
and dimensions of all four factors, over any field. -/
theorem LEUP_spec (A : ColumnMatrix α) (hA : A.wf) :
    (LEUP A).L * (LEUP A).E * (LEUP A).U * (LEUP A).P = A
    ∧ (LEUP A).L.wf ∧ (LEUP A).E.wf ∧ (LEUP A).U.wf ∧ (LEUP A).P.wf
    ∧ (LEUP A).L.nrow = A.nrow ∧ (LEUP A).L.ncol = A.nrow
    ∧ (LEUP A).E.nrow = A.nrow ∧ (LEUP A).E.ncol = A.ncol
    ∧ (LEUP A).U.nrow = A.ncol ∧ (LEUP A).U.ncol = A.ncol
    ∧ (LEUP A).P.nrow = A.ncol ∧ (LEUP A).P.ncol = A.ncol
    ∧ (LEUP A).P.PermMat
    ∧ (LEUP A).L.is_lower = true ∧ (∀ c, c < A.nrow → (LEUP A).L.entry c c = 1)
    ∧ (LEUP A).U.is_upper = true ∧ (∀ c, c < A.ncol → (LEUP A).U.entry c c = 1)
    ∧ (LEUP A).P.is_pivot_matrix = true
    ∧ (LEUP A).E.is_EL = true := by
  obtain ⟨s2, hs2⟩ : ∃ s2, s2 = leup_finish A.ncol A.ncol
      (leup_loop A.nrow A.ncol A.nrow
        ⟨⟨ColumnMatrix.identity A.nrow, A, ColumnMatrix.identity A.ncol,
          ColumnMatrix.identity A.ncol⟩, get_pivots A, [], [], 0, 0⟩) := ⟨_, rfl⟩
  have hLEUP : LEUP A = ⟨s2.F.L, s2.F.E, s2.F.U, s2.F.P.T⟩ := by
    rw [hs2]
    rfl
  have h3 : FinInv A A.nrow A.ncol s2 := by
    rw [hs2]
    apply leup_finish_inv
    apply FinInv_of_exit A A.nrow A.ncol _
      (leup_loop_inv A A.nrow A.ncol A.nrow _ (LeupInv_init A hA))
    exact leup_loop_exit A.nrow A.ncol A.nrow _ (show A.nrow ≤ 0 + A.nrow from by omega)
  have hjend : A.ncol ≤ s2.j := by
    rw [hs2]
    exact leup_finish_exit A.ncol A.ncol _ (by omega)
  obtain ⟨hLr, hLc, hEr, hEc, hUr, hUc, hPr, hPc, hLw, hEw, hUw, hPw, hPperm, hjn,
    hclen, hj1, hpiv_lt, hpiv_mono, hEproc, hEmid, hEsubf, hLlow, hUid, hUup, hM⟩ := h3
  have hprod : s2.F.L * s2.F.E * s2.F.U = A * s2.F.P := by
    apply ColumnMatrix.ext_entry ?_ ?_ ?_ ?_ ?_
    · exact ColumnMatrix.wf_mul _ _
    · exact ColumnMatrix.wf_mul _ _
    · show (s2.F.L * s2.F.E * s2.F.U).nrow = (A * s2.F.P).nrow
      rw [ColumnMatrix.nrow_mul, ColumnMatrix.nrow_mul, ColumnMatrix.nrow_mul]
      exact hLr
    · show (s2.F.L * s2.F.E * s2.F.U).ncol = (A * s2.F.P).ncol
      rw [ColumnMatrix.ncol_mul, ColumnMatrix.ncol_mul, hUc, hPc]
    · intro r c
      rw [ColumnMatrix.entry_mul (s2.F.L * s2.F.E) s2.F.U r c,
        ColumnMatrix.entry_mul A s2.F.P r c,
        ColumnMatrix.nrow_mul, ColumnMatrix.ncol_mul, hLr, hUc, hPc, hEc]
      by_cases hin : r < A.nrow ∧ c < A.ncol
      · rw [if_pos hin, if_pos hin]
        have hpt : ∀ l, l ∈ Finset.range A.ncol →
            (s2.F.L * s2.F.E).entry r l * s2.F.U.entry l c
              = (∑ k ∈ Finset.range A.nrow,
                  s2.F.L.entry r k * s2.F.E.entry k l) * s2.F.U.entry l c := by
          intro l hl
          have hl' : l < A.ncol := Finset.mem_range.mp hl
          rw [ColumnMatrix.entry_mul s2.F.L s2.F.E r l,
            if_pos (show r < s2.F.L.nrow ∧ l < s2.F.E.ncol from by omega), hLc]
        rw [Finset.sum_congr rfl hpt]
        exact hM r c hin.1 hin.2
      · rw [if_neg hin, if_neg hin]
  have hPTw : s2.F.P.T.wf := ColumnMatrix.wf_T _
  have hPTperm : s2.F.P.T.PermMat := ColumnMatrix.PermMat_T _ hPperm hPw
  have hfinal : s2.F.L * s2.F.E * s2.F.U * s2.F.P.T = A := by
    rw [hprod, ColumnMatrix.mul_assoc3 A s2.F.P s2.F.P.T hPw,
      ColumnMatrix.PermMat_mul_T s2.F.P hPperm hPw, hPc]
    exact ColumnMatrix.mul_identity A hA
  have hISL : s2.F.L.is_lower = true := by
    apply is_lower_of_cols s2.F.L hLw
    intro c hc r hr
    exact (hLlow c (by omega)).2 r hr
  have hUnitL : ∀ c, c < A.nrow → s2.F.L.entry c c = 1 := fun c hc => (hLlow c hc).1
  have hISU : s2.F.U.is_upper = true := by
    apply is_upper_of_cols s2.F.U hUw
    intro c hc r hrne hne
    exact (hUup c (by omega)).2 r hrne hne
  have hUnitU : ∀ c, c < A.ncol → s2.F.U.entry c c = 1 := fun c hc => (hUup c hc).1
  have hISP : s2.F.P.T.is_pivot_matrix = true :=
    is_pivot_matrix_of_PermMat _ hPTperm hPTw
  have hISEL : s2.F.E.is_EL = true := by
    have hfm : (List.range A.ncol).filterMap (pivot_ind s2.F.E)
        = (List.range s2.pivs.length).map (fun l => s2.pivs.getD l 0) := by
      apply filterMap_range_split (pivot_ind s2.F.E) (fun l => s2.pivs.getD l 0)
        A.ncol s2.pivs.length (by omega)
      · intro j hj
        obtain ⟨a, ha, hcol, hcf⟩ := hEproc j hj
        unfold pivot_ind
        rw [hcol]
        rfl
      · intro j h1 h2
        unfold pivot_ind
        rw [hEmid j h1 (by omega)]
        rfl
    show ltChain ((List.range s2.F.E.ncol).filterMap (pivot_ind s2.F.E)) = true
    rw [hEc, hfm, ltChain_iff]
    apply List.Pairwise.chain'
    rw [List.pairwise_map]
    apply List.Pairwise.imp_of_mem ?_ (List.pairwise_lt_range s2.pivs.length)
    intro a b ha hb hab
    exact hpiv_mono a b hab (List.mem_range.mp hb)
  rw [hLEUP]
  exact ⟨hfinal, hLw, hEw, hUw, hPTw, hLr, hLc, hEr, hEc, hUr, hUc, hPc, hPr,
    hPTperm, hISL, hUnitL, hISU, hUnitU, hISP, hISEL⟩

theorem is_upper_entries (U : ColumnMatrix α) (h : U.is_upper = true) :
    ∀ r c, c < U.ncol → U.entry r c ≠ 0 → r ≤ c := by
  intro r c hc hne
  unfold ColumnMatrix.is_upper at h
  rw [List.all_eq_true] at h
  have h2 := h c (List.mem_range.mpr hc)
  rw [List.all_eq_true] at h2
  have hmem : (r, U.entry r c) ∈ U.col c := SpVec.get_mem_of_ne_zero hne
  have h3 := h2 _ hmem
  simp only [decide_eq_true_eq] at h3
  exact h3

theorem is_lower_entries (L : ColumnMatrix α) (h : L.is_lower = true) :
    ∀ r c, c < L.ncol → L.entry r c ≠ 0 → c ≤ r := by
  intro r c hc hne
  unfold ColumnMatrix.is_lower at h
  rw [List.all_eq_true] at h
  have h2 := h c (List.mem_range.mpr hc)
  rw [List.all_eq_true] at h2
  have hmem : (r, L.entry r c) ∈ L.col c := SpVec.get_mem_of_ne_zero hne
  have h3 := h2 _ hmem
  simp only [decide_eq_true_eq] at h3
  exact h3

theorem is_lower_T (U : ColumnMatrix α) (h : U.is_upper = true) :
    U.T.is_lower = true := by
  apply is_lower_of_cols U.T (ColumnMatrix.wf_T U)
  intro c hc r hr
  show U.T.entry r c = 0
  rw [ColumnMatrix.entry_T]
  by_cases hb : r < U.ncol ∧ c < U.nrow
  · rw [if_pos hb]
    by_contra hne
    have := is_upper_entries U h c r hb.1 hne
    omega
  · rw [if_neg hb]

theorem is_upper_T (L : ColumnMatrix α) (h : L.is_lower = true) :
    L.T.is_upper = true := by
  apply is_upper_of_cols L.T (ColumnMatrix.wf_T L)
  intro c hc r hrne hne
  have hne' : L.T.entry r c ≠ 0 := hne
  rw [ColumnMatrix.entry_T] at hne'
  by_cases hb : r < L.ncol ∧ c < L.nrow
  · rw [if_pos hb] at hne'
    have := is_lower_entries L h c r hb.1 hne'
    omega
  · rw [if_neg hb] at hne'
    exact absurd rfl hne'

theorem is_lower_J (U : ColumnMatrix α) (hsq : U.nrow = U.ncol)
    (h : U.is_upper = true) : U.J.is_lower = true := by
  apply is_lower_of_cols U.J (ColumnMatrix.wf_J U)
  intro c hc r hr
  show U.J.entry r c = 0
  rw [ColumnMatrix.entry_J]
  by_cases hb : r < U.nrow ∧ c < U.ncol
  · rw [if_pos hb]
    by_contra hne
    have hcn : U.ncol - 1 - c < U.ncol := by omega
    have := is_upper_entries U h (U.nrow - 1 - r) (U.ncol - 1 - c) hcn hne
    omega
  · rw [if_neg hb]

theorem is_upper_J (L : ColumnMatrix α) (hsq : L.nrow = L.ncol)
    (h : L.is_lower = true) : L.J.is_upper = true := by
  apply is_upper_of_cols L.J (ColumnMatrix.wf_J L)
  intro c hc r hrne hne
  have hne' : L.J.entry r c ≠ 0 := hne
  rw [ColumnMatrix.entry_J] at hne'
  by_cases hb : r < L.nrow ∧ c < L.ncol
  · rw [if_pos hb] at hne'
    have hcn : L.ncol - 1 - c < L.ncol := by omega
    have := is_lower_entries L h (L.nrow - 1 - r) (L.ncol - 1 - c) hcn hne'
    omega
  · rw [if_neg hb] at hne'
    exact absurd rfl hne'

theorem diag_T (X : ColumnMatrix α) (h : ∀ c, c < X.ncol → X.entry c c = 1) :
    ∀ c, c < X.ncol → c < X.nrow → X.T.entry c c = 1 := by
  intro c h1 h2
  rw [ColumnMatrix.entry_T, if_pos ⟨h1, h2⟩]
  exact h c h1

theorem diag_J (X : ColumnMatrix α) (hsq : X.nrow = X.ncol)
    (h : ∀ c, c < X.ncol → X.entry c c = 1) :
    ∀ c, c < X.ncol → X.J.entry c c = 1 := by
  intro c h1
  rw [ColumnMatrix.entry_J, if_pos ⟨by omega, h1⟩]
  have heq : X.nrow - 1 - c = X.ncol - 1 - c := by omega
  rw [heq]
  exact h _ (by omega)

theorem PLEU_prod (A : ColumnMatrix α) (hA : A.wf) :
    (PLEU A).P * (PLEU A).L * (PLEU A).E * (PLEU A).U = A := by
  obtain ⟨hprod, hLw, hEw, hUw, hPw, _⟩ := LEUP_spec A.T (ColumnMatrix.wf_T A)
  show (LEUP A.T).P.T * (LEUP A.T).U.T * (LEUP A.T).E.T * (LEUP A.T).L.T = A
  have h2 := congrArg ColumnMatrix.T hprod
  rw [ColumnMatrix.T_mul _ _ (ColumnMatrix.wf_mul _ _) hPw,
    ColumnMatrix.T_mul _ _ (ColumnMatrix.wf_mul _ _) hUw,
    ColumnMatrix.T_mul _ _ hLw hEw, ColumnMatrix.T_T A hA] at h2
  rw [ColumnMatrix.mul_assoc3 ((LEUP A.T).P.T * (LEUP A.T).U.T) (LEUP A.T).E.T
      (LEUP A.T).L.T (ColumnMatrix.wf_T _),
    ColumnMatrix.mul_assoc3 (LEUP A.T).P.T (LEUP A.T).U.T
      ((LEUP A.T).E.T * (LEUP A.T).L.T) (ColumnMatrix.wf_T _)]
  exact h2

theorem UELP_prod (A : ColumnMatrix α) (hA : A.wf) :
    (UELP A).U * (UELP A).E * (UELP A).L * (UELP A).P = A := by
  obtain ⟨hprod, hLw, hEw, hUw, hPw, hLr, hLc, hEr, hEc, hUr, hUc, hPr, hPc, _⟩ :=
    LEUP_spec A.J (ColumnMatrix.wf_J A)
  show (LEUP A.J).L.J * (LEUP A.J).E.J * (LEUP A.J).U.J * (LEUP A.J).P.J = A
  have h2 := congrArg ColumnMatrix.J hprod
  rw [ColumnMatrix.J_mul _ _ (ColumnMatrix.wf_mul _ _) hPw
      (by rw [ColumnMatrix.ncol_mul, hUc, hPr]),
    ColumnMatrix.J_mul _ _ (ColumnMatrix.wf_mul _ _) hUw
      (by rw [ColumnMatrix.ncol_mul, hEc, hUr]),
    ColumnMatrix.J_mul _ _ hLw hEw (by rw [hLc, hEr]),
    ColumnMatrix.J_J A hA] at h2
  exact h2

theorem PUEL_prod (A : ColumnMatrix α) (hA : A.wf) :
    (PUEL A).P * (PUEL A).U * (PUEL A).E * (PUEL A).L = A := by
  obtain ⟨hprod, hLw, hEw, hUw, hPw, hLr, hLc, hEr, hEc, hUr, hUc, hPr, hPc, _⟩ :=
    LEUP_spec (A.J.T) (ColumnMatrix.wf_T A.J)
  show (LEUP (A.J.T)).P.T.J * (LEUP (A.J.T)).U.T.J * (LEUP (A.J.T)).E.T.J
    * (LEUP (A.J.T)).L.T.J = A
  have h2 := congrArg ColumnMatrix.T hprod
  rw [ColumnMatrix.T_mul _ _ (ColumnMatrix.wf_mul _ _) hPw,
    ColumnMatrix.T_mul _ _ (ColumnMatrix.wf_mul _ _) hUw,
    ColumnMatrix.T_mul _ _ hLw hEw,
    ColumnMatrix.T_T A.J (ColumnMatrix.wf_J A)] at h2
  have h3 : (LEUP (A.J.T)).P.T * (LEUP (A.J.T)).U.T * (LEUP (A.J.T)).E.T
      * (LEUP (A.J.T)).L.T = A.J := by
    rw [ColumnMatrix.mul_assoc3 ((LEUP (A.J.T)).P.T * (LEUP (A.J.T)).U.T)
        (LEUP (A.J.T)).E.T (LEUP (A.J.T)).L.T (ColumnMatrix.wf_T _),
      ColumnMatrix.mul_assoc3 (LEUP (A.J.T)).P.T (LEUP (A.J.T)).U.T
        ((LEUP (A.J.T)).E.T * (LEUP (A.J.T)).L.T) (ColumnMatrix.wf_T _)]
    exact h2
  have h4 := congrArg ColumnMatrix.J h3
  rw [ColumnMatrix.J_mul _ _ (ColumnMatrix.wf_mul _ _) (ColumnMatrix.wf_T _)
      (by rw [ColumnMatrix.ncol_mul, ColumnMatrix.ncol_T, ColumnMatrix.nrow_T, hEr, hLc]),
    ColumnMatrix.J_mul _ _ (ColumnMatrix.wf_mul _ _) (ColumnMatrix.wf_T _)
      (by rw [ColumnMatrix.ncol_mul, ColumnMatrix.ncol_T, ColumnMatrix.nrow_T, hUr, hEc]),
    ColumnMatrix.J_mul _ _ (ColumnMatrix.wf_T _) (ColumnMatrix.wf_T _)
      (by rw [ColumnMatrix.ncol_T, ColumnMatrix.nrow_T, hPr, hUc]),
    ColumnMatrix.J_J A hA] at h4
  exact h4

theorem elc_col_cons_none (idx_map : List (Option Nat)) (r : Nat) (v : α)
    (rest : SpVec α) (h : idx_map.getD r none = none) :
    elc_col idx_map ((r, v) :: rest) = [] := by
  rw [elc_col, h]

theorem elc_col_cons_some (idx_map : List (Option Nat)) (r : Nat) (v : α)
    (rest : SpVec α) (r2 : Nat) (h : idx_map.getD r none = some r2) :
    elc_col idx_map ((r, v) :: rest) = (r2, v) :: elc_col idx_map rest := by
  rw [elc_col, h]

theorem elc_col_wf (idx_map : List (Option Nat))
    (hmono : ∀ r1 r2 p1 p2, r1 < r2 → idx_map.getD r1 none = some p1 →
      idx_map.getD r2 none = some p2 → p1 < p2) :
    ∀ v : SpVec α, v.wf →
      (elc_col idx_map v).wf ∧
        ∀ p ∈ elc_col idx_map v, ∃ q, q ∈ v ∧ idx_map.getD q.1 none = some p.1 := by
  intro v
  induction v with
  | nil =>
    intro _
    exact ⟨⟨List.Pairwise.nil, fun p hp => absurd hp (List.not_mem_nil p)⟩,
      fun p hp => absurd hp (List.not_mem_nil p)⟩
  | cons q t ih =>
    intro hv
    obtain ⟨r, v0⟩ := q
    have hpw := List.pairwise_cons.mp hv.1
    have htwf : SpVec.wf t := ⟨hpw.2, fun p hp => hv.2 p (List.mem_cons_of_mem _ hp)⟩
    obtain ⟨ihwf, ihmem⟩ := ih htwf
    cases hidx : idx_map.getD r none with
    | none =>
      rw [elc_col_cons_none idx_map r v0 t hidx]
      exact ⟨⟨List.Pairwise.nil, fun p hp => absurd hp (List.not_mem_nil p)⟩,
        fun p hp => absurd hp (List.not_mem_nil p)⟩
    | some r2 =>
      rw [elc_col_cons_some idx_map r v0 t r2 hidx]
      refine ⟨⟨List.pairwise_cons.mpr ⟨?_, ihwf.1⟩, ?_⟩, ?_⟩
      · intro p hp
        obtain ⟨q', hq', hidx'⟩ := ihmem p hp
        exact hmono r q'.1 r2 p.1 (hpw.1 q' hq') hidx hidx'
      · intro p hp
        rcases List.mem_cons.mp hp with hh | hh
        · rw [hh]
          exact hv.2 (r, v0) (List.mem_cons_self _ _)
        · exact ihwf.2 p hh
      · intro p hp
        rcases List.mem_cons.mp hp with hh | hh
        · refine ⟨(r, v0), List.mem_cons_self _ _, ?_⟩
          rw [hh]
          exact hidx
        · obtain ⟨q', hq', hidx'⟩ := ihmem p hh
          exact ⟨q', List.mem_cons_of_mem _ hq', hidx'⟩

theorem elc_go_wf (idx_map : List (Option Nat)) (L : ColumnMatrix α) (n : Nat)
    (hLw : L.wf)
    (hmono : ∀ r1 r2 p1 p2, r1 < r2 → idx_map.getD r1 none = some p1 →
      idx_map.getD r2 none = some p2 → p1 < p2)
    (M : Nat)
    (hbound : ∀ r p, idx_map.getD r none = some p → p < M) :
    ∀ fuel ell (Lt : ColumnMatrix α), Lt.wf → Lt.nrow = M →
      (elc_go idx_map L n fuel Lt ell).wf ∧ (elc_go idx_map L n fuel Lt ell).nrow = M := by
  intro fuel
  induction fuel with
  | zero =>
    intro ell Lt hw hr
    exact ⟨hw, hr⟩
  | succ f ih =>
    intro ell Lt hw hr
    by_cases hell : ell < n
    · cases hidx : idx_map.getD ell none with
      | none =>
        have heq : elc_go idx_map L n (f + 1) Lt ell = Lt := by
          rw [elc_go, if_pos hell, hidx]
        rw [heq]
        exact ⟨hw, hr⟩
      | some j_ell =>
        have heq : elc_go idx_map L n (f + 1) Lt ell
            = elc_go idx_map L n f
              (Lt.setCol j_ell (elc_col idx_map (L.col ell))) (ell + 1) := by
          rw [elc_go, if_pos hell, hidx]
        rw [heq]
        apply ih (ell + 1)
        · apply ColumnMatrix.wf_setCol Lt hw j_ell _
            (elc_col_wf idx_map hmono (L.col ell) (ColumnMatrix.col_wf L hLw ell).1).1
          intro p hp
          obtain ⟨q, hq, hidx'⟩ :=
            (elc_col_wf idx_map hmono (L.col ell) (ColumnMatrix.col_wf L hLw ell).1).2 p hp
          have := hbound q.1 p.1 hidx'
          omega
        · show Lt.nrow = M
          exact hr
    · have heq : elc_go idx_map L n (f + 1) Lt ell = Lt := by
        unfold elc_go
        rw [if_neg hell]
      rw [heq]
      exact ⟨hw, hr⟩

theorem EL_L_commute_wf (E L : ColumnMatrix α) (hE : E.wf) (hEL : E.is_EL = true)
    (hLw : L.wf) : (EL_L_commute E L).wf := by
  have hspec := ers_go_spec E.nrow E.ncol E (is_EL_pivot_mono E hEL) E.ncol 0 E []
    (fun _ => rfl) rfl rfl (fun r' _ => rfl) (fun _ _ _ p _ => Nat.zero_le p)
  have hpiv : ∀ j', pivot_ind (extract_row_scale E).1 j' = pivot_ind E j' := hspec.1
  have hnr : (extract_row_scale E).1.nrow = E.nrow := hspec.2.1
  have hnc : (extract_row_scale E).1.ncol = E.ncol := hspec.2.2.1
  show ((elc_go ((List.range (extract_row_scale E).1.ncol).map
      (fun j => pivot_ind (extract_row_scale E).1 j)) L (extract_row_scale E).1.ncol
      (extract_row_scale E).1.ncol
      (ColumnMatrix.identity (extract_row_scale E).1.nrow) 0).row_scale
        (extract_row_scale E).2).wf
  apply ColumnMatrix.wf_row_scale
  have hidxmono : ∀ r1 r2 p1 p2, r1 < r2 →
      (((List.range (extract_row_scale E).1.ncol).map
        (fun j => pivot_ind (extract_row_scale E).1 j)).getD r1 none = some p1) →
      (((List.range (extract_row_scale E).1.ncol).map
        (fun j => pivot_ind (extract_row_scale E).1 j)).getD r2 none = some p2) →
      p1 < p2 := by
    intro r1 r2 p1 p2 h12 h1 h2
    rw [getD_map_range] at h1 h2
    by_cases hr2 : r2 < (extract_row_scale E).1.ncol
    · rw [if_pos hr2, hpiv] at h2
      rw [if_pos (by omega), hpiv] at h1
      exact is_EL_pivot_mono E hEL r1 r2 h12 (by rw [← hnc]; exact hr2) p1 p2 h1 h2
    · rw [if_neg hr2] at h2
      cases h2
  have hidxbound : ∀ r p, (((List.range (extract_row_scale E).1.ncol).map
      (fun j => pivot_ind (extract_row_scale E).1 j)).getD r none = some p) →
      p < (extract_row_scale E).1.nrow := by
    intro r p hp
    rw [getD_map_range] at hp
    by_cases hrn : r < (extract_row_scale E).1.ncol
    · rw [if_pos hrn, hpiv] at hp
      unfold pivot_ind at hp
      cases hh : (E.col r).head? with
      | none =>
        rw [hh] at hp
        cases hp
      | some q =>
        rw [hh] at hp
        injection hp with hp
        have hqmem : q ∈ E.col r := List.mem_of_mem_head? hh
        have hqb := (ColumnMatrix.col_wf E hE r).2 q hqmem
        omega
    · rw [if_neg hrn] at hp
      cases hp
  exact (elc_go_wf _ L _ hLw hidxmono _ hidxbound _ 0 _
    (ColumnMatrix.wf_identity _) rfl).1

theorem L_EL_commute_wf (L E : ColumnMatrix α) : (L_EL_commute L E).wf :=
  ColumnMatrix.wf_J _

/-- Claim C1: for every well-formed m×n matrix A over a field, each of the
four factorization entry points reconstructs A exactly under its own
product ordering: LEUP gives L·E·U·P = A, PLEU gives P·L·E·U = A, UELP
gives U·E·L·P = A, and PUEL gives P·U·E·L = A. -/
theorem factorization_reconstruction (A : ColumnMatrix α) (hA : A.wf) :
    (LEUP A).L * (LEUP A).E * (LEUP A).U * (LEUP A).P = A
    ∧ (PLEU A).P * (PLEU A).L * (PLEU A).E * (PLEU A).U = A
    ∧ (UELP A).U * (UELP A).E * (UELP A).L * (UELP A).P = A
    ∧ (PUEL A).P * (PUEL A).U * (PUEL A).E * (PUEL A).L = A :=
  ⟨(LEUP_spec A hA).1, PLEU_prod A hA, UELP_prod A hA, PUEL_prod A hA⟩

/-- Concrete well-formed 2×2 matrix over `F5` used by the witnesses. -/
def Arec : ColumnMatrix F5 := ⟨2, 2, [[(0, 2), (1, 1)], [(1, 3)]]⟩

/-- Witness for claim C1 at the concrete matrix `Arec` over `F5`. -/
theorem factorization_reconstruction_witness :
    Arec.wf ∧
      ((LEUP Arec).L * (LEUP Arec).E * (LEUP Arec).U * (LEUP Arec).P = Arec
      ∧ (PLEU Arec).P * (PLEU Arec).L * (PLEU Arec).E * (PLEU Arec).U = Arec
      ∧ (UELP Arec).U * (UELP Arec).E * (UELP Arec).L * (UELP Arec).P = Arec
      ∧ (PUEL Arec).P * (PUEL Arec).U * (PUEL Arec).E * (PUEL Arec).L = Arec) :=
  ⟨by decide, factorization_reconstruction Arec (by decide)⟩

/-- Claim C2: for every well-formed input A, each of the four factorization
bundles has a lower-unitriangular L, an upper-unitriangular U, a pivot
(permutation) matrix P, and an E carrying the echelon shape named for that
entry point: EL for LEUP, EU for PLEU, ELhat for UELP, EUhat for PUEL. -/
theorem factorization_shapes (A : ColumnMatrix α) (hA : A.wf) :
    ((LEUP A).L.is_lower = true ∧ (∀ c, c < A.nrow → (LEUP A).L.entry c c = 1)
      ∧ (LEUP A).U.is_upper = true ∧ (∀ c, c < A.ncol → (LEUP A).U.entry c c = 1)
      ∧ (LEUP A).P.is_pivot_matrix = true ∧ (LEUP A).E.is_EL = true)
    ∧ ((PLEU A).L.is_lower = true ∧ (∀ c, c < A.nrow → (PLEU A).L.entry c c = 1)
      ∧ (PLEU A).U.is_upper = true ∧ (∀ c, c < A.ncol → (PLEU A).U.entry c c = 1)
      ∧ (PLEU A).P.is_pivot_matrix = true ∧ (PLEU A).E.is_EU = true)
    ∧ ((UELP A).L.is_lower = true ∧ (∀ c, c < A.ncol → (UELP A).L.entry c c = 1)
      ∧ (UELP A).U.is_upper = true ∧ (∀ c, c < A.nrow → (UELP A).U.entry c c = 1)
      ∧ (UELP A).P.is_pivot_matrix = true ∧ (UELP A).E.is_ELhat = true)
    ∧ ((PUEL A).L.is_lower = true ∧ (∀ c, c < A.ncol → (PUEL A).L.entry c c = 1)
      ∧ (PUEL A).U.is_upper = true ∧ (∀ c, c < A.nrow → (PUEL A).U.entry c c = 1)
      ∧ (PUEL A).P.is_pivot_matrix = true ∧ (PUEL A).E.is_EUhat = true) := by
  refine ⟨?_, ?_, ?_, ?_⟩
  · obtain ⟨_, hLw, hEw, hUw, hPw, hLr, hLc, hEr, hEc, hUr, hUc, hPr, hPc, hPperm,
      hISL, hUnitL, hISU, hUnitU, hISP, hISEL⟩ := LEUP_spec A hA
    exact ⟨hISL, hUnitL, hISU, hUnitU, hISP, hISEL⟩
  · obtain ⟨_, hLw, hEw, hUw, hPw, hLr, hLc, hEr, hEc, hUr, hUc, hPr, hPc, hPperm,
      hISL, hUnitL, hISU, hUnitU, hISP, hISEL⟩ := LEUP_spec A.T (ColumnMatrix.wf_T A)
    have hUr2 : (LEUP A.T).U.nrow = A.nrow := hUr
    have hUc2 : (LEUP A.T).U.ncol = A.nrow := hUc
    have hLr2 : (LEUP A.T).L.nrow = A.ncol := hLr
    have hLc2 : (LEUP A.T).L.ncol = A.ncol := hLc
    have hUnitU2 : ∀ c, c < A.nrow → (LEUP A.T).U.entry c c = 1 := hUnitU
    have hUnitL2 : ∀ c, c < A.ncol → (LEUP A.T).L.entry c c = 1 := hUnitL
    refine ⟨?_, ?_, ?_, ?_, ?_, ?_⟩
    · show (LEUP A.T).U.T.is_lower = true
      exact is_lower_T _ hISU
    · intro c hc
      show (LEUP A.T).U.T.entry c c = 1
      exact diag_T _ (fun c' hc' => hUnitU2 c' (by omega)) c
        (show c < (LEUP A.T).U.ncol from by omega)
        (show c < (LEUP A.T).U.nrow from by omega)
    · show (LEUP A.T).L.T.is_upper = true
      exact is_upper_T _ hISL
    · intro c hc
      show (LEUP A.T).L.T.entry c c = 1
      exact diag_T _ (fun c' hc' => hUnitL2 c' (by omega)) c
        (show c < (LEUP A.T).L.ncol from by omega)
        (show c < (LEUP A.T).L.nrow from by omega)
    · show (LEUP A.T).P.T.is_pivot_matrix = true
      exact is_pivot_matrix_of_PermMat _ (ColumnMatrix.PermMat_T _ hPperm hPw)
        (ColumnMatrix.wf_T _)
    · show (LEUP A.T).E.T.T.is_EL = true
      rw [ColumnMatrix.T_T _ hEw]
      exact hISEL
  · obtain ⟨_, hLw, hEw, hUw, hPw, hLr, hLc, hEr, hEc, hUr, hUc, hPr, hPc, hPperm,
      hISL, hUnitL, hISU, hUnitU, hISP, hISEL⟩ := LEUP_spec A.J (ColumnMatrix.wf_J A)
    have hUr3 : (LEUP A.J).U.nrow = A.ncol := hUr
    have hUc3 : (LEUP A.J).U.ncol = A.ncol := hUc
    have hLr3 : (LEUP A.J).L.nrow = A.nrow := hLr
    have hLc3 : (LEUP A.J).L.ncol = A.nrow := hLc
    have hUnitU3 : ∀ c, c < A.ncol → (LEUP A.J).U.entry c c = 1 := hUnitU
    have hUnitL3 : ∀ c, c < A.nrow → (LEUP A.J).L.entry c c = 1 := hUnitL
    have hsqU : (LEUP A.J).U.nrow = (LEUP A.J).U.ncol := by omega
    have hsqL : (LEUP A.J).L.nrow = (LEUP A.J).L.ncol := by omega
    refine ⟨?_, ?_, ?_, ?_, ?_, ?_⟩
    · show (LEUP A.J).U.J.is_lower = true
      exact is_lower_J _ hsqU hISU
    · intro c hc
      show (LEUP A.J).U.J.entry c c = 1
      exact diag_J _ hsqU (fun c' hc' => hUnitU3 c' (by omega)) c
        (show c < (LEUP A.J).U.ncol from by omega)
    · show (LEUP A.J).L.J.is_upper = true
      exact is_upper_J _ hsqL hISL
    · intro c hc
      show (LEUP A.J).L.J.entry c c = 1
      exact diag_J _ hsqL (fun c' hc' => hUnitL3 c' (by omega)) c
        (show c < (LEUP A.J).L.ncol from by omega)
    · show (LEUP A.J).P.J.is_pivot_matrix = true
      exact is_pivot_matrix_of_PermMat _ (ColumnMatrix.PermMat_J _ hPperm hPw)
        (ColumnMatrix.wf_J _)
    · show (LEUP A.J).E.J.J.is_EL = true
      rw [ColumnMatrix.J_J _ hEw]
      exact hISEL
  · obtain ⟨_, hLw, hEw, hUw, hPw, hLr, hLc, hEr, hEc, hUr, hUc, hPr, hPc, hPperm,
      hISL, hUnitL, hISU, hUnitU, hISP, hISEL⟩ :=
      LEUP_spec (A.J.T) (ColumnMatrix.wf_T A.J)
    have hUr4 : (LEUP (A.J.T)).U.nrow = A.nrow := hUr
    have hUc4 : (LEUP (A.J.T)).U.ncol = A.nrow := hUc
    have hLr4 : (LEUP (A.J.T)).L.nrow = A.ncol := hLr
    have hLc4 : (LEUP (A.J.T)).L.ncol = A.ncol := hLc
    have hUnitU4 : ∀ c, c < A.nrow → (LEUP (A.J.T)).U.entry c c = 1 := hUnitU
    have hUnitL4 : ∀ c, c < A.ncol → (LEUP (A.J.T)).L.entry c c = 1 := hUnitL
    have hsqLT : (LEUP (A.J.T)).L.T.nrow = (LEUP (A.J.T)).L.T.ncol := by
      show (LEUP (A.J.T)).L.ncol = (LEUP (A.J.T)).L.nrow
      omega
    have hsqUT : (LEUP (A.J.T)).U.T.nrow = (LEUP (A.J.T)).U.T.ncol := by
      show (LEUP (A.J.T)).U.ncol = (LEUP (A.J.T)).U.nrow
      omega
    have hdiagLT : ∀ c', c' < (LEUP (A.J.T)).L.nrow →
        (LEUP (A.J.T)).L.T.entry c' c' = 1 := by
      intro c' hc'
      exact diag_T _ (fun c'' hc'' => hUnitL4 c'' (by omega)) c'
        (show c' < (LEUP (A.J.T)).L.ncol from by omega)
        (show c' < (LEUP (A.J.T)).L.nrow from by omega)
    have hdiagUT : ∀ c', c' < (LEUP (A.J.T)).U.nrow →
        (LEUP (A.J.T)).U.T.entry c' c' = 1 := by
      intro c' hc'
      exact diag_T _ (fun c'' hc'' => hUnitU4 c'' (by omega)) c'
        (show c' < (LEUP (A.J.T)).U.ncol from by omega)
        (show c' < (LEUP (A.J.T)).U.nrow from by omega)
    refine ⟨?_, ?_, ?_, ?_, ?_, ?_⟩
    · show (LEUP (A.J.T)).L.T.J.is_lower = true
      exact is_lower_J _ hsqLT (is_upper_T _ hISL)
    · intro c hc
      show (LEUP (A.J.T)).L.T.J.entry c c = 1
      exact diag_J _ hsqLT hdiagLT c (show c < (LEUP (A.J.T)).L.nrow from by omega)
    · show (LEUP (A.J.T)).U.T.J.is_upper = true
      exact is_upper_J _ hsqUT (is_lower_T _ hISU)
    · intro c hc
      show (LEUP (A.J.T)).U.T.J.entry c c = 1
      exact diag_J _ hsqUT hdiagUT c (show c < (LEUP (A.J.T)).U.nrow from by omega)
    · show (LEUP (A.J.T)).P.T.J.is_pivot_matrix = true
      exact is_pivot_matrix_of_PermMat _
        (ColumnMatrix.PermMat_J _ (ColumnMatrix.PermMat_T _ hPperm hPw)
          (ColumnMatrix.wf_T _))
        (ColumnMatrix.wf_J _)
    · show (LEUP (A.J.T)).E.T.J.J.T.is_EL = true
      rw [ColumnMatrix.J_J _ (ColumnMatrix.wf_T _), ColumnMatrix.T_T _ hEw]
      exact hISEL

/-- Witness for claim C2 at the concrete matrix `Arec` over `F5`. -/
theorem factorization_shapes_witness :
    Arec.wf ∧
      (((LEUP Arec).L.is_lower = true
        ∧ (∀ c, c < Arec.nrow → (LEUP Arec).L.entry c c = 1)
        ∧ (LEUP Arec).U.is_upper = true
        ∧ (∀ c, c < Arec.ncol → (LEUP Arec).U.entry c c = 1)
        ∧ (LEUP Arec).P.is_pivot_matrix = true ∧ (LEUP Arec).E.is_EL = true)
      ∧ ((PLEU Arec).L.is_lower = true
        ∧ (∀ c, c < Arec.nrow → (PLEU Arec).L.entry c c = 1)
        ∧ (PLEU Arec).U.is_upper = true
        ∧ (∀ c, c < Arec.ncol → (PLEU Arec).U.entry c c = 1)
        ∧ (PLEU Arec).P.is_pivot_matrix = true ∧ (PLEU Arec).E.is_EU = true)
      ∧ ((UELP Arec).L.is_lower = true
        ∧ (∀ c, c < Arec.ncol → (UELP Arec).L.entry c c = 1)
        ∧ (UELP Arec).U.is_upper = true
        ∧ (∀ c, c < Arec.nrow → (UELP Arec).U.entry c c = 1)
        ∧ (UELP Arec).P.is_pivot_matrix = true ∧ (UELP Arec).E.is_ELhat = true)
      ∧ ((PUEL Arec).L.is_lower = true
        ∧ (∀ c, c < Arec.ncol → (PUEL Arec).L.entry c c = 1)
        ∧ (PUEL Arec).U.is_upper = true
        ∧ (∀ c, c < Arec.nrow → (PUEL Arec).U.entry c c = 1)
        ∧ (PUEL Arec).P.is_pivot_matrix = true ∧ (PUEL Arec).E.is_EUhat = true)) :=
  ⟨by decide, factorization_shapes Arec (by decide)⟩

/-- Claim C7: every matrix returned by the four factorizations and by the
commutation operators satisfies the sparse-vector data-model invariant:
in every column, strictly increasing row indices and no stored zeros. -/
theorem factorization_preserves_wf (A E L : ColumnMatrix α) (hA : A.wf)
    (hE : E.wf) (hEL : E.is_EL = true) (hL : L.wf) :
    ((LEUP A).L.wf ∧ (LEUP A).E.wf ∧ (LEUP A).U.wf ∧ (LEUP A).P.wf)
    ∧ ((PLEU A).L.wf ∧ (PLEU A).E.wf ∧ (PLEU A).U.wf ∧ (PLEU A).P.wf)
    ∧ ((UELP A).L.wf ∧ (UELP A).E.wf ∧ (UELP A).U.wf ∧ (UELP A).P.wf)
    ∧ ((PUEL A).L.wf ∧ (PUEL A).E.wf ∧ (PUEL A).U.wf ∧ (PUEL A).P.wf)
    ∧ (EL_L_commute E L).wf ∧ (L_EL_commute L E).wf := by
  obtain ⟨_, hLw, hEw, hUw, hPw, _⟩ := LEUP_spec A hA
  refine ⟨⟨hLw, hEw, hUw, hPw⟩, ⟨?_, ?_, ?_, ?_⟩, ⟨?_, ?_, ?_, ?_⟩, ⟨?_, ?_, ?_, ?_⟩,
    EL_L_commute_wf E L hE hEL hL, L_EL_commute_wf L E⟩
  · show (LEUP A.T).U.T.wf
    exact ColumnMatrix.wf_T _
  · show (LEUP A.T).E.T.wf
    exact ColumnMatrix.wf_T _
  · show (LEUP A.T).L.T.wf
    exact ColumnMatrix.wf_T _
  · show (LEUP A.T).P.T.wf
    exact ColumnMatrix.wf_T _
  · show (LEUP A.J).U.J.wf
    exact ColumnMatrix.wf_J _
  · show (LEUP A.J).E.J.wf
    exact ColumnMatrix.wf_J _
  · show (LEUP A.J).L.J.wf
    exact ColumnMatrix.wf_J _
  · show (LEUP A.J).P.J.wf
    exact ColumnMatrix.wf_J _
  · show (LEUP (A.J.T)).L.T.J.wf
    exact ColumnMatrix.wf_J _
  · show (LEUP (A.J.T)).E.T.J.wf
    exact ColumnMatrix.wf_J _
  · show (LEUP (A.J.T)).U.T.J.wf
    exact ColumnMatrix.wf_J _
  · show (LEUP (A.J.T)).P.T.J.wf
    exact ColumnMatrix.wf_J _

/-- Witness for claim C7 at the concrete matrices `Arec`, `Ewit`, `Lwit`
over `F5`. -/
theorem factorization_preserves_wf_witness :
    Arec.wf ∧ Ewit.wf ∧ Ewit.is_EL = true ∧ Lwit.wf ∧
      (((LEUP Arec).L.wf ∧ (LEUP Arec).E.wf ∧ (LEUP Arec).U.wf ∧ (LEUP Arec).P.wf)
      ∧ ((PLEU Arec).L.wf ∧ (PLEU Arec).E.wf ∧ (PLEU Arec).U.wf ∧ (PLEU Arec).P.wf)
      ∧ ((UELP Arec).L.wf ∧ (UELP Arec).E.wf ∧ (UELP Arec).U.wf ∧ (UELP Arec).P.wf)
      ∧ ((PUEL Arec).L.wf ∧ (PUEL Arec).E.wf ∧ (PUEL Arec).U.wf ∧ (PUEL Arec).P.wf)
      ∧ (EL_L_commute Ewit Lwit).wf ∧ (L_EL_commute Lwit Ewit).wf) :=
  ⟨by decide, by decide, by decide, by decide,
    factorization_preserves_wf Arec Ewit Lwit (by decide) (by decide) (by decide)
      (by decide)⟩
